import Mathlib

/-!
Verification of the bidirectional Wikipedia link-path search engine
(`main.py`: `Page`, `Tree`, `Game`; `testing.py`: `validatePath`).

The network-facing neighbor lookup (`Tree.getChildren`, which scrapes a page's
outgoing links for the starting tree and the incoming links for the ending
tree) is the external collaborator of the core: it is modelled as an explicit
parameter `nb : Name → Bool → List Name` (the `Bool` is the tree's
`isStarting` flag).  Everything else is translated from `main.py`:

* `Page` keeps its identifier and the page that discovered it; equality and
  hashing are by identifier only, so a Python `set` of pages behaves as a
  collection keyed by name.  Such sets are modelled as `List Page` with
  name-keyed membership (`pnames`), insertion (`paddNew`, a no-op when the
  name is present, so the first-discovered instance is kept, exactly like
  `set.add`), and removal (a filter by name, like `set.remove`).  `set.pop()`
  removes an arbitrary element; the model takes the head of the list, one of
  the possible behaviours of the Python runtime.
* Operations that would raise in Python (`set.pop` on an empty set,
  `set.remove` of a missing element, list indexing out of bounds, `levels[-1]`
  on an empty list, an unbound `startMid`/`endMid` in `Game.__getPath`) are
  modelled by returning `none`.
* The unbounded `while` loops of `Game.search` are given explicit fuel; a
  `none` result means either fuel exhaustion or a would-be Python exception,
  and every theorem about a run carries a `… = some …` hypothesis or exhibits
  the fuel explicitly.
* Printing is dropped; the distinct return points of `Game.search` are kept
  as a `SearchStatus` value, and the number of `explore` calls a search
  performs is returned alongside the result (the code performs exactly one
  network expansion per `explore` call, so this counter is the "expansion
  work" the specification talks about).
-/

namespace Wiki

/-- Canonical page identifier (the name part of the Wikipedia URL). -/
abbrev Name := String

/-- A discovered page: its identifier together with the page that discovered
it; `root` has no parent (`Page.__init__` with `parent=None`).  Python
equality/hashing is by `name` only. -/
inductive Page where
  | root (name : Name)
  | child (name : Name) (parent : Page)
deriving DecidableEq, Repr

namespace Page

/-- `Page.getName`. -/
def name : Page → Name
  | .root n => n
  | .child n _ => n

/-- `Page.getParent`. -/
def getParent : Page → Option Page
  | .root _ => none
  | .child _ p => some p

/-- The parent chain `[p, p.parent, …, root]` that `Game.__getPath` walks. -/
def chain : Page → List Page
  | .root n => [.root n]
  | .child n p => .child n p :: p.chain

/-- The root the parent chain of a page ends at. -/
def chainRoot : Page → Page
  | .root n => .root n
  | .child _ p => p.chainRoot

end Page

/-- The identifiers of the members of a Python set of pages. -/
def pnames (s : List Page) : List Name := s.map Page.name

/-- `set.add`: a no-op when a page with the same identifier is already
present (first discovery wins), otherwise the new page is inserted. -/
def paddNew (s : List Page) (p : Page) : List Page :=
  if p.name ∈ pnames s then s else s ++ [p]

/-- The neighbor-lookup collaborator (`Tree.getChildren` without the tree
state): identifiers adjacent to the given identifier, `true` for the forward
(outgoing links) direction used by the starting tree, `false` for the reverse
(incoming links) direction used by the ending tree.  `getChildren` returns a
set, so the list is deduplicated at the call site. -/
def Nb := Name → Bool → List Name

/-- The state of one search frontier (`Tree.__init__` fields; the `requests`
session is network glue and is dropped). -/
structure Tree where
  root : Page
  isStarting : Bool
  endpoints : List Page
  queue : List Page
  queueLevel : Nat
  levels : List (List Page)
deriving DecidableEq, Repr

/-- `Tree.__init__`: every collection starts as a fresh singleton `{root}`. -/
def Tree.init (root : Page) (isStarting : Bool) : Tree :=
  { root := root, isStarting := isStarting, endpoints := [root], queue := [root],
    queueLevel := 0, levels := [[root]] }

/-- The tuple returned by `Tree.explore`, together with the updated tree. -/
structure ExpRes where
  ok : Bool
  newPages : List Page
  levelDone : Bool
  tree : Tree
deriving DecidableEq, Repr

/-- `self.levels[-1].add(child)` for each child: extend the last level. -/
def addToLast (ls : List (List Page)) (xs : List Page) : List (List Page) :=
  match ls with
  | [] => []
  | [l] => [List.foldl paddNew l xs]
  | l :: m :: rest => l :: addToLast (m :: rest) xs

/-- `set().union(*self.levels)`: every identifier present anywhere in the
level structure. -/
def seenNames (ls : List (List Page)) : List Name := (ls.map pnames).flatten

/-- `Tree.explore`: pop one pending page, remove it from the endpoints, fetch
its neighbors, discard the ones already seen anywhere in the levels, place
the new ones in the deepest level and the endpoints, and advance the queue
level when the queue drains.  `none` models a raised exception (pop or remove
on an empty/missing element, an out-of-range level index). -/
def Tree.explore (nb : Nb) (t : Tree) : Option ExpRes :=
  match t.queue with
  | [] => none
  | u :: qrest =>
    if u.name ∈ pnames t.endpoints then
      let endpoints1 := t.endpoints.filter fun q => decide (q.name ≠ u.name)
      let children := ((nb u.name t.isStarting).dedup).map fun n => Page.child n u
      let levels1 :=
        if (t.queueLevel : Int) = (t.levels.length : Int) - 1 then t.levels ++ [[]]
        else t.levels
      if levels1.isEmpty then none
      else
        let seen := seenNames levels1
        let unseen := children.filter fun c => decide (c.name ∉ seen)
        let levels2 := addToLast levels1 unseen
        let endpoints2 := List.foldl paddNew endpoints1 unseen
        if qrest.isEmpty then
          match levels2.get? (t.queueLevel + 1) with
          | none => none
          | some lvl =>
            if lvl.isEmpty then
              let t2 := { t with endpoints := endpoints2, queue := ([] : List Page), queueLevel := t.queueLevel + 1, levels := levels2 }
              some { ok := false, newPages := [], levelDone := false, tree := t2 }
            else
              let t2 := { t with endpoints := endpoints2, queue := lvl, queueLevel := t.queueLevel + 1, levels := levels2 }
              some { ok := true, newPages := unseen, levelDone := true, tree := t2 }
        else
          let t2 := { t with endpoints := endpoints2, queue := qrest, levels := levels2 }
          some { ok := true, newPages := unseen, levelDone := false, tree := t2 }
    else none

/-- The bidirectional search state (`Game.__init__` fields). -/
structure Game where
  startTree : Tree
  endTree : Tree
  searchIndex : Nat
  paths : List (List Page)
deriving DecidableEq, Repr

/-- `Game.__init__` from two identifiers (URL canonicalization is identifier
glue outside the core). -/
def Game.init (startPage endPage : Name) : Game :=
  { startTree := Tree.init (.root startPage) true,
    endTree := Tree.init (.root endPage) false,
    searchIndex := 0, paths := [] }

/-- Locate the unique member of a set of pages carrying an identifier (the
`for … if … == mid` scans of `Game.__getPath`; the sets are keyed by name, so
at most one member matches). -/
def findByName (s : List Page) (n : Name) : Option Page :=
  s.find? fun q => decide (q.name = n)

/-- `Game.__getPath`: walk the parent chains of the two endpoint instances
carrying the meeting identifier and concatenate
`[startRoot, …, mid, …, endRoot]`.  (The middle element the source places is
the intersection member itself, whose parent is never read and whose
identifier equals `sm`'s, so `sm` stands in for it.)  `none` models the
`NameError` the source would raise when no endpoint carries the
identifier. -/
def Game.getPath (g : Game) (midName : Name) : Option (List Page) :=
  match findByName g.startTree.endpoints midName, findByName g.endTree.endpoints midName with
  | some sm, some em => some (sm.chain.reverse ++ em.chain.drop 1)
  | _, _ => none

/-- One iteration of the `for mid in endpoints.intersection(res[1])` body:
bump `searchIndex` when still below the target and append the reconstructed
path. -/
def stepMid (target : Nat) (g : Game) (midName : Name) : Option Game :=
  match g.getPath midName with
  | none => none
  | some path =>
    some { g with
      searchIndex := if g.searchIndex < target then g.searchIndex + 1 else g.searchIndex,
      paths := g.paths ++ [path] }

/-- The whole intersection loop. -/
def procMids (target : Nat) : List Name → Game → Option Game
  | [], g => some g
  | m :: ms, g =>
    match stepMid target g m with
    | none => none
    | some g1 => procMids target ms g1

/-- The distinct return points of `Game.search`: the normal return, and the
two "No paths possible" early returns (starting / ending tree drained). -/
inductive SearchStatus where
  | completed
  | startExhausted
  | endExhausted
deriving DecidableEq, Repr

/-- The tree the currently active side of the search explores. -/
def sideTree (s : Bool) (g : Game) : Tree := if s then g.startTree else g.endTree

/-- Store back the explored tree of the active side. -/
def setSideTree (s : Bool) (g : Game) (t : Tree) : Game :=
  if s then { g with startTree := t } else { g with endTree := t }

/-- `endpoints.intersection(res[1])` as a list of identifiers, in the order
the new pages were produced. -/
def meet (other : List Page) (newPages : List Page) : List Name :=
  pnames (newPages.filter fun p => decide (p.name ∈ pnames other))

/-- The endpoint set of the side opposite the active one, captured before the
inner loop (`endpoints = self.endTree.getEndpoints()` and its mirror). -/
def otherEndpoints (s : Bool) (g : Game) : List Page :=
  if s then g.endTree.endpoints else g.startTree.endpoints

/-- The inner `while not queueEmpty and self.searchIndex < targetIndex` loop
of `Game.search`, exploring one side until its level drains, the target is
reached, or the side is exhausted (`res[0]` false, third component `true`).
The `Nat` argument threaded through counts `explore` calls. -/
def innerLoop (nb : Nb) (s : Bool) (other : List Page) (target : Nat) :
    Nat → Game → Nat → Option (Game × Nat × Bool)
  | 0, _, _ => none
  | fuel + 1, g, ex =>
    if g.searchIndex < target then
      match (sideTree s g).explore nb with
      | none => none
      | some res =>
        let g1 := setSideTree s g res.tree
        if res.ok then
          match procMids target (meet other res.newPages) g1 with
          | none => none
          | some g2 =>
            if res.levelDone then some (g2, ex + 1, false)
            else innerLoop nb s other target fuel g2 (ex + 1)
        else some (g1, ex + 1, true)
    else some (g, ex, false)

/-- The side-selection condition of `Game.search` (line 283): keep searching
the starting tree while it is mid-level, or pick it when the ending tree is
not mid-level and the starting tree has no more endpoints than the ending
tree; otherwise search the ending tree.  Python's `len(...) - 2` arithmetic
is over the integers. -/
def condStart (g : Game) : Prop :=
  (g.startTree.queueLevel : Int) = (g.startTree.levels.length : Int) - 2 ∨
  ((g.endTree.queueLevel : Int) = (g.endTree.levels.length : Int) - 1 ∧
   g.startTree.endpoints.length ≤ g.endTree.endpoints.length)

instance (g : Game) : Decidable (condStart g) := by
  unfold condStart; infer_instance

/-- The outer `while self.searchIndex < targetIndex` loop of `Game.search`.
An exhausted side turns into the corresponding early-return status. -/
def outerLoop (nb : Nb) (target : Nat) :
    Nat → Game → Nat → Option (Game × Nat × SearchStatus)
  | 0, _, _ => none
  | fuel + 1, g, ex =>
    if g.searchIndex < target then
      let s : Bool := decide (condStart g)
      match innerLoop nb s (otherEndpoints s g) target (fuel + 1) g ex with
      | none => none
      | some (g1, ex1, true) =>
        some (g1, ex1, if s then .startExhausted else .endExhausted)
      | some (g1, ex1, false) => outerLoop nb target fuel g1 ex1
    else some (g, ex, .completed)

/-- What one `Game.search` call produces: the returned slice of paths, the
updated game, how many `explore` calls were made, and which return point was
taken. -/
structure SearchResult where
  delivered : List (List Page)
  game : Game
  explores : Nat
  status : SearchStatus
deriving DecidableEq, Repr

/-- `Game.search(count)`: check the two endpoint sets, serve the
already-buffered paths `paths[searchIndex : min(target, len(paths))]` (the
`for i in range(...)` loop advances `searchIndex` over them), then drive the
outer loop; every return point slices
`paths[originalStartIndex : originalStartIndex + count]`. -/
def Game.search (nb : Nb) (fuel : Nat) (count : Nat) (g : Game) : Option SearchResult :=
  let target := g.searchIndex + count
  if g.startTree.endpoints.isEmpty then
    some { delivered := [], game := g, explores := 0, status := .startExhausted }
  else if g.endTree.endpoints.isEmpty then
    some { delivered := [], game := g, explores := 0, status := .endExhausted }
  else
    let oi := g.searchIndex
    let g1 := { g with searchIndex := max g.searchIndex (min target g.paths.length) }
    match outerLoop nb target fuel g1 0 with
    | none => none
    | some (g2, ex, st) =>
      some { delivered := (g2.paths.drop oi).take count, game := g2,
             explores := ex, status := st }

/-- `validatePath` from `testing.py`, with the network lookup replaced by the
collaborator: a path of at least two pages each of which links forward to the
next. -/
def validatePath (nb : Nb) (path : List Page) : Bool :=
  decide (2 ≤ path.length) &&
  (path.zip (path.drop 1)).all fun pq => decide (pq.2.name ∈ (nb pq.1.name true).dedup)


/-! ### Unfolding lemmas for the fueled loops -/

theorem innerLoop_succ (nb : Nb) (s : Bool) (other : List Page) (target fuel : Nat)
    (g : Game) (ex : Nat) :
    innerLoop nb s other target (fuel + 1) g ex =
      (if g.searchIndex < target then
        match (sideTree s g).explore nb with
        | none => none
        | some res =>
          let g1 := setSideTree s g res.tree
          if res.ok then
            match procMids target (meet other res.newPages) g1 with
            | none => none
            | some g2 =>
              if res.levelDone then some (g2, ex + 1, false)
              else innerLoop nb s other target fuel g2 (ex + 1)
          else some (g1, ex + 1, true)
      else some (g, ex, false)) := rfl

theorem innerLoop_stop (nb : Nb) (s : Bool) (other : List Page) (target fuel : Nat)
    (g : Game) (ex : Nat) (h : ¬ g.searchIndex < target) :
    innerLoop nb s other target (fuel + 1) g ex = some (g, ex, false) := by
  rw [innerLoop_succ]; simp [h]

theorem outerLoop_succ (nb : Nb) (target fuel : Nat) (g : Game) (ex : Nat) :
    outerLoop nb target (fuel + 1) g ex =
      (if g.searchIndex < target then
        match innerLoop nb (decide (condStart g)) (otherEndpoints (decide (condStart g)) g)
            target (fuel + 1) g ex with
        | none => none
        | some (g1, ex1, true) =>
          some (g1, ex1, if decide (condStart g) then .startExhausted else .endExhausted)
        | some (g1, ex1, false) => outerLoop nb target fuel g1 ex1
      else some (g, ex, .completed)) := rfl

theorem outerLoop_stop (nb : Nb) (target fuel : Nat) (g : Game) (ex : Nat)
    (h : ¬ g.searchIndex < target) :
    outerLoop nb target (fuel + 1) g ex = some (g, ex, .completed) := by
  rw [outerLoop_succ]; simp [h]

/-! ### Concrete collaborator instances used in witnesses and counterexamples -/

/-- A neighbor lookup with no links at all. -/
def nbEmpty : Nb := fun _ _ => []

/-- Forward links `A → {B, C}` and nothing else in either direction. -/
def nbBranch : Nb := fun n dir =>
  if dir then (if n = "A" then ["B", "C"] else []) else []

/-- Forward links `A → {X, P}`, `X → {M}`; reverse lookups: `D` is linked
from `X`, and `X` is linked from `M`, `Q` and `R`. -/
def nbDemo : Nb := fun n dir =>
  if dir then (if n = "A" then ["X", "P"] else if n = "X" then ["M"] else [])
  else (if n = "D" then ["X"] else if n = "X" then ["M", "Q", "R"] else [])

/-- The chain `A → B → D`, with the reverse lookup returning exactly the
forward-edge predecessors. -/
def nbSym : Nb := fun n dir =>
  if dir then (if n = "A" then ["B"] else if n = "B" then ["D"] else [])
  else (if n = "D" then ["B"] else if n = "B" then ["A"] else [])

/-- The deepest discovered level `levels[len(levels) - 1]`. -/
def lastLevel (t : Tree) : List Page := t.levels.getLast?.getD []

/-! ### C10: searching for zero paths is a no-op -/

/-- C10: on every game state, `search(0, printInfo=False)` returns the empty
list, performs no `explore` call on either tree, and leaves `searchIndex`,
`paths` and both trees unchanged (the returned game is the argument itself). -/
theorem C10_zero_count (nb : Nb) (g : Game) :
    ∃ st, Game.search nb 1 0 g =
      some { delivered := [], game := g, explores := 0, status := st } := by
  obtain ⟨st0, et0, si0, ps0⟩ := g
  unfold Game.search
  by_cases h1 : st0.endpoints.isEmpty
  · exact ⟨.startExhausted, by simp [h1]⟩
  by_cases h2 : et0.endpoints.isEmpty
  · exact ⟨.endExhausted, by simp [h1, h2]⟩
  refine ⟨.completed, ?_⟩
  have hmax : max si0 (min (si0 + 0) ps0.length) = si0 := by omega
  have houter : outerLoop nb si0 1 ⟨st0, et0, si0, ps0⟩ 0 =
      some (⟨st0, et0, si0, ps0⟩, 0, .completed) := by
    have h0 : (1 : Nat) = 0 + 1 := rfl
    rw [h0, outerLoop_stop]
    simp
  simp [h1, h2, hmax, houter]

/-! ### Runs against the empty collaborator -/

/-- The starting tree of `Game.init a b` after its single possible `explore`
against the empty collaborator: the root was popped, no children arrived, and
the empty next level was detected. -/
def emptyRunTree (a : Name) : Tree :=
  ⟨.root a, true, [], [], 1, [[.root a], []]⟩

theorem nbEmpty_explore (a : Name) :
    (Tree.init (Page.root a) true).explore nbEmpty =
      some { ok := false, newPages := [], levelDone := false, tree := emptyRunTree a } := by
  unfold Tree.explore
  simp [Tree.init, pnames, Page.name, nbEmpty, seenNames, addToLast, emptyRunTree]

/-- Against a collaborator with no links at all, any `search` with a positive
count makes exactly one expansion, delivers nothing, and reports the starting
side exhausted. -/
theorem nbEmpty_search (a b : Name) (count : Nat) (h : 0 < count) :
    Game.search nbEmpty 2 count (Game.init a b) =
      some { delivered := [],
             game := ⟨emptyRunTree a, Tree.init (.root b) false, 0, []⟩,
             explores := 1, status := .startExhausted } := by
  have hc : condStart (Game.init a b) := by
    right
    constructor
    · simp [Game.init, Tree.init]
    · simp [Game.init, Tree.init]
  have hinner : innerLoop nbEmpty true (otherEndpoints true (Game.init a b)) (0 + count) 2
      (Game.init a b) 0 =
      some (⟨emptyRunTree a, Tree.init (.root b) false, 0, []⟩, 1, true) := by
    have h2 : (2 : Nat) = 1 + 1 := rfl
    rw [h2, innerLoop_succ]
    have hlt : (Game.init a b).searchIndex < 0 + count := by
      simp [Game.init]; omega
    simp only [hlt, if_true]
    have hside : sideTree true (Game.init a b) = Tree.init (Page.root a) true := by
      simp [sideTree, Game.init]
    rw [hside, nbEmpty_explore]
    simp [setSideTree, Game.init]
  have houter : outerLoop nbEmpty (0 + count) 2 (Game.init a b) 0 =
      some (⟨emptyRunTree a, Tree.init (.root b) false, 0, []⟩, 1, .startExhausted) := by
    have h2 : (2 : Nat) = 1 + 1 := rfl
    rw [h2, outerLoop_succ]
    have hlt : (Game.init a b).searchIndex < 0 + count := by
      simp [Game.init]; omega
    simp only [hlt, if_true, decide_eq_true hc]
    rw [hinner]
  have hA : (Game.init a b).startTree = Tree.init (.root a) true := rfl
  have hB : (Game.init a b).endTree = Tree.init (.root b) false := rfl
  have hsi : (Game.init a b).searchIndex = 0 := rfl
  have hps : (Game.init a b).paths = [] := rfl
  have hEpA : (Tree.init (Page.root a) true).endpoints = [Page.root a] := rfl
  have hEpB : (Tree.init (Page.root b) false).endpoints = [Page.root b] := rfl
  unfold Game.search
  simp only [hA, hB, hsi, hps, hEpA, hEpB, List.isEmpty_cons, Bool.false_eq_true, if_false,
    List.length_nil, Nat.min_zero, Nat.max_self]
  have hg1 : ({ startTree := Tree.init (Page.root a) true, endTree := Tree.init (Page.root b) false, searchIndex := 0, paths := ([] : List (List Page)) } : Game) = Game.init a b := rfl
  rw [hg1, houter]
  simp

/-! ### C1: the trivial equal-identifier case -/

/-- C1 counterexample: with start and goal both `"A"` and a collaborator with
no links, `search(1)` performs one expansion (not zero) and delivers no path
(not the single-node path `[A]`): the code never tests the two roots for
intersection before exploring. -/
theorem C1_counterexample :
    (Game.search nbEmpty 2 1 (Game.init "A" "A")).map
        (fun r => (r.delivered, r.explores, r.status)) =
      some ([], 1, .startExhausted) ∧
    ([] : List (List Page)) ≠ [[Page.root "A"]] ∧ (1 : Nat) ≠ 0 := by
  refine ⟨?_, by simp, by simp⟩
  rw [nbEmpty_search "A" "A" 1 (by omega)]
  rfl

/-- C1 amended: when the start and goal identifiers are equal, `search` does
not special-case them and tests no root intersection before expanding: for
every identifier and positive count, against the linkless collaborator it
performs one expansion and returns no paths with the start side reported
exhausted, instead of the zero-expansion single-node path. -/
theorem C1_amended (a : Name) (count : Nat) (h : 0 < count) :
    Game.search nbEmpty 2 count (Game.init a a) =
      some { delivered := [],
             game := ⟨emptyRunTree a, Tree.init (.root a) false, 0, []⟩,
             explores := 1, status := .startExhausted } :=
  nbEmpty_search a a count h

theorem C1_amended_witness :
    0 < 3 ∧
    Game.search nbEmpty 2 3 (Game.init "B" "B") =
      some { delivered := [],
             game := ⟨emptyRunTree "B", Tree.init (.root "B") false, 0, []⟩,
             explores := 1, status := .startExhausted } :=
  ⟨by omega, C1_amended "B" 3 (by omega)⟩

/-! ### C8: exhaustion on an empty graph is a status, not a fault -/

/-- C8: when the neighbor lookup always returns the empty set, `search(count)`
with any positive count terminates (fuel 2 suffices), returns the empty list
of paths, and reports exhaustion through the explore sentinel turned into the
no-paths status — it neither raises (`none`) nor loops forever. -/
theorem C8_exhaustion (a b : Name) (count : Nat) (h : 0 < count) :
    Game.search nbEmpty 2 count (Game.init a b) =
      some { delivered := [],
             game := ⟨emptyRunTree a, Tree.init (.root b) false, 0, []⟩,
             explores := 1, status := .startExhausted } :=
  nbEmpty_search a b count h

theorem C8_exhaustion_witness :
    0 < 5 ∧
    Game.search nbEmpty 2 5 (Game.init "A" "B") =
      some { delivered := [],
             game := ⟨emptyRunTree "A", Tree.init (.root "B") false, 0, []⟩,
             explores := 1, status := .startExhausted } :=
  ⟨by omega, C8_exhaustion "A" "B" 5 (by omega)⟩

/-! ### C7 and C9 counterexamples -/

/-- C7 counterexample: two successful `explore` calls from the root `"A"`
against `nbBranch` (`A → {B, C}`) reach a tree whose endpoints (the not yet
expanded `C` of level 1) are not all members of the deepest level (the still
empty level 2), so `endpoints ⊆ levels[len(levels) - 1]` fails on a reachable
state. -/
theorem C7_counterexample :
    (((Tree.init (Page.root "A") true).explore nbBranch).bind fun r1 =>
      (r1.tree.explore nbBranch).map fun r2 =>
        (r1.ok, r2.ok, decide (∀ p ∈ r2.tree.endpoints, p ∈ lastLevel r2.tree))) =
      some (true, true, false) := by
  decide

/-- C9 counterexample: against `nbDemo`, the second delivered path repeats
the identifier `"X"` (`[A, X, M, X, D]`), so a delivered path is not always a
simple path: the two half-paths can share nodes besides the meeting node. -/
theorem C9_counterexample :
    ((Game.search nbDemo 20 1 (Game.init "A" "D")).bind fun r1 =>
      (Game.search nbDemo 20 1 r1.game).map fun r2 =>
        (r1.delivered.map pnames, r2.delivered.map pnames,
         decide (∀ p ∈ r2.delivered, (pnames p).Nodup))) =
      some ([["A", "X", "D"]], [["A", "X", "M", "X", "D"]], false) := by
  decide

/-! ### Facts about the name-keyed set model -/

theorem mem_pnames {s : List Page} {n : Name} : n ∈ pnames s ↔ ∃ p ∈ s, p.name = n := by
  simp [pnames]

theorem pnames_append (s t : List Page) : pnames (s ++ t) = pnames s ++ pnames t := by
  simp [pnames]

theorem name_mem_pnames {s : List Page} {p : Page} (h : p ∈ s) : p.name ∈ pnames s :=
  mem_pnames.mpr ⟨p, h, rfl⟩

theorem foldl_paddNew_eq_append :
    ∀ {s l : List Page}, (∀ p ∈ l, p.name ∉ pnames s) → (pnames l).Nodup →
      List.foldl paddNew s l = s ++ l := by
  intro s l
  induction l generalizing s with
  | nil => intro _ _; simp
  | cons p l ih =>
    intro hfresh hnd
    have hp : p.name ∉ pnames s := hfresh p (by simp)
    have hstep : paddNew s p = s ++ [p] := by simp [paddNew, hp]
    have hnd0 : (p.name :: pnames l).Nodup := by simpa [pnames] using hnd
    have hnd' : (pnames l).Nodup := hnd0.of_cons
    have hfresh' : ∀ q ∈ l, q.name ∉ pnames (s ++ [p]) := by
      intro q hq
      rw [pnames_append]
      simp only [List.mem_append]
      rintro (h1 | h1)
      · exact hfresh q (by simp [hq]) h1
      · have hne : q.name ≠ p.name := by
          have hp2 := (List.nodup_cons.mp hnd0).1
          intro he
          exact hp2 (he ▸ name_mem_pnames hq)
        simp [pnames, Page.name] at h1
        exact hne h1
    calc List.foldl paddNew s (p :: l) = List.foldl paddNew (s ++ [p]) l := by
          simp [hstep]
      _ = (s ++ [p]) ++ l := ih hfresh' hnd'
      _ = s ++ (p :: l) := by simp

theorem seenNames_append_empty (ls : List (List Page)) :
    seenNames (ls ++ [[]]) = seenNames ls := by
  simp [seenNames, pnames]

theorem mem_seenNames {ls : List (List Page)} {n : Name} :
    n ∈ seenNames ls ↔ ∃ lvl ∈ ls, n ∈ pnames lvl := by
  simp [seenNames]

theorem mem_seenNames_of_get? {ls : List (List Page)} {d : Nat} {lvl : List Page} {n : Name}
    (h : ls.get? d = some lvl) (hn : n ∈ pnames lvl) : n ∈ seenNames ls :=
  mem_seenNames.mpr ⟨lvl, List.get?_mem h, hn⟩

theorem addToLast_append (ini : List (List Page)) (l : List Page) (xs : List Page) :
    addToLast (ini ++ [l]) xs = ini ++ [List.foldl paddNew l xs] := by
  induction ini with
  | nil => rfl
  | cons a as ih =>
    cases as with
    | nil => rfl
    | cons b bs => simpa [addToLast] using ih

/-! ### Structural invariants of a frontier tree -/

/-- Every link of a parent chain is justified by the collaborator: the child
identifier was produced by the neighbor lookup of its parent in the tree's
direction. -/
def chainOk (nb : Nb) (dir : Bool) : Page → Prop
  | .root _ => True
  | .child n p => n ∈ nb p.name dir ∧ chainOk nb dir p

/-- A walk of the given length from `a` along the collaborator's edges in
direction `dir` ends at the second name. -/
def reachIn (nb : Nb) (dir : Bool) (a : Name) : Nat → Name → Prop
  | 0, b => b = a
  | k + 1, b => ∃ c, reachIn nb dir a k c ∧ b ∈ nb c dir

/-- Identifiers already popped and expanded: all levels strictly below the
queue level, plus the part of the queue level that is no longer pending. -/
def poppedNames (t : Tree) : List Name :=
  seenNames (t.levels.take t.queueLevel) ++
    ((pnames ((t.levels.get? t.queueLevel).getD [])).filter fun n =>
      decide (n ∉ pnames t.queue))

/-- The invariants of the level structure of a frontier: level 0 is the root
singleton, members of level `d` sit at depth `d` with collaborator-justified,
duplicate-free parent chains running through seen identifiers back to the
root, levels have no duplicate identifiers, and distinct levels are
identifier-disjoint (first discovery wins). -/
structure LvlInv (nb : Nb) (dir : Bool) (root : Page) (ls : List (List Page)) : Prop where
  lvl0 : ls.get? 0 = some [root]
  depth : ∀ d lvl p, ls.get? d = some lvl → p ∈ lvl → p.chain.length = d + 1
  cOk : ∀ d lvl p, ls.get? d = some lvl → p ∈ lvl → chainOk nb dir p
  cRoot : ∀ d lvl p, ls.get? d = some lvl → p ∈ lvl → p.chainRoot = root
  cMem : ∀ d lvl p, ls.get? d = some lvl → p ∈ lvl → ∀ q ∈ p.chain, q.name ∈ seenNames ls
  cNodup : ∀ d lvl p, ls.get? d = some lvl → p ∈ lvl → (pnames p.chain).Nodup
  lvlNodup : ∀ d lvl, ls.get? d = some lvl → (pnames lvl).Nodup
  disj : ∀ d₁ d₂ l₁ l₂, ls.get? d₁ = some l₁ → ls.get? d₂ = some l₂ → d₁ ≠ d₂ →
    ∀ n, n ∈ pnames l₁ → n ∉ pnames l₂

/-- The structural invariants every tree reachable by `Tree.__init__` and
`explore` satisfies. -/
structure TreeInv (nb : Nb) (t : Tree) : Prop where
  shape : t.queueLevel + 1 = t.levels.length ∨ t.queueLevel + 2 = t.levels.length
  lv : LvlInv nb t.isStarting t.root t.levels
  qSub : ∀ p ∈ t.queue, ∃ lvl, t.levels.get? t.queueLevel = some lvl ∧ p ∈ lvl
  qNodup : (pnames t.queue).Nodup
  qInEp : ∀ p ∈ t.queue, p ∈ t.endpoints
  lastInEp : ∀ p ∈ lastLevel t, p ∈ t.endpoints
  epSplit : ∀ p ∈ t.endpoints, p ∈ t.queue ∨ p ∈ lastLevel t
  epNodup : (pnames t.endpoints).Nodup
  qEmptyEp : t.queue = [] → t.endpoints = []
  freshEpQ : t.queueLevel + 1 = t.levels.length → ∀ p ∈ t.endpoints, p ∈ t.queue

theorem lvlInv_init (nb : Nb) (dir : Bool) (n : Name) :
    LvlInv nb dir (Page.root n) [[Page.root n]] := by
  have hget : ∀ (d : Nat) (lvl : List Page),
      ([[Page.root n]] : List (List Page)).get? d = some lvl → d = 0 ∧ lvl = [Page.root n] := by
    intro d lvl hd
    cases d with
    | zero => cases hd; exact ⟨rfl, rfl⟩
    | succ d => simp [List.get?] at hd
  constructor
  case lvl0 => rfl
  case depth =>
    intro d lvl p hd hp
    obtain ⟨rfl, rfl⟩ := hget d lvl hd
    simp only [List.mem_singleton] at hp
    subst hp
    rfl
  case cOk =>
    intro d lvl p hd hp
    obtain ⟨rfl, rfl⟩ := hget d lvl hd
    simp only [List.mem_singleton] at hp
    subst hp
    trivial
  case cRoot =>
    intro d lvl p hd hp
    obtain ⟨rfl, rfl⟩ := hget d lvl hd
    simp only [List.mem_singleton] at hp
    subst hp
    rfl
  case cMem =>
    intro d lvl p hd hp
    obtain ⟨rfl, rfl⟩ := hget d lvl hd
    simp only [List.mem_singleton] at hp
    subst hp
    intro q hq
    simp only [Page.chain, List.mem_singleton] at hq
    subst hq
    simp [seenNames, pnames, Page.name]
  case cNodup =>
    intro d lvl p hd hp
    obtain ⟨rfl, rfl⟩ := hget d lvl hd
    simp only [List.mem_singleton] at hp
    subst hp
    simp [Page.chain, pnames]
  case lvlNodup =>
    intro d lvl hd
    obtain ⟨rfl, rfl⟩ := hget d lvl hd
    simp [pnames]
  case disj =>
    intro d₁ d₂ l₁ l₂ h1 h2 hne
    obtain ⟨rfl, rfl⟩ := hget d₁ l₁ h1
    obtain ⟨h, rfl⟩ := hget d₂ l₂ h2
    exact absurd h.symm hne

theorem treeInv_init (nb : Nb) (r : Page) (hr : ∃ n, r = Page.root n) (dir : Bool) :
    TreeInv nb (Tree.init r dir) := by
  obtain ⟨n, rfl⟩ := hr
  constructor
  case shape => left; rfl
  case lv => exact lvlInv_init nb dir n
  case qSub =>
    intro p hp
    simp only [Tree.init, List.mem_singleton] at hp
    subst hp
    exact ⟨[Page.root n], rfl, by simp⟩
  case qNodup => simp [Tree.init, pnames]
  case qInEp =>
    intro p hp
    simpa [Tree.init] using hp
  case lastInEp =>
    intro p hp
    simpa [Tree.init, lastLevel] using hp
  case epSplit =>
    intro p hp
    left
    simpa [Tree.init] using hp
  case epNodup => simp [Tree.init, pnames]
  case qEmptyEp =>
    intro h
    simp [Tree.init] at h
  case freshEpQ =>
    intro _ p hp
    simpa [Tree.init] using hp

/-- The children of the popped page not yet seen anywhere in the levels. -/
def unseenOf (nb : Nb) (t : Tree) (u : Page) : List Page :=
  (((nb u.name t.isStarting).dedup).map fun n => Page.child n u).filter fun c =>
    decide (c.name ∉ seenNames t.levels)

/-- The endpoint set with the popped page removed (`endpoints.remove`). -/
def epRemove (t : Tree) (u : Page) : List Page :=
  t.endpoints.filter fun q => decide (q.name ≠ u.name)

theorem unseen_nodup (nb : Nb) (t : Tree) (u : Page) :
    (pnames (unseenOf nb t u)).Nodup := by
  have h1 : (pnames (((nb u.name t.isStarting).dedup).map fun n => Page.child n u)).Nodup := by
    simp only [pnames, List.map_map]
    have : (Page.name ∘ fun n => Page.child n u) = id := by
      funext n; rfl
    rw [this, List.map_id]
    exact (nb u.name t.isStarting).nodup_dedup
  have hsub : (unseenOf nb t u).Sublist
      (((nb u.name t.isStarting).dedup).map fun n => Page.child n u) :=
    List.filter_sublist _
  exact List.Nodup.sublist (List.Sublist.map Page.name hsub) h1

theorem unseen_fresh {nb : Nb} {t : Tree} {u p : Page} (h : p ∈ unseenOf nb t u) :
    p.name ∉ seenNames t.levels := by
  have := (List.mem_filter.mp h).2
  simpa using this

theorem unseen_child {nb : Nb} {t : Tree} {u p : Page} (h : p ∈ unseenOf nb t u) :
    ∃ n, p = Page.child n u ∧ n ∈ nb u.name t.isStarting := by
  have := (List.mem_filter.mp h).1
  simp only [List.mem_map, List.mem_dedup] at this
  obtain ⟨n, hn, rfl⟩ := this
  exact ⟨n, rfl, hn⟩

theorem TreeInv.levels_ne_nil {nb : Nb} {t : Tree} (inv : TreeInv nb t) : t.levels ≠ [] := by
  intro h
  rcases inv.shape with hs | hs <;> simp [h] at hs

theorem lastLevel_eq_getLast {t : Tree} (h : t.levels ≠ []) :
    lastLevel t = t.levels.getLast h := by
  simp [lastLevel, List.getLast?_eq_getLast _ h]

theorem lastLevel_mem {t : Tree} (h : t.levels ≠ []) : lastLevel t ∈ t.levels := by
  rw [lastLevel_eq_getLast h]
  exact List.getLast_mem h

theorem lastLevel_get? {t : Tree} (h : t.levels ≠ []) :
    t.levels.get? (t.levels.length - 1) = some (lastLevel t) := by
  rw [lastLevel_eq_getLast h, List.getLast_eq_getElem, List.get?_eq_getElem?]
  exact List.getElem?_eq_getElem _

theorem TreeInv.lastLevel_names_seen {nb : Nb} {t : Tree} (inv : TreeInv nb t) :
    ∀ n ∈ pnames (lastLevel t), n ∈ seenNames t.levels := by
  intro n hn
  exact mem_seenNames.mpr ⟨lastLevel t, lastLevel_mem inv.levels_ne_nil, hn⟩

theorem TreeInv.queue_names_seen {nb : Nb} {t : Tree} (inv : TreeInv nb t) :
    ∀ n ∈ pnames t.queue, n ∈ seenNames t.levels := by
  intro n hn
  obtain ⟨p, hp, rfl⟩ := mem_pnames.mp hn
  obtain ⟨lvl, hlvl, hpl⟩ := inv.qSub p hp
  exact mem_seenNames_of_get? hlvl (name_mem_pnames hpl)

theorem TreeInv.ep_names_seen {nb : Nb} {t : Tree} (inv : TreeInv nb t) :
    ∀ n ∈ pnames t.endpoints, n ∈ seenNames t.levels := by
  intro n hn
  obtain ⟨p, hp, rfl⟩ := mem_pnames.mp hn
  rcases inv.epSplit p hp with h | h
  · exact inv.queue_names_seen _ (name_mem_pnames h)
  · exact inv.lastLevel_names_seen _ (name_mem_pnames h)

/-- What `explore` does when entered with a fully queued level
(`queueLevel + 1 = len(levels)`): a new empty level is appended first. -/
theorem explore_eq_fresh (nb : Nb) (t : Tree) (inv : TreeInv nb t) (u : Page) (qrest : List Page)
    (hq : t.queue = u :: qrest) (hsh : t.queueLevel + 1 = t.levels.length) :
    t.explore nb =
      (if qrest.isEmpty then
        (if (unseenOf nb t u).isEmpty then
          some ⟨false, [], false,
            ⟨t.root, t.isStarting, epRemove t u ++ unseenOf nb t u, [], t.queueLevel + 1,
             t.levels ++ [unseenOf nb t u]⟩⟩
        else
          some ⟨true, unseenOf nb t u, true,
            ⟨t.root, t.isStarting, epRemove t u ++ unseenOf nb t u, unseenOf nb t u,
             t.queueLevel + 1, t.levels ++ [unseenOf nb t u]⟩⟩)
      else
        some ⟨true, unseenOf nb t u, false,
          ⟨t.root, t.isStarting, epRemove t u ++ unseenOf nb t u, qrest, t.queueLevel,
           t.levels ++ [unseenOf nb t u]⟩⟩) := by
  have hu : u ∈ t.queue := by rw [hq]; exact List.mem_cons_self u qrest
  have humem : u.name ∈ pnames t.endpoints := name_mem_pnames (inv.qInEp u hu)
  have hepsub : ∀ n ∈ pnames (epRemove t u), n ∈ pnames t.endpoints := by
    intro n hn
    obtain ⟨q, hq2, rfl⟩ := mem_pnames.mp hn
    exact name_mem_pnames (List.mem_of_mem_filter hq2)
  have hep2 : List.foldl paddNew (epRemove t u) (unseenOf nb t u) =
      epRemove t u ++ unseenOf nb t u :=
    foldl_paddNew_eq_append
      (fun p hp hmem => unseen_fresh hp (inv.ep_names_seen _ (hepsub _ hmem)))
      (unseen_nodup nb t u)
  have hlv2 : addToLast (t.levels ++ [[]]) (unseenOf nb t u) =
      t.levels ++ [unseenOf nb t u] := by
    rw [addToLast_append, foldl_paddNew_eq_append (by simp [pnames]) (unseen_nodup nb t u)]
    simp
  have hInt : (t.queueLevel : Int) = (t.levels.length : Int) - 1 := by omega
  have hget : (t.levels ++ [unseenOf nb t u]).get? (t.queueLevel + 1) =
      some (unseenOf nb t u) := by
    rw [hsh, List.get?_eq_getElem?]
    exact List.getElem?_concat_length _ _
  obtain ⟨rt, dt, ept, qt, qlt, lvt⟩ := t
  simp only at hq
  subst hq
  simp only [Tree.explore, humem, if_true, hInt]
  simp only [unseenOf, epRemove] at hep2 hlv2 hget ⊢
  simp only [seenNames_append_empty] at *
  have hne : ((lvt ++ [[]] : List (List Page))).isEmpty = false := by simp
  simp only [hne, Bool.false_eq_true, if_false, hep2, hlv2, hget]

/-- What `explore` does when entered mid-level
(`queueLevel + 2 = len(levels)`): no level is appended, children keep
accumulating in the existing deepest level. -/
theorem explore_eq_mid (nb : Nb) (t : Tree) (inv : TreeInv nb t) (u : Page) (qrest : List Page)
    (hq : t.queue = u :: qrest) (hsh : t.queueLevel + 2 = t.levels.length) :
    t.explore nb =
      (if qrest.isEmpty then
        (if (lastLevel t ++ unseenOf nb t u).isEmpty then
          some ⟨false, [], false,
            ⟨t.root, t.isStarting, epRemove t u ++ unseenOf nb t u, [], t.queueLevel + 1,
             t.levels.dropLast ++ [lastLevel t ++ unseenOf nb t u]⟩⟩
        else
          some ⟨true, unseenOf nb t u, true,
            ⟨t.root, t.isStarting, epRemove t u ++ unseenOf nb t u,
             lastLevel t ++ unseenOf nb t u, t.queueLevel + 1,
             t.levels.dropLast ++ [lastLevel t ++ unseenOf nb t u]⟩⟩)
      else
        some ⟨true, unseenOf nb t u, false,
          ⟨t.root, t.isStarting, epRemove t u ++ unseenOf nb t u, qrest, t.queueLevel,
           t.levels.dropLast ++ [lastLevel t ++ unseenOf nb t u]⟩⟩) := by
  have hnil := inv.levels_ne_nil
  have hu : u ∈ t.queue := by rw [hq]; exact List.mem_cons_self u qrest
  have humem : u.name ∈ pnames t.endpoints := name_mem_pnames (inv.qInEp u hu)
  have hepsub : ∀ n ∈ pnames (epRemove t u), n ∈ pnames t.endpoints := by
    intro n hn
    obtain ⟨q, hq2, rfl⟩ := mem_pnames.mp hn
    exact name_mem_pnames (List.mem_of_mem_filter hq2)
  have hep2 : List.foldl paddNew (epRemove t u) (unseenOf nb t u) =
      epRemove t u ++ unseenOf nb t u :=
    foldl_paddNew_eq_append
      (fun p hp hmem => unseen_fresh hp (inv.ep_names_seen _ (hepsub _ hmem)))
      (unseen_nodup nb t u)
  have hdecomp : t.levels.dropLast ++ [lastLevel t] = t.levels := by
    rw [lastLevel_eq_getLast hnil]
    exact List.dropLast_append_getLast hnil
  have hlv2 : addToLast t.levels (unseenOf nb t u) =
      t.levels.dropLast ++ [lastLevel t ++ unseenOf nb t u] := by
    conv_lhs => rw [← hdecomp]
    rw [addToLast_append,
      foldl_paddNew_eq_append
        (fun p hp hmem => unseen_fresh hp (inv.lastLevel_names_seen _ hmem))
        (unseen_nodup nb t u)]
  have hIntNe : ¬ ((t.queueLevel : Int) = (t.levels.length : Int) - 1) := by omega
  have hLLlen : t.levels.dropLast.length = t.queueLevel + 1 := by
    rw [List.length_dropLast]
    omega
  have hget : (t.levels.dropLast ++ [lastLevel t ++ unseenOf nb t u]).get? (t.queueLevel + 1) =
      some (lastLevel t ++ unseenOf nb t u) := by
    rw [← hLLlen, List.get?_eq_getElem?]
    exact List.getElem?_concat_length _ _
  have hne : t.levels.isEmpty = false := by
    simpa [List.isEmpty_iff] using hnil
  obtain ⟨rt, dt, ept, qt, qlt, lvt⟩ := t
  simp only at hq
  subst hq
  simp only [Tree.explore, humem, if_true, if_neg hIntNe]
  simp only [unseenOf, epRemove, lastLevel] at hep2 hlv2 hget hne ⊢
  simp only [hne, Bool.false_eq_true, if_false, hep2, hlv2, hget]

/-- Extending a well-formed level structure by one expansion step: the prefix
`B` of the old levels (everything up to the queue level) followed by the
extended deepest level `oldPart ++ unseen`, where `oldPart` is the old
deepest level (or nothing, when a fresh level was just appended) and
`unseen` are the fresh children of the popped page `u` of level `ql`. -/
theorem LvlInv.extend {nb : Nb} {dir : Bool} {root : Page} {old : List (List Page)}
    (lv : LvlInv nb dir root old)
    (B : List (List Page)) (oldPart unseen : List Page) (u : Page) (ql : Nat)
    (hB : ∀ d, d < ql + 1 → B.get? d = old.get? d)
    (hBlen : B.length = ql + 1)
    (hOldPart : old.get? (ql + 1) = some oldPart ∨ (oldPart = [] ∧ old.length = ql + 1))
    (hOldLen : old.length ≤ ql + 2)
    (hu : ∃ lvlq, old.get? ql = some lvlq ∧ u ∈ lvlq)
    (hunseen : ∀ p ∈ unseen, (∃ n, p = Page.child n u ∧ n ∈ nb u.name dir) ∧
      p.name ∉ seenNames old)
    (hund : (pnames unseen).Nodup) :
    LvlInv nb dir root (B ++ [oldPart ++ unseen]) := by
  obtain ⟨lvlq, hlvlq, hulq⟩ := hu
  have hudepth : u.chain.length = ql + 1 := lv.depth ql lvlq u hlvlq hulq
  have huok : chainOk nb dir u := lv.cOk ql lvlq u hlvlq hulq
  have huroot : u.chainRoot = root := lv.cRoot ql lvlq u hlvlq hulq
  have humem : ∀ q ∈ u.chain, q.name ∈ seenNames old := lv.cMem ql lvlq u hlvlq hulq
  have hunodup : (pnames u.chain).Nodup := lv.cNodup ql lvlq u hlvlq hulq
  have hopOld : ∀ p ∈ oldPart, ∃ lvl, old.get? (ql + 1) = some lvl ∧ p ∈ lvl := by
    rcases hOldPart with h | ⟨h, _⟩
    · exact fun p hp => ⟨oldPart, h, hp⟩
    · intro p hp
      rw [h] at hp
      cases hp
  have hnew : ∀ d lvl, (B ++ [oldPart ++ unseen]).get? d = some lvl →
      (d < ql + 1 ∧ old.get? d = some lvl) ∨ (d = ql + 1 ∧ lvl = oldPart ++ unseen) := by
    intro d lvl hd
    by_cases hlt : d < B.length
    · left
      rw [List.get?_append hlt] at hd
      exact ⟨hBlen ▸ hlt, ((hB d (hBlen ▸ hlt)).symm.trans hd)⟩
    · right
      rw [List.get?_append_right (Nat.le_of_not_lt hlt)] at hd
      have hz : d - B.length = 0 := by
        by_contra hz
        rcases Nat.exists_eq_succ_of_ne_zero hz with ⟨k, hk⟩
        rw [hk] at hd
        simp [List.get?] at hd
      rw [hz] at hd
      cases hd
      exact ⟨by omega, rfl⟩
  have hlastMem : (oldPart ++ unseen) ∈ (B ++ [oldPart ++ unseen]) := by simp
  have hgetLast : (B ++ [oldPart ++ unseen]).get? (ql + 1) = some (oldPart ++ unseen) := by
    rw [← hBlen, List.get?_eq_getElem?]
    exact List.getElem?_concat_length _ _
  have hseenMono : ∀ n, n ∈ seenNames old → n ∈ seenNames (B ++ [oldPart ++ unseen]) := by
    intro n hn
    obtain ⟨lvl, hlvl, hnl⟩ := mem_seenNames.mp hn
    obtain ⟨d, hd⟩ := List.get?_of_mem hlvl
    by_cases hlt : d < ql + 1
    · have hBd : B.get? d = some lvl := (hB d hlt).trans hd
      exact mem_seenNames.mpr ⟨lvl, List.mem_append.mpr (Or.inl (List.get?_mem hBd)), hnl⟩
    · have hdlen : d < old.length := by
        obtain ⟨h, _⟩ := List.get?_eq_some.mp hd
        exact h
      have hd2 : d = ql + 1 := by omega
      subst hd2
      rcases hOldPart with h | ⟨h, hlen⟩
      · rw [h] at hd
        cases hd
        refine mem_seenNames.mpr ⟨oldPart ++ unseen, hlastMem, ?_⟩
        rw [pnames_append]
        exact List.mem_append.mpr (Or.inl hnl)
      · omega
  have hseenLastName : ∀ p ∈ unseen, p.name ∈ seenNames (B ++ [oldPart ++ unseen]) := by
    intro p hp
    refine mem_seenNames.mpr ⟨oldPart ++ unseen, hlastMem, ?_⟩
    rw [pnames_append]
    exact List.mem_append.mpr (Or.inr (name_mem_pnames hp))
  have hopNodup : (pnames oldPart).Nodup := by
    rcases hOldPart with h | ⟨h, _⟩
    · exact lv.lvlNodup (ql + 1) oldPart h
    · subst h; simp [pnames]
  have hopSeen : ∀ n ∈ pnames oldPart, n ∈ seenNames old := by
    intro n hn
    obtain ⟨p, hp, rfl⟩ := mem_pnames.mp hn
    obtain ⟨lvl, hlvl, hpl⟩ := hopOld p hp
    exact mem_seenNames_of_get? hlvl (name_mem_pnames hpl)
  constructor
  case lvl0 =>
    have h0 : (B ++ [oldPart ++ unseen]).get? 0 = B.get? 0 := by
      rw [List.get?_append]
      omega
    rw [h0, hB 0 (by omega)]
    exact lv.lvl0
  case depth =>
    intro d lvl p hd hp
    rcases hnew d lvl hd with ⟨_, hold⟩ | ⟨rfl, rfl⟩
    · exact lv.depth d lvl p hold hp
    · rcases List.mem_append.mp hp with hp | hp
      · obtain ⟨lvl', hlvl', hpl'⟩ := hopOld p hp
        exact lv.depth (ql + 1) lvl' p hlvl' hpl'
      · obtain ⟨⟨n, rfl, _⟩, _⟩ := hunseen p hp
        simp only [Page.chain, List.length_cons, hudepth]
  case cOk =>
    intro d lvl p hd hp
    rcases hnew d lvl hd with ⟨_, hold⟩ | ⟨rfl, rfl⟩
    · exact lv.cOk d lvl p hold hp
    · rcases List.mem_append.mp hp with hp | hp
      · obtain ⟨lvl', hlvl', hpl'⟩ := hopOld p hp
        exact lv.cOk (ql + 1) lvl' p hlvl' hpl'
      · obtain ⟨⟨n, rfl, hn⟩, _⟩ := hunseen p hp
        exact ⟨hn, huok⟩
  case cRoot =>
    intro d lvl p hd hp
    rcases hnew d lvl hd with ⟨_, hold⟩ | ⟨rfl, rfl⟩
    · exact lv.cRoot d lvl p hold hp
    · rcases List.mem_append.mp hp with hp | hp
      · obtain ⟨lvl', hlvl', hpl'⟩ := hopOld p hp
        exact lv.cRoot (ql + 1) lvl' p hlvl' hpl'
      · obtain ⟨⟨n, rfl, _⟩, _⟩ := hunseen p hp
        simpa [Page.chainRoot] using huroot
  case cMem =>
    intro d lvl p hd hp q hq
    rcases hnew d lvl hd with ⟨_, hold⟩ | ⟨rfl, rfl⟩
    · exact hseenMono _ (lv.cMem d lvl p hold hp q hq)
    · rcases List.mem_append.mp hp with hp | hp
      · obtain ⟨lvl', hlvl', hpl'⟩ := hopOld p hp
        exact hseenMono _ (lv.cMem (ql + 1) lvl' p hlvl' hpl' q hq)
      · obtain ⟨⟨n, rfl, _⟩, _⟩ := hunseen p hp
        simp only [Page.chain, List.mem_cons] at hq
        rcases hq with rfl | hq
        · exact hseenLastName _ hp
        · exact hseenMono _ (humem q hq)
  case cNodup =>
    intro d lvl p hd hp
    rcases hnew d lvl hd with ⟨_, hold⟩ | ⟨rfl, rfl⟩
    · exact lv.cNodup d lvl p hold hp
    · rcases List.mem_append.mp hp with hp | hp
      · obtain ⟨lvl', hlvl', hpl'⟩ := hopOld p hp
        exact lv.cNodup (ql + 1) lvl' p hlvl' hpl'
      · obtain ⟨⟨n, rfl, _⟩, hfr⟩ := hunseen p hp
        have : pnames ((Page.child n u).chain) = (Page.child n u).name :: pnames u.chain := by
          simp [Page.chain, pnames]
        rw [this]
        refine List.nodup_cons.mpr ⟨?_, hunodup⟩
        intro hmem
        obtain ⟨q, hq, hqn⟩ := mem_pnames.mp hmem
        exact hfr (hqn ▸ humem q hq)
  case lvlNodup =>
    intro d lvl hd
    rcases hnew d lvl hd with ⟨_, hold⟩ | ⟨rfl, rfl⟩
    · exact lv.lvlNodup d lvl hold
    · rw [pnames_append]
      refine List.Nodup.append hopNodup hund ?_
      intro n hn1 hn2
      obtain ⟨p, hp, rfl⟩ := mem_pnames.mp hn2
      exact (hunseen p hp).2 (hopSeen _ hn1)
  case disj =>
    intro d₁ d₂ l₁ l₂ h1 h2 hne n hn1 hn2
    rcases hnew d₁ l₁ h1 with ⟨hlt1, hold1⟩ | ⟨rfl, rfl⟩ <;>
      rcases hnew d₂ l₂ h2 with ⟨hlt2, hold2⟩ | ⟨heq2, hl2⟩
    · exact lv.disj d₁ d₂ l₁ l₂ hold1 hold2 hne n hn1 hn2
    · subst heq2
      subst hl2
      rw [pnames_append] at hn2
      rcases List.mem_append.mp hn2 with hn2 | hn2
      · rcases hOldPart with h | ⟨h, _⟩
        · exact lv.disj d₁ (ql + 1) l₁ oldPart hold1 h (by omega) n hn1 hn2
        · subst h
          cases hn2
      · obtain ⟨p, hp, rfl⟩ := mem_pnames.mp hn2
        exact (hunseen p hp).2 (mem_seenNames_of_get? hold1 hn1)
    · rw [pnames_append] at hn1
      rcases List.mem_append.mp hn1 with hn1 | hn1
      · rcases hOldPart with h | ⟨h, _⟩
        · exact lv.disj (ql + 1) d₂ oldPart l₂ h hold2 (by omega) n hn1 hn2
        · subst h
          cases hn1
      · obtain ⟨p, hp, rfl⟩ := mem_pnames.mp hn1
        exact (hunseen p hp).2 (mem_seenNames_of_get? hold2 hn2)
    · omega

theorem mem_epRemove {t : Tree} {u p : Page} :
    p ∈ epRemove t u ↔ p ∈ t.endpoints ∧ p.name ≠ u.name := by
  simp [epRemove]

theorem pnames_epRemove_sub {t : Tree} {u : Page} :
    ∀ n ∈ pnames (epRemove t u), n ∈ pnames t.endpoints := by
  intro n hn
  obtain ⟨q, hq, rfl⟩ := mem_pnames.mp hn
  exact name_mem_pnames (mem_epRemove.mp hq).1

theorem epRemove_nodup {nb : Nb} {t : Tree} (inv : TreeInv nb t) (u : Page) :
    (pnames (epRemove t u)).Nodup :=
  List.Nodup.sublist (List.Sublist.map Page.name (List.filter_sublist _)) inv.epNodup

theorem epE_nodup {nb : Nb} {t : Tree} (inv : TreeInv nb t) (u : Page) :
    (pnames (epRemove t u ++ unseenOf nb t u)).Nodup := by
  rw [pnames_append]
  refine List.Nodup.append (epRemove_nodup inv u) (unseen_nodup nb t u) ?_
  intro n hn1 hn2
  obtain ⟨p, hp, rfl⟩ := mem_pnames.mp hn2
  exact unseen_fresh hp (inv.ep_names_seen _ (pnames_epRemove_sub _ hn1))

theorem lastLevel_mk (rt : Page) (dt : Bool) (ep q : List Page) (ql : Nat)
    (L : List (List Page)) (x : List Page) :
    lastLevel ⟨rt, dt, ep, q, ql, L ++ [x]⟩ = x := by
  simp [lastLevel, List.getLast?_concat]

/-- What one successful or failing `explore` step guarantees, on top of the
preserved invariant. -/
structure ExpPost (nb : Nb) (t : Tree) (res : ExpRes) : Prop where
  inv : TreeInv nb res.tree
  root_eq : res.tree.root = t.root
  dir_eq : res.tree.isStarting = t.isStarting
  ql_after : res.tree.queueLevel = t.queueLevel ∨ res.tree.queueLevel = t.queueLevel + 1
  len_after : res.tree.levels.length = t.queueLevel + 2
  fresh_after : res.ok = false ∨ res.levelDone = true →
    res.tree.queueLevel + 1 = res.tree.levels.length
  mid_after : res.ok = true → res.levelDone = false →
    res.tree.queueLevel + 2 = res.tree.levels.length
  ok_queue : res.ok = true → res.tree.queue ≠ []
  fail_ep : res.ok = false → res.tree.endpoints = []
  fail_new : res.ok = false → res.newPages = []
  new_in_ep : ∀ p ∈ res.newPages, p ∈ res.tree.endpoints
  new_last : ∀ p ∈ res.newPages, p ∈ lastLevel res.tree
  new_nodup : (pnames res.newPages).Nodup
  ep_name_last : ∀ n ∈ pnames res.newPages, ∀ p ∈ res.tree.endpoints, p.name = n →
    p ∈ lastLevel res.tree
  seen_iff : ∀ n, n ∈ seenNames res.tree.levels ↔
    n ∈ seenNames t.levels ∨ n ∈ pnames res.newPages

theorem seenNames_concat (ls : List (List Page)) (x : List Page) :
    seenNames (ls ++ [x]) = seenNames ls ++ pnames x := by
  simp [seenNames]

theorem explore_spec {nb : Nb} {t : Tree} (inv : TreeInv nb t) {res : ExpRes}
    (h : t.explore nb = some res) : ExpPost nb t res := by
  rcases hqe : t.queue with _ | ⟨u, qrest⟩
  · rw [Tree.explore, hqe] at h
    cases h
  have huq : u ∈ t.queue := by rw [hqe]; exact List.mem_cons_self u qrest
  obtain ⟨lvlq, hlq, hulq⟩ := inv.qSub u huq
  have hund := unseen_nodup nb t u
  have hunPiece : ∀ p ∈ unseenOf nb t u,
      (∃ n, p = Page.child n u ∧ n ∈ nb u.name t.isStarting) ∧
        p.name ∉ seenNames t.levels :=
    fun p hp => ⟨unseen_child hp, unseen_fresh hp⟩
  have hqtail : ∀ p ∈ qrest, p ∈ t.queue := by
    intro p hp; rw [hqe]; exact List.mem_cons_of_mem _ hp
  have hqnames : (pnames t.queue).Nodup := inv.qNodup
  have huNotTail : ∀ p ∈ qrest, p.name ≠ u.name := by
    intro p hp heq
    have : (u.name :: pnames qrest).Nodup := by
      have := hqnames; rw [hqe] at this; simpa [pnames] using this
    exact (List.nodup_cons.mp this).1 (heq ▸ name_mem_pnames hp)
  have hEnodup := epE_nodup inv u
  have hUfreshEp : ∀ n ∈ pnames (unseenOf nb t u), n ∉ pnames t.endpoints := by
    intro n hn hmem
    obtain ⟨p, hp, rfl⟩ := mem_pnames.mp hn
    exact unseen_fresh hp (inv.ep_names_seen _ hmem)
  have hEpNameLast : ∀ n ∈ pnames (unseenOf nb t u),
      ∀ p ∈ epRemove t u ++ unseenOf nb t u, p.name = n → p ∈ unseenOf nb t u := by
    intro n hn p hp hpn
    rcases List.mem_append.mp hp with hp | hp
    · exact absurd (hpn ▸ pnames_epRemove_sub _ (name_mem_pnames hp)) (hUfreshEp n hn)
    · exact hp
  rcases inv.shape with hsh | hsh
  · -- fresh entry: a new level is appended
    have hlv : LvlInv nb t.isStarting t.root (t.levels ++ [unseenOf nb t u]) := by
      have hext := LvlInv.extend inv.lv t.levels [] (unseenOf nb t u) u t.queueLevel
        (fun d _ => rfl) hsh.symm (Or.inr ⟨rfl, hsh.symm⟩) (by omega)
        ⟨lvlq, hlq, hulq⟩ hunPiece hund
      simpa using hext
    have hgetql : (t.levels ++ [unseenOf nb t u]).get? t.queueLevel = t.levels.get? t.queueLevel :=
      List.get?_append (by omega)
    have hEsubQ : ∀ p ∈ epRemove t u, p ∈ qrest := by
      intro p hp
      obtain ⟨hpe, hpn⟩ := mem_epRemove.mp hp
      have := inv.freshEpQ hsh p hpe
      rw [hqe] at this
      rcases List.mem_cons.mp this with rfl | hmem
      · exact absurd rfl hpn
      · exact hmem
    have hseen : ∀ n, n ∈ seenNames (t.levels ++ [unseenOf nb t u]) ↔
        n ∈ seenNames t.levels ∨ n ∈ pnames (unseenOf nb t u) := by
      intro n
      rw [seenNames_concat]
      exact List.mem_append
    rw [explore_eq_fresh nb t inv u qrest hqe hsh] at h
    by_cases hqr : qrest.isEmpty
    · have hqrnil : qrest = [] := List.isEmpty_iff.mp hqr
      have hEnil : epRemove t u = [] := by
        rw [List.eq_nil_iff_forall_not_mem]
        intro p hp
        have := hEsubQ p hp
        rw [hqrnil] at this
        cases this
      by_cases hUe : (unseenOf nb t u).isEmpty
      · -- exhaustion: empty next level
        have hUnil : unseenOf nb t u = [] := List.isEmpty_iff.mp hUe
        simp only [hqr, hUe, if_true] at h
        cases h
        constructor
        next =>
          constructor
          next => left; simp [hsh]
          next => exact hlv
          next => intro p hp; cases hp
          next => simp [pnames]
          next => intro p hp; cases hp
          next =>
            intro p hp
            rw [lastLevel_mk, hUnil] at hp
            cases hp
          next =>
            intro p hp
            rw [hEnil, hUnil] at hp
            cases hp
          next => simpa [hEnil, hUnil, pnames] using True.intro
          next => intro _; rw [hEnil, hUnil]; rfl
          next =>
            intro _ p hp
            rw [hEnil, hUnil] at hp
            cases hp
        next => rfl
        next => rfl
        next => right; rfl
        next => simp [← hsh]
        next => intro _; simp [hsh]
        next => intro hok; cases hok
        next => intro hok; cases hok
        next => intro _; rw [hEnil, hUnil]; rfl
        next => intro _; rfl
        next => intro p hp; cases hp
        next => intro p hp; cases hp
        next => simp [pnames]
        next => intro n hn; cases hn
        next =>
          intro n
          simpa [hUnil, pnames] using hseen n
      · -- level done: advance to the freshly filled level
        have hUne : unseenOf nb t u ≠ [] := by
          intro hx; rw [hx] at hUe; exact absurd rfl hUe
        simp only [hqr, hUe, if_true, Bool.false_eq_true, if_false] at h
        cases h
        have hgetU : (t.levels ++ [unseenOf nb t u]).get? (t.queueLevel + 1) =
            some (unseenOf nb t u) := by
          rw [hsh, List.get?_eq_getElem?]
          exact List.getElem?_concat_length _ _
        constructor
        next =>
          constructor
          next => left; simp [hsh]
          next => exact hlv
          next => intro p hp; exact ⟨unseenOf nb t u, hgetU, hp⟩
          next => exact hund
          next =>
            intro p hp
            exact List.mem_append.mpr (Or.inr hp)
          next =>
            intro p hp
            rw [lastLevel_mk] at hp
            exact List.mem_append.mpr (Or.inr hp)
          next =>
            intro p hp
            rcases List.mem_append.mp hp with hp | hp
            · rw [hEnil] at hp; cases hp
            · exact Or.inl hp
          next => exact hEnodup
          next => intro hx; exact absurd hx hUne
          next =>
            intro _ p hp
            rcases List.mem_append.mp hp with hp | hp
            · rw [hEnil] at hp; cases hp
            · exact hp
        next => rfl
        next => rfl
        next => right; rfl
        next => simp [← hsh]
        next => intro _; simp [hsh]
        next => intro _ hdone; cases hdone
        next => intro _; exact hUne
        next => intro hf; cases hf
        next => intro hf; cases hf
        next => intro p hp; exact List.mem_append.mpr (Or.inr hp)
        next => intro p hp; rw [lastLevel_mk]; exact hp
        next => exact hund
        next =>
          intro n hn p hp hpn
          rw [lastLevel_mk]
          exact hEpNameLast n hn p hp hpn
        next => exact hseen
    · -- queue not yet drained: stay on the same level
      simp only [hqr, Bool.false_eq_true, if_false] at h
      cases h
      constructor
      next =>
        constructor
        next => right; simp [hsh]
        next => exact hlv
        next =>
          intro p hp
          obtain ⟨lvl, hlvl, hpl⟩ := inv.qSub p (hqtail p hp)
          exact ⟨lvl, hgetql.trans hlvl, hpl⟩
        next =>
          have := hqnames
          rw [hqe] at this
          simp only [pnames, List.map_cons] at this
          exact this.of_cons
        next =>
          intro p hp
          refine List.mem_append.mpr (Or.inl (mem_epRemove.mpr ⟨inv.qInEp p (hqtail p hp), ?_⟩))
          exact huNotTail p hp
        next =>
          intro p hp
          rw [lastLevel_mk] at hp
          exact List.mem_append.mpr (Or.inr hp)
        next =>
          intro p hp
          rcases List.mem_append.mp hp with hp | hp
          · exact Or.inl (hEsubQ p hp)
          · right; rw [lastLevel_mk]; exact hp
        next => exact hEnodup
        next =>
          intro hx
          exact absurd hx (by simpa [List.isEmpty_iff] using hqr)
        next =>
          intro hx
          exfalso
          simp at hx
          omega
      next => rfl
      next => rfl
      next => left; rfl
      next => simp [← hsh]
      next => intro hx; rcases hx with hx | hx <;> cases hx
      next => intro _ _; simp [← hsh]
      next =>
        intro _
        simpa [List.isEmpty_iff] using hqr
      next => intro hf; cases hf
      next => intro hf; cases hf
      next => intro p hp; exact List.mem_append.mpr (Or.inr hp)
      next => intro p hp; rw [lastLevel_mk]; exact hp
      next => exact hund
      next =>
        intro n hn p hp hpn
        rw [lastLevel_mk]
        exact hEpNameLast n hn p hp hpn
      next => exact hseen
  · -- mid-level entry
    have hnil := inv.levels_ne_nil
    have hdecomp : t.levels.dropLast ++ [lastLevel t] = t.levels := by
      rw [lastLevel_eq_getLast hnil]
      exact List.dropLast_append_getLast hnil
    have hBlen : t.levels.dropLast.length = t.queueLevel + 1 := by
      rw [List.length_dropLast]; omega
    have hB : ∀ d, d < t.queueLevel + 1 → t.levels.dropLast.get? d = t.levels.get? d := by
      intro d hd
      conv_rhs => rw [← hdecomp]
      rw [List.get?_append (hBlen ▸ hd)]
    have hLL : t.levels.get? (t.queueLevel + 1) = some (lastLevel t) := by
      have h0 := lastLevel_get? hnil
      rw [show t.levels.length - 1 = t.queueLevel + 1 from by omega] at h0
      exact h0
    have hlv : LvlInv nb t.isStarting t.root
        (t.levels.dropLast ++ [lastLevel t ++ unseenOf nb t u]) :=
      LvlInv.extend inv.lv t.levels.dropLast (lastLevel t) (unseenOf nb t u) u t.queueLevel
        hB hBlen (Or.inl hLL) (by omega) ⟨lvlq, hlq, hulq⟩ hunPiece hund
    have hgetql : (t.levels.dropLast ++ [lastLevel t ++ unseenOf nb t u]).get? t.queueLevel =
        t.levels.get? t.queueLevel := by
      rw [List.get?_append (by omega : t.queueLevel < t.levels.dropLast.length)]
      exact hB t.queueLevel (by omega)
    have hgetNewLast : (t.levels.dropLast ++ [lastLevel t ++ unseenOf nb t u]).get?
        (t.queueLevel + 1) = some (lastLevel t ++ unseenOf nb t u) := by
      rw [← hBlen, List.get?_eq_getElem?]
      exact List.getElem?_concat_length _ _
    have hlastName : ∀ p ∈ lastLevel t, p.name ≠ u.name := by
      intro p hp heq
      exact inv.lv.disj (t.queueLevel + 1) t.queueLevel _ _ hLL hlq (by omega) p.name
        (name_mem_pnames hp) (heq ▸ name_mem_pnames hulq)
    have hlastInE : ∀ p ∈ lastLevel t, p ∈ epRemove t u := fun p hp =>
      mem_epRemove.mpr ⟨inv.lastInEp p hp, hlastName p hp⟩
    have hEsplit : ∀ p ∈ epRemove t u, p ∈ qrest ∨ p ∈ lastLevel t := by
      intro p hp
      obtain ⟨hpe, hpn⟩ := mem_epRemove.mp hp
      rcases inv.epSplit p hpe with hq2 | hq2
      · rw [hqe] at hq2
        rcases List.mem_cons.mp hq2 with rfl | hmem
        · exact absurd rfl hpn
        · exact Or.inl hmem
      · exact Or.inr hq2
    have hseen : ∀ n,
        n ∈ seenNames (t.levels.dropLast ++ [lastLevel t ++ unseenOf nb t u]) ↔
          n ∈ seenNames t.levels ∨ n ∈ pnames (unseenOf nb t u) := by
      intro n
      have e1 : seenNames (t.levels.dropLast ++ [lastLevel t ++ unseenOf nb t u]) =
          seenNames t.levels.dropLast ++ (pnames (lastLevel t) ++ pnames (unseenOf nb t u)) := by
        rw [seenNames_concat, pnames_append]
      have e2 : seenNames t.levels =
          seenNames t.levels.dropLast ++ pnames (lastLevel t) := by
        conv_lhs => rw [← hdecomp]
        rw [seenNames_concat]
      rw [e1, e2]
      simp [List.mem_append, or_assoc]
    have hlenNL : (t.levels.dropLast ++ [lastLevel t ++ unseenOf nb t u]).length =
        t.queueLevel + 2 := by
      rw [List.length_append, hBlen]
      rfl
    rw [explore_eq_mid nb t inv u qrest hqe hsh] at h
    by_cases hqr : qrest.isEmpty
    · have hqrnil : qrest = [] := List.isEmpty_iff.mp hqr
      have hEsub : ∀ p ∈ epRemove t u, p ∈ lastLevel t := by
        intro p hp
        rcases hEsplit p hp with hx | hx
        · rw [hqrnil] at hx; cases hx
        · exact hx
      by_cases hUe : (lastLevel t ++ unseenOf nb t u).isEmpty
      · -- exhaustion: the next level is empty
        have hboth : lastLevel t = [] ∧ unseenOf nb t u = [] := by
          have := List.isEmpty_iff.mp hUe
          exact List.append_eq_nil.mp this
        have hEnil : epRemove t u = [] := by
          rw [List.eq_nil_iff_forall_not_mem]
          intro p hp
          have := hEsub p hp
          rw [hboth.1] at this
          cases this
        simp only [hqr, hUe, if_true] at h
        cases h
        constructor
        next =>
          constructor
          next => left; simpa using hlenNL.symm
          next => exact hlv
          next => intro p hp; cases hp
          next => simp [pnames]
          next => intro p hp; cases hp
          next =>
            intro p hp
            rw [lastLevel_mk, hboth.1, hboth.2] at hp
            cases hp
          next =>
            intro p hp
            rw [hEnil, hboth.2] at hp
            cases hp
          next => simp [hEnil, hboth.2, pnames]
          next => intro _; rw [hEnil, hboth.2]; rfl
          next =>
            intro _ p hp
            rw [hEnil, hboth.2] at hp
            cases hp
        next => rfl
        next => rfl
        next => right; rfl
        next => exact hlenNL
        next => intro _; simpa using hlenNL.symm
        next => intro hok; cases hok
        next => intro hok; cases hok
        next => intro _; rw [hEnil, hboth.2]; rfl
        next => intro _; rfl
        next => intro p hp; cases hp
        next => intro p hp; cases hp
        next => simp [pnames]
        next => intro n hn; cases hn
        next =>
          intro n
          simpa [hboth.2, pnames] using hseen n
      · -- level done: advance to the accumulated level
        have hUne : lastLevel t ++ unseenOf nb t u ≠ [] := by
          intro hx; rw [hx] at hUe; exact absurd rfl hUe
        simp only [hqr, hUe, if_true, Bool.false_eq_true, if_false] at h
        cases h
        constructor
        next =>
          constructor
          next => left; simpa using hlenNL.symm
          next => exact hlv
          next => intro p hp; exact ⟨lastLevel t ++ unseenOf nb t u, hgetNewLast, hp⟩
          next => exact hlv.lvlNodup (t.queueLevel + 1) _ hgetNewLast
          next =>
            intro p hp
            rcases List.mem_append.mp hp with hp | hp
            · exact List.mem_append.mpr (Or.inl (hlastInE p hp))
            · exact List.mem_append.mpr (Or.inr hp)
          next =>
            intro p hp
            rw [lastLevel_mk] at hp
            rcases List.mem_append.mp hp with hp | hp
            · exact List.mem_append.mpr (Or.inl (hlastInE p hp))
            · exact List.mem_append.mpr (Or.inr hp)
          next =>
            intro p hp
            left
            rcases List.mem_append.mp hp with hp | hp
            · exact List.mem_append.mpr (Or.inl (hEsub p hp))
            · exact List.mem_append.mpr (Or.inr hp)
          next => exact hEnodup
          next => intro hx; exact absurd hx hUne
          next =>
            intro _ p hp
            rcases List.mem_append.mp hp with hp | hp
            · exact List.mem_append.mpr (Or.inl (hEsub p hp))
            · exact List.mem_append.mpr (Or.inr hp)
        next => rfl
        next => rfl
        next => right; rfl
        next => exact hlenNL
        next => intro _; simpa using hlenNL.symm
        next => intro _ hdone; cases hdone
        next => intro _; exact hUne
        next => intro hf; cases hf
        next => intro hf; cases hf
        next => intro p hp; exact List.mem_append.mpr (Or.inr hp)
        next =>
          intro p hp
          rw [lastLevel_mk]
          exact List.mem_append.mpr (Or.inr hp)
        next => exact hund
        next =>
          intro n hn p hp hpn
          rw [lastLevel_mk]
          exact List.mem_append.mpr (Or.inr (hEpNameLast n hn p hp hpn))
        next => exact hseen
    · -- queue not yet drained: stay on the same level
      have hqrne : qrest ≠ [] := by simpa [List.isEmpty_iff] using hqr
      simp only [hqr, Bool.false_eq_true, if_false] at h
      cases h
      constructor
      next =>
        constructor
        next => right; simpa using hlenNL.symm
        next => exact hlv
        next =>
          intro p hp
          obtain ⟨lvl, hlvl, hpl⟩ := inv.qSub p (hqtail p hp)
          exact ⟨lvl, hgetql.trans hlvl, hpl⟩
        next =>
          have := hqnames
          rw [hqe] at this
          simp only [pnames, List.map_cons] at this
          exact this.of_cons
        next =>
          intro p hp
          refine List.mem_append.mpr (Or.inl (mem_epRemove.mpr ⟨inv.qInEp p (hqtail p hp), ?_⟩))
          exact huNotTail p hp
        next =>
          intro p hp
          rw [lastLevel_mk] at hp
          rcases List.mem_append.mp hp with hp | hp
          · exact List.mem_append.mpr (Or.inl (hlastInE p hp))
          · exact List.mem_append.mpr (Or.inr hp)
        next =>
          intro p hp
          rcases List.mem_append.mp hp with hp | hp
          · rcases hEsplit p hp with hx | hx
            · exact Or.inl hx
            · right; rw [lastLevel_mk]; exact List.mem_append.mpr (Or.inl hx)
          · right; rw [lastLevel_mk]; exact List.mem_append.mpr (Or.inr hp)
        next => exact hEnodup
        next => intro hx; exact absurd hx hqrne
        next =>
          intro hx
          exfalso
          simp only [hlenNL] at hx
          omega
      next => rfl
      next => rfl
      next => left; rfl
      next => exact hlenNL
      next => intro hx; rcases hx with hx | hx <;> cases hx
      next => intro _ _; exact hlenNL.symm
      next => intro _; exact hqrne
      next => intro hf; cases hf
      next => intro hf; cases hf
      next => intro p hp; exact List.mem_append.mpr (Or.inr hp)
      next =>
        intro p hp
        rw [lastLevel_mk]
        exact List.mem_append.mpr (Or.inr hp)
      next => exact hund
      next =>
        intro n hn p hp hpn
        rw [lastLevel_mk]
        exact List.mem_append.mpr (Or.inr (hEpNameLast n hn p hp hpn))
      next => exact hseen

/-! ### Reachable tree states -/

/-- Tree states reachable by `Tree.__init__` from a root page followed by
`explore` calls, stopping once the `ok=false` sentinel is returned. -/
inductive TreeReach (nb : Nb) : Tree → Prop where
  | init (n : Name) (dir : Bool) : TreeReach nb (Tree.init (Page.root n) dir)
  | step {t : Tree} {res : ExpRes} : TreeReach nb t → t.explore nb = some res →
      res.ok = true → TreeReach nb res.tree

theorem treeReach_inv {nb : Nb} {t : Tree} (h : TreeReach nb t) : TreeInv nb t := by
  induction h with
  | init n dir => exact treeInv_init nb _ ⟨n, rfl⟩ dir
  | step _ hex hok ih => exact (explore_spec ih hex).inv

theorem TreeReach.queue_ne_nil {nb : Nb} {t : Tree} (h : TreeReach nb t) : t.queue ≠ [] := by
  cases h with
  | init n dir => simp [Tree.init]
  | step hr hex hok => exact (explore_spec (treeReach_inv hr) hex).ok_queue hok

/-! ### C6: explore never throws on reachable trees -/

/-- C6: on every tree state reachable by construction followed by `explore`
calls that stop once `ok=false` is returned, `explore` returns a result (the
model returns `none` exactly where the Python code would raise: popping or
removing from an empty or missing entry, or indexing `levels` out of range),
so failure is reported only through the `(False, set(), False)` sentinel. -/
theorem C6_explore_total {nb : Nb} {t : Tree} (h : TreeReach nb t) :
    ∃ res, t.explore nb = some res := by
  obtain ⟨u, qrest, hq⟩ := List.exists_cons_of_ne_nil h.queue_ne_nil
  rcases (treeReach_inv h).shape with hsh | hsh
  · rw [explore_eq_fresh nb t (treeReach_inv h) u qrest hq hsh]
    split_ifs <;> exact ⟨_, rfl⟩
  · rw [explore_eq_mid nb t (treeReach_inv h) u qrest hq hsh]
    split_ifs <;> exact ⟨_, rfl⟩

/-- Concrete pages of the `nbBranch` run used as witnesses. -/
def brA : Page := .root "A"

def brB : Page := .child "B" brA

def brC : Page := .child "C" brA

/-- The tree reached from root `"A"` after one `explore` against `nbBranch`. -/
def branchTree1 : Tree := ⟨brA, true, [brB, brC], [brB, brC], 1, [[brA], [brB, brC]]⟩

/-- The tree reached after a second `explore` (expanding `brB`, which has no
links): `brC` is still an endpoint but the deepest level is empty. -/
def branchTree2 : Tree := ⟨brA, true, [brC], [brC], 1, [[brA], [brB, brC], []]⟩

theorem branchTree2_reach : TreeReach nbBranch branchTree2 := by
  have h1 : (Tree.init (Page.root "A") true).explore nbBranch =
      some ⟨true, [brB, brC], true, branchTree1⟩ := by decide
  have h2 : branchTree1.explore nbBranch = some ⟨true, [], false, branchTree2⟩ := by decide
  exact TreeReach.step (TreeReach.step (TreeReach.init "A" true) h1 rfl) h2 rfl

theorem C6_explore_total_witness : (branchTree2.explore nbBranch).isSome = true := by
  obtain ⟨res, hres⟩ := C6_explore_total branchTree2_reach
  rw [hres]
  rfl

/-! ### C7 amended: endpoints sit in the queue or the deepest level -/

/-- C7 amended: in every reachable tree state, every endpoint is either still
pending in the queue (at the draining level) or a member of the deepest
level; every `explore` call preserves this. -/
theorem C7_amended {nb : Nb} {t : Tree} (h : TreeReach nb t) :
    ∀ p ∈ t.endpoints, p ∈ t.queue ∨ p ∈ lastLevel t :=
  (treeReach_inv h).epSplit

theorem C7_amended_witness : brC ∈ branchTree2.queue ∨ brC ∈ lastLevel branchTree2 :=
  C7_amended branchTree2_reach brC (by decide)

/-! ### Minimum-distance semantics of the levels (for C5) -/

theorem get?_concat_cases {α : Type} {B : List α} {x y : α} {d : Nat}
    (h : (B ++ [x]).get? d = some y) :
    (d < B.length ∧ B.get? d = some y) ∨ (d = B.length ∧ y = x) := by
  by_cases hlt : d < B.length
  · left
    rw [List.get?_append hlt] at h
    exact ⟨hlt, h⟩
  · right
    rw [List.get?_append_right (Nat.le_of_not_lt hlt)] at h
    have hz : d - B.length = 0 := by
      by_contra hz
      rcases Nat.exists_eq_succ_of_ne_zero hz with ⟨k, hk⟩
      rw [hk] at h
      simp [List.get?] at h
    rw [hz] at h
    cases h
    exact ⟨by omega, rfl⟩

/-- The identifier was already popped and expanded: it sits strictly below
the queue level, or at the queue level but no longer pending. -/
def popped (t : Tree) (n : Name) : Prop :=
  (∃ d lvl, d < t.queueLevel ∧ t.levels.get? d = some lvl ∧ n ∈ pnames lvl) ∨
  (∃ lvl, t.levels.get? t.queueLevel = some lvl ∧ n ∈ pnames lvl ∧ n ∉ pnames t.queue)

/-- Distance invariants: every recorded page sits at its exact minimum
distance from the root, and every already-expanded page has all of its
neighbors recorded somewhere. -/
structure DistInv (nb : Nb) (t : Tree) : Prop where
  mind : ∀ d lvl p, t.levels.get? d = some lvl → p ∈ lvl →
    reachIn nb t.isStarting t.root.name d p.name ∧
      ∀ e, e < d → ¬ reachIn nb t.isStarting t.root.name e p.name
  cls : ∀ n, popped t n → ∀ c ∈ nb n t.isStarting, c ∈ seenNames t.levels

theorem distInv_init (nb : Nb) (dir : Bool) (n : Name) :
    DistInv nb (Tree.init (Page.root n) dir) := by
  constructor
  · intro d lvl p hd hp
    cases d with
    | zero =>
      cases hd
      simp only [List.mem_singleton] at hp
      subst hp
      exact ⟨rfl, fun e he => absurd he (by omega)⟩
    | succ d => simp [Tree.init, List.get?] at hd
  · intro m hpop c hc
    rcases hpop with ⟨d, lvl, hd, _, _⟩ | ⟨lvl, hlvl, hm, hnq⟩
    · simp [Tree.init] at hd
    · exfalso
      apply hnq
      cases hlvl
      simpa [Tree.init] using hm

theorem reach_seen {nb : Nb} {t : Tree} (inv : TreeInv nb t) (dinv : DistInv nb t) :
    ∀ k, k ≤ t.queueLevel → ∀ n, reachIn nb t.isStarting t.root.name k n →
      n ∈ seenNames t.levels := by
  intro k
  induction k with
  | zero =>
    intro _ n hr
    have hn : n = t.root.name := hr
    subst hn
    exact mem_seenNames_of_get? inv.lv.lvl0 (by simp [pnames])
  | succ k ih =>
    intro hk n hr
    obtain ⟨c, hc, hedge⟩ := hr
    have hcseen := ih (by omega) c hc
    obtain ⟨lvl, hlvlmem, hcl⟩ := mem_seenNames.mp hcseen
    obtain ⟨d, hd⟩ := List.get?_of_mem hlvlmem
    obtain ⟨p, hpmem, rfl⟩ := mem_pnames.mp hcl
    have hmind := dinv.mind d lvl p hd hpmem
    have hdk : d ≤ k := by
      by_contra hdk
      exact (hmind.2 k (by omega)) hc
    have hpop : popped t p.name :=
      Or.inl ⟨d, lvl, by omega, hd, name_mem_pnames hpmem⟩
    exact dinv.cls p.name hpop n hedge

theorem dist_spec {nb : Nb} {t : Tree} {res : ExpRes} (inv : TreeInv nb t)
    (dinv : DistInv nb t) (h : t.explore nb = some res) : DistInv nb res.tree := by
  rcases hqe : t.queue with _ | ⟨u, qrest⟩
  · rw [Tree.explore, hqe] at h
    cases h
  have huq : u ∈ t.queue := by rw [hqe]; exact List.mem_cons_self u qrest
  obtain ⟨lvlq, hlq, hulq⟩ := inv.qSub u huq
  have humind := dinv.mind t.queueLevel lvlq u hlq hulq
  have hchildU : ∀ c, c ∈ nb u.name t.isStarting → c ∉ seenNames t.levels →
      c ∈ pnames (unseenOf nb t u) := by
    intro c hce hcs
    refine mem_pnames.mpr ⟨Page.child c u, ?_, rfl⟩
    unfold unseenOf
    rw [List.mem_filter]
    refine ⟨List.mem_map.mpr ⟨c, List.mem_dedup.mpr hce, rfl⟩, ?_⟩
    simpa using hcs
  have hnotq : ∀ n, n ≠ u.name → n ∉ pnames qrest → n ∉ pnames t.queue := by
    intro n hne hnq hmem
    rw [hqe] at hmem
    simp only [pnames, List.map_cons, List.mem_cons] at hmem
    rcases hmem with hmem | hmem
    · exact hne hmem
    · exact hnq hmem
  rcases inv.shape with hsh | hsh
  · -- fresh entry
    have hBget : ∀ d, d < t.queueLevel + 1 →
        (t.levels ++ [unseenOf nb t u]).get? d = t.levels.get? d := by
      intro d hd
      exact List.get?_append (by omega)
    have hseen : ∀ n, n ∈ seenNames (t.levels ++ [unseenOf nb t u]) ↔
        n ∈ seenNames t.levels ∨ n ∈ pnames (unseenOf nb t u) := by
      intro n
      rw [seenNames_concat]
      exact List.mem_append
    have hgetU : (t.levels ++ [unseenOf nb t u]).get? (t.queueLevel + 1) =
        some (unseenOf nb t u) := by
      rw [hsh, List.get?_eq_getElem?]
      exact List.getElem?_concat_length _ _
    have hmindNew : ∀ d lvl p, (t.levels ++ [unseenOf nb t u]).get? d = some lvl → p ∈ lvl →
        reachIn nb t.isStarting t.root.name d p.name ∧
          ∀ e, e < d → ¬ reachIn nb t.isStarting t.root.name e p.name := by
      intro d lvl p hd hp
      rcases get?_concat_cases hd with ⟨hlt, hB⟩ | ⟨hdeq, rfl⟩
      · exact dinv.mind d lvl p hB hp
      · obtain ⟨n, rfl, hnedge⟩ := unseen_child hp
        have hdq : d = t.queueLevel + 1 := by omega
        subst hdq
        refine ⟨⟨u.name, humind.1, hnedge⟩, ?_⟩
        intro e he hre
        exact unseen_fresh hp (reach_seen inv dinv e (by omega) _ hre)
    have hclsSeen : ∀ n, popped t n → ∀ c ∈ nb n t.isStarting,
        c ∈ seenNames (t.levels ++ [unseenOf nb t u]) := by
      intro n hpop c hce
      exact (hseen c).mpr (Or.inl (dinv.cls n hpop c hce))
    have huCls : ∀ c ∈ nb u.name t.isStarting,
        c ∈ seenNames (t.levels ++ [unseenOf nb t u]) := by
      intro c hce
      by_cases hcs : c ∈ seenNames t.levels
      · exact (hseen c).mpr (Or.inl hcs)
      · exact (hseen c).mpr (Or.inr (hchildU c hce hcs))
    rw [explore_eq_fresh nb t inv u qrest hqe hsh] at h
    by_cases hqr : qrest.isEmpty
    · have hqrnil : qrest = [] := List.isEmpty_iff.mp hqr
      by_cases hUe : (unseenOf nb t u).isEmpty
      · have hUnil : unseenOf nb t u = [] := List.isEmpty_iff.mp hUe
        simp only [hqr, hUe, if_true] at h
        cases h
        refine ⟨hmindNew, ?_⟩
        intro n hpop c hce
        rcases hpop with ⟨d, lvl, hdlt, hd, hn⟩ | ⟨lvl, hd, hn, hnq⟩
        · simp only at hdlt hd
          by_cases hdlt2 : d < t.queueLevel
          · have hdq : t.levels.get? d = some lvl := by
              rw [← hBget d (by omega)]
              exact hd
            exact hclsSeen n (Or.inl ⟨d, lvl, hdlt2, hdq, hn⟩) c hce
          · have hdq : d = t.queueLevel := by omega
            have hdq2 : t.levels.get? t.queueLevel = some lvl := by
              rw [← hBget t.queueLevel (by omega), ← hdq]
              exact hd
            by_cases hnu : n = u.name
            · subst hnu
              exact huCls c hce
            · refine hclsSeen n (Or.inr ⟨lvl, hdq2, hn, hnotq n hnu ?_⟩) c hce
              rw [hqrnil]
              simp [pnames]
        · simp only at hd hn
          rw [hgetU] at hd
          cases hd
          rw [hUnil] at hn
          cases hn
      · simp only [hqr, hUe, if_true, Bool.false_eq_true, if_false] at h
        cases h
        refine ⟨hmindNew, ?_⟩
        intro n hpop c hce
        rcases hpop with ⟨d, lvl, hdlt, hd, hn⟩ | ⟨lvl, hd, hn, hnq⟩
        · simp only at hdlt hd
          by_cases hdlt2 : d < t.queueLevel
          · have hdq : t.levels.get? d = some lvl := by
              rw [← hBget d (by omega)]
              exact hd
            exact hclsSeen n (Or.inl ⟨d, lvl, hdlt2, hdq, hn⟩) c hce
          · have hdq : d = t.queueLevel := by omega
            have hdq2 : t.levels.get? t.queueLevel = some lvl := by
              rw [← hBget t.queueLevel (by omega), ← hdq]
              exact hd
            by_cases hnu : n = u.name
            · subst hnu
              exact huCls c hce
            · refine hclsSeen n (Or.inr ⟨lvl, hdq2, hn, hnotq n hnu ?_⟩) c hce
              rw [hqrnil]
              simp [pnames]
        · simp only at hd hn hnq
          rw [hgetU] at hd
          cases hd
          exact absurd hn hnq
    · simp only [hqr, Bool.false_eq_true, if_false] at h
      cases h
      refine ⟨hmindNew, ?_⟩
      intro n hpop c hce
      rcases hpop with ⟨d, lvl, hdlt, hd, hn⟩ | ⟨lvl, hd, hn, hnq⟩
      · simp only at hdlt hd
        have hdq : t.levels.get? d = some lvl := by
          rw [← hBget d (by omega)]
          exact hd
        exact hclsSeen n (Or.inl ⟨d, lvl, hdlt, hdq, hn⟩) c hce
      · simp only at hd hn hnq
        have hdq : t.levels.get? t.queueLevel = some lvl := by
          rw [← hBget _ (by omega)]
          exact hd
        by_cases hnu : n = u.name
        · subst hnu
          exact huCls c hce
        · exact hclsSeen n (Or.inr ⟨lvl, hdq, hn, hnotq n hnu hnq⟩) c hce
  · -- mid-level entry
    have hnil := inv.levels_ne_nil
    have hdecomp : t.levels.dropLast ++ [lastLevel t] = t.levels := by
      rw [lastLevel_eq_getLast hnil]
      exact List.dropLast_append_getLast hnil
    have hBlen : t.levels.dropLast.length = t.queueLevel + 1 := by
      rw [List.length_dropLast]; omega
    have hB : ∀ d, d < t.queueLevel + 1 → t.levels.dropLast.get? d = t.levels.get? d := by
      intro d hd
      conv_rhs => rw [← hdecomp]
      rw [List.get?_append (hBlen ▸ hd)]
    have hLL : t.levels.get? (t.queueLevel + 1) = some (lastLevel t) := by
      have h0 := lastLevel_get? hnil
      rw [show t.levels.length - 1 = t.queueLevel + 1 from by omega] at h0
      exact h0
    have hBget : ∀ d, d < t.queueLevel + 1 →
        (t.levels.dropLast ++ [lastLevel t ++ unseenOf nb t u]).get? d = t.levels.get? d := by
      intro d hd
      rw [List.get?_append (by omega : d < t.levels.dropLast.length)]
      exact hB d hd
    have hgetU : (t.levels.dropLast ++ [lastLevel t ++ unseenOf nb t u]).get?
        (t.queueLevel + 1) = some (lastLevel t ++ unseenOf nb t u) := by
      rw [← hBlen, List.get?_eq_getElem?]
      exact List.getElem?_concat_length _ _
    have hseen : ∀ n,
        n ∈ seenNames (t.levels.dropLast ++ [lastLevel t ++ unseenOf nb t u]) ↔
          n ∈ seenNames t.levels ∨ n ∈ pnames (unseenOf nb t u) := by
      intro n
      have e1 : seenNames (t.levels.dropLast ++ [lastLevel t ++ unseenOf nb t u]) =
          seenNames t.levels.dropLast ++ (pnames (lastLevel t) ++ pnames (unseenOf nb t u)) := by
        rw [seenNames_concat, pnames_append]
      have e2 : seenNames t.levels =
          seenNames t.levels.dropLast ++ pnames (lastLevel t) := by
        conv_lhs => rw [← hdecomp]
        rw [seenNames_concat]
      rw [e1, e2]
      simp [List.mem_append, or_assoc]
    have hmindNew : ∀ d lvl p,
        (t.levels.dropLast ++ [lastLevel t ++ unseenOf nb t u]).get? d = some lvl → p ∈ lvl →
        reachIn nb t.isStarting t.root.name d p.name ∧
          ∀ e, e < d → ¬ reachIn nb t.isStarting t.root.name e p.name := by
      intro d lvl p hd hp
      rcases get?_concat_cases hd with ⟨hlt, hBd⟩ | ⟨hdeq, rfl⟩
      · have hdq : t.levels.get? d = some lvl := by
          rw [← hB d (by omega)]
          exact hBd
        exact dinv.mind d lvl p hdq hp
      · have hdq : d = t.queueLevel + 1 := by omega
        subst hdq
        rcases List.mem_append.mp hp with hp | hp
        · exact dinv.mind (t.queueLevel + 1) (lastLevel t) p hLL hp
        · obtain ⟨n, rfl, hnedge⟩ := unseen_child hp
          refine ⟨⟨u.name, humind.1, hnedge⟩, ?_⟩
          intro e he hre
          exact unseen_fresh hp (reach_seen inv dinv e (by omega) _ hre)
    have hclsSeen : ∀ n, popped t n → ∀ c ∈ nb n t.isStarting,
        c ∈ seenNames (t.levels.dropLast ++ [lastLevel t ++ unseenOf nb t u]) := by
      intro n hpop c hce
      exact (hseen c).mpr (Or.inl (dinv.cls n hpop c hce))
    have huCls : ∀ c ∈ nb u.name t.isStarting,
        c ∈ seenNames (t.levels.dropLast ++ [lastLevel t ++ unseenOf nb t u]) := by
      intro c hce
      by_cases hcs : c ∈ seenNames t.levels
      · exact (hseen c).mpr (Or.inl hcs)
      · exact (hseen c).mpr (Or.inr (hchildU c hce hcs))
    rw [explore_eq_mid nb t inv u qrest hqe hsh] at h
    by_cases hqr : qrest.isEmpty
    · have hqrnil : qrest = [] := List.isEmpty_iff.mp hqr
      by_cases hUe : (lastLevel t ++ unseenOf nb t u).isEmpty
      · have hUnil : lastLevel t ++ unseenOf nb t u = [] := List.isEmpty_iff.mp hUe
        simp only [hqr, hUe, if_true] at h
        cases h
        refine ⟨hmindNew, ?_⟩
        intro n hpop c hce
        rcases hpop with ⟨d, lvl, hdlt, hd, hn⟩ | ⟨lvl, hd, hn, hnq⟩
        · simp only at hdlt hd
          by_cases hdlt2 : d < t.queueLevel
          · have hdq : t.levels.get? d = some lvl := by
              rw [← hBget d (by omega)]
              exact hd
            exact hclsSeen n (Or.inl ⟨d, lvl, hdlt2, hdq, hn⟩) c hce
          · have hdq : d = t.queueLevel := by omega
            have hdq2 : t.levels.get? t.queueLevel = some lvl := by
              rw [← hBget t.queueLevel (by omega), ← hdq]
              exact hd
            by_cases hnu : n = u.name
            · subst hnu
              exact huCls c hce
            · refine hclsSeen n (Or.inr ⟨lvl, hdq2, hn, hnotq n hnu ?_⟩) c hce
              rw [hqrnil]
              simp [pnames]
        · simp only at hd hn
          rw [hgetU] at hd
          cases hd
          rw [hUnil] at hn
          cases hn
      · simp only [hqr, hUe, if_true, Bool.false_eq_true, if_false] at h
        cases h
        refine ⟨hmindNew, ?_⟩
        intro n hpop c hce
        rcases hpop with ⟨d, lvl, hdlt, hd, hn⟩ | ⟨lvl, hd, hn, hnq⟩
        · simp only at hdlt hd
          by_cases hdlt2 : d < t.queueLevel
          · have hdq : t.levels.get? d = some lvl := by
              rw [← hBget d (by omega)]
              exact hd
            exact hclsSeen n (Or.inl ⟨d, lvl, hdlt2, hdq, hn⟩) c hce
          · have hdq : d = t.queueLevel := by omega
            have hdq2 : t.levels.get? t.queueLevel = some lvl := by
              rw [← hBget t.queueLevel (by omega), ← hdq]
              exact hd
            by_cases hnu : n = u.name
            · subst hnu
              exact huCls c hce
            · refine hclsSeen n (Or.inr ⟨lvl, hdq2, hn, hnotq n hnu ?_⟩) c hce
              rw [hqrnil]
              simp [pnames]
        · simp only at hd hn hnq
          rw [hgetU] at hd
          cases hd
          exact absurd hn hnq
    · simp only [hqr, Bool.false_eq_true, if_false] at h
      cases h
      refine ⟨hmindNew, ?_⟩
      intro n hpop c hce
      rcases hpop with ⟨d, lvl, hdlt, hd, hn⟩ | ⟨lvl, hd, hn, hnq⟩
      · simp only at hdlt hd
        have hdq : t.levels.get? d = some lvl := by
          rw [← hBget d (by omega)]
          exact hd
        exact hclsSeen n (Or.inl ⟨d, lvl, hdlt, hdq, hn⟩) c hce
      · simp only at hd hn hnq
        have hdq : t.levels.get? t.queueLevel = some lvl := by
          rw [← hBget _ (by omega)]
          exact hd
        by_cases hnu : n = u.name
        · subst hnu
          exact huCls c hce
        · exact hclsSeen n (Or.inr ⟨lvl, hdq, hn, hnotq n hnu hnq⟩) c hce

theorem TreeReach.dist {nb : Nb} {t : Tree} (h : TreeReach nb t) : DistInv nb t := by
  induction h with
  | init n dir => exact distInv_init nb dir n
  | step hr hex hok ih => exact dist_spec (treeReach_inv hr) ih hex

/-! ### C5: first discovery wins, one record per identifier, at minimum distance -/

/-- C5: in every reachable tree state, an identifier appears in at most one
level (distinct levels are identifier-disjoint and no level repeats an
identifier), and every recorded page sits at exactly its minimum distance
from the root: it is reachable in `d` collaborator steps and in no fewer.
Reachability quantifies over all explore sequences, so this is also
preservation under every explore call. -/
theorem C5_first_discovery {nb : Nb} {t : Tree} (h : TreeReach nb t) :
    (∀ d₁ d₂ l₁ l₂, t.levels.get? d₁ = some l₁ → t.levels.get? d₂ = some l₂ → d₁ ≠ d₂ →
      ∀ n, n ∈ pnames l₁ → n ∉ pnames l₂) ∧
    (∀ d lvl, t.levels.get? d = some lvl → (pnames lvl).Nodup) ∧
    (∀ d lvl p, t.levels.get? d = some lvl → p ∈ lvl →
      reachIn nb t.isStarting t.root.name d p.name ∧
        ∀ e, e < d → ¬ reachIn nb t.isStarting t.root.name e p.name) :=
  ⟨(treeReach_inv h).lv.disj, (treeReach_inv h).lv.lvlNodup, h.dist.mind⟩

theorem C5_first_discovery_witness :
    ("B" ∉ pnames [brA]) ∧ reachIn nbBranch true "A" 1 "B" ∧
      ¬ reachIn nbBranch true "A" 0 "B" := by
  have hc := C5_first_discovery branchTree2_reach
  have hdisj := hc.1 1 0 [brB, brC] [brA] rfl rfl (by omega) "B" (by decide)
  have hm := hc.2.2 1 [brB, brC] brB rfl (by decide)
  exact ⟨hdisj, hm.1, hm.2 0 (by omega)⟩

/-! ### Game-level invariants -/

/-- The tree is fully queued: its deepest level is the queue level. -/
def freshT (t : Tree) : Prop := t.queueLevel + 1 = t.levels.length

/-- The number of pages a path found at the current pair of queue levels has:
one more than the two draining depths. -/
def curLen (g : Game) : Nat := g.startTree.queueLevel + g.endTree.queueLevel + 2

/-- Both frontiers still have endpoints. -/
def bothLive (g : Game) : Prop := g.startTree.endpoints ≠ [] ∧ g.endTree.endpoints ≠ []

/-- The shape of every path the search buffers: two collaborator-justified
parent chains meeting on a common identifier, glued as
`[startRoot, …, mid, …, endRoot]`, each half duplicate-free. -/
def GoodPath (nb : Nb) (rootS rootE : Page) (p : List Page) : Prop :=
  ∃ sm em, p = sm.chain.reverse ++ em.chain.drop 1 ∧ sm.name = em.name ∧
    chainOk nb true sm ∧ chainOk nb false em ∧
    sm.chainRoot = rootS ∧ em.chainRoot = rootE ∧
    (pnames sm.chain).Nodup ∧ (pnames em.chain).Nodup

/-- The invariants of every reachable bidirectional search state. -/
structure GameInv (nb : Nb) (g : Game) : Prop where
  sInv : TreeInv nb g.startTree
  eInv : TreeInv nb g.endTree
  sDir : g.startTree.isStarting = true
  eDir : g.endTree.isStarting = false
  freshOr : freshT g.startTree ∨ freshT g.endTree
  siLen : g.searchIndex ≤ g.paths.length
  emptyEpSi : g.startTree.endpoints = [] ∨ g.endTree.endpoints = [] →
    g.searchIndex = g.paths.length
  sorted : List.Pairwise (· ≤ ·) (g.paths.map List.length)
  bound : ∀ p ∈ g.paths, p.length ≤ curLen g
  good : ∀ p ∈ g.paths, GoodPath nb g.startTree.root g.endTree.root p

theorem gameInv_init (nb : Nb) (a b : Name) : GameInv nb (Game.init a b) := by
  constructor
  case sInv => exact treeInv_init nb _ ⟨a, rfl⟩ true
  case eInv => exact treeInv_init nb _ ⟨b, rfl⟩ false
  case sDir => rfl
  case eDir => rfl
  case freshOr => left; rfl
  case siLen => exact Nat.le_refl 0
  case emptyEpSi => intro _; rfl
  case sorted => exact List.Pairwise.nil
  case bound => intro p hp; cases hp
  case good => intro p hp; cases hp

/-! ### Locating meeting pages in endpoint sets -/

theorem findByName_some {s : List Page} {n : Name} (h : n ∈ pnames s) :
    ∃ q, findByName s n = some q ∧ q ∈ s ∧ q.name = n := by
  obtain ⟨p, hp, hpn⟩ := mem_pnames.mp h
  cases hfind : findByName s n with
  | none =>
    exfalso
    have := List.find?_eq_none.mp hfind p hp
    simp [hpn] at this
  | some q =>
    refine ⟨q, rfl, List.mem_of_find?_eq_some hfind, ?_⟩
    have := List.find?_some hfind
    simpa using this

/-- Looking up a freshly produced identifier in the endpoints of the explored
tree finds a page of the deepest level, with full-depth chain data. -/
theorem lookup_active {nb : Nb} {t : Tree} {res : ExpRes} (post : ExpPost nb t res)
    {n : Name} (hn : n ∈ pnames res.newPages) :
    ∃ q, findByName res.tree.endpoints n = some q ∧ q.name = n ∧
      q.chain.length = res.tree.levels.length ∧ chainOk nb res.tree.isStarting q ∧
      q.chainRoot = res.tree.root ∧ (pnames q.chain).Nodup := by
  have hmem : n ∈ pnames res.tree.endpoints := by
    obtain ⟨p, hp, rfl⟩ := mem_pnames.mp hn
    exact name_mem_pnames (post.new_in_ep p hp)
  obtain ⟨q, hfind, hqmem, hqn⟩ := findByName_some hmem
  have hlast : q ∈ lastLevel res.tree := post.ep_name_last n hn q hqmem hqn
  have hnil : res.tree.levels ≠ [] := post.inv.levels_ne_nil
  have hget := lastLevel_get? hnil
  refine ⟨q, hfind, hqn, ?_, ?_, ?_, ?_⟩
  · have hlen : 0 < res.tree.levels.length := List.length_pos.mpr hnil
    have := post.inv.lv.depth _ _ q hget hlast
    rw [this]
    omega
  · exact post.inv.lv.cOk _ _ q hget hlast
  · exact post.inv.lv.cRoot _ _ q hget hlast
  · exact post.inv.lv.cNodup _ _ q hget hlast

/-- Looking up an identifier in the endpoints of a fully queued (untouched)
tree finds a page at depth `queueLevel`, with its chain data. -/
theorem lookup_fresh {nb : Nb} {t : Tree} (inv : TreeInv nb t) (hf : freshT t)
    {n : Name} (hmem : n ∈ pnames t.endpoints) :
    ∃ q, findByName t.endpoints n = some q ∧ q.name = n ∧
      q.chain.length = t.queueLevel + 1 ∧ chainOk nb t.isStarting q ∧
      q.chainRoot = t.root ∧ (pnames q.chain).Nodup := by
  obtain ⟨q, hfind, hqmem, hqn⟩ := findByName_some hmem
  have hnil : t.levels ≠ [] := inv.levels_ne_nil
  have hget0 := lastLevel_get? hnil
  have hql : t.levels.length - 1 = t.queueLevel := by
    unfold freshT at hf
    omega
  rw [hql] at hget0
  have hq : ∃ lvl, t.levels.get? t.queueLevel = some lvl ∧ q ∈ lvl := by
    rcases inv.epSplit q hqmem with hq | hq
    · exact inv.qSub q hq
    · exact ⟨lastLevel t, hget0, hq⟩
  obtain ⟨lvl, hlvl, hql2⟩ := hq
  refine ⟨q, hfind, hqn, ?_, ?_, ?_, ?_⟩
  · exact inv.lv.depth _ _ q hlvl hql2
  · exact inv.lv.cOk _ _ q hlvl hql2
  · exact inv.lv.cRoot _ _ q hlvl hql2
  · exact inv.lv.cNodup _ _ q hlvl hql2

theorem mem_meet {other newPages : List Page} {m : Name} :
    m ∈ meet other newPages ↔ m ∈ pnames newPages ∧ m ∈ pnames other := by
  simp only [meet, pnames, List.mem_map, List.mem_filter]
  constructor
  · rintro ⟨p, ⟨hp, hmem⟩, rfl⟩
    rw [decide_eq_true_iff] at hmem
    exact ⟨⟨p, hp, rfl⟩, hmem⟩
  · rintro ⟨⟨p, hp, rfl⟩, hmem⟩
    exact ⟨p, ⟨hp, decide_eq_true hmem⟩, rfl⟩

theorem chain_length_pos (p : Page) : 0 < p.chain.length := by
  cases p <;> simp [Page.chain]

/-- The endpoint set of a tree contains a page with the given identifier and
known chain data. -/
def lookupSpec (nb : Nb) (T : Tree) (n : Name) (len : Nat) : Prop :=
  ∃ q, findByName T.endpoints n = some q ∧ q.name = n ∧ q.chain.length = len ∧
    chainOk nb T.isStarting q ∧ q.chainRoot = T.root ∧ (pnames q.chain).Nodup

theorem getPath_spec {nb : Nb} {G : Game} {m : Name} {lenS lenE : Nat}
    (hS : lookupSpec nb G.startTree m lenS) (hE : lookupSpec nb G.endTree m lenE)
    (hSdir : G.startTree.isStarting = true) (hEdir : G.endTree.isStarting = false) :
    ∃ path, G.getPath m = some path ∧ path.length + 1 = lenS + lenE ∧
      GoodPath nb G.startTree.root G.endTree.root path := by
  obtain ⟨sm, hfS, hnS, hlS, hokS, hrS, hndS⟩ := hS
  obtain ⟨em, hfE, hnE, hlE, hokE, hrE, hndE⟩ := hE
  refine ⟨sm.chain.reverse ++ em.chain.drop 1, ?_, ?_, ?_⟩
  · unfold Game.getPath
    rw [hfS, hfE]
  · have hpos : 0 < em.chain.length := chain_length_pos em
    simp only [List.length_append, List.length_reverse, List.length_drop, hlS, hlE]
    omega
  · exact ⟨sm, em, rfl, hnS.trans hnE.symm, hSdir ▸ hokS, hEdir ▸ hokE, hrS, hrE, hndS, hndE⟩

theorem procMids_spec {nb : Nb} (target : Nat) {rootS rootE : Page} {L : Nat} :
    ∀ (mids : List Name) (g1 : Game),
    (∀ m ∈ mids, ∃ path, g1.getPath m = some path ∧ path.length = L ∧
        GoodPath nb rootS rootE path) →
    ∃ g2, procMids target mids g1 = some g2 ∧
      g2.startTree = g1.startTree ∧ g2.endTree = g1.endTree ∧
      (∃ extra, g2.paths = g1.paths ++ extra ∧ ∀ q ∈ extra, q.length = L ∧
        GoodPath nb rootS rootE q) ∧
      g1.searchIndex ≤ g2.searchIndex ∧
      (g1.searchIndex = min target g1.paths.length →
        g2.searchIndex = min target g2.paths.length) := by
  intro mids
  induction mids with
  | nil =>
    intro g1 _
    exact ⟨g1, rfl, rfl, rfl, ⟨[], by simp, fun q hq => absurd hq (List.not_mem_nil q)⟩,
      Nat.le_refl _, fun h => h⟩
  | cons m ms ih =>
    intro g1 hpath
    obtain ⟨path, hget, hlen, hgood⟩ := hpath m (List.mem_cons_self m ms)
    have hstep : stepMid target g1 m = some
        { g1 with
          searchIndex := if g1.searchIndex < target then g1.searchIndex + 1 else g1.searchIndex,
          paths := g1.paths ++ [path] } := by
      unfold stepMid
      rw [hget]
    have hpath' : ∀ m' ∈ ms, ∃ p', Game.getPath
        { g1 with
          searchIndex := if g1.searchIndex < target then g1.searchIndex + 1 else g1.searchIndex,
          paths := g1.paths ++ [path] } m' = some p' ∧ p'.length = L ∧
        GoodPath nb rootS rootE p' := by
      intro m' hm'
      exact hpath m' (List.mem_cons_of_mem m hm')
    obtain ⟨g2, hproc, hst, het, ⟨extra, hpaths, hextra⟩, hsile, hsim⟩ := ih _ hpath'
    refine ⟨g2, ?_, hst, het, ⟨path :: extra, ?_, ?_⟩, ?_, ?_⟩
    · unfold procMids
      rw [hstep]
      exact hproc
    · rw [hpaths]
      simp
    · intro q hq
      rcases List.mem_cons.mp hq with rfl | hq
      · exact ⟨hlen, hgood⟩
      · exact hextra q hq
    · refine le_trans ?_ hsile
      show g1.searchIndex ≤ (if g1.searchIndex < target then g1.searchIndex + 1 else g1.searchIndex)
      split <;> omega
    · intro hsi
      apply hsim
      show (if g1.searchIndex < target then g1.searchIndex + 1 else g1.searchIndex) =
        min target ((g1.paths ++ [path]).length)
      simp only [List.length_append, List.length_cons, List.length_nil]
      split <;> omega

theorem TreeInv.ep_ne_of_queue_ne {nb : Nb} {t : Tree} (inv : TreeInv nb t)
    (h : t.queue ≠ []) : t.endpoints ≠ [] := by
  obtain ⟨u, qrest, hq⟩ := List.exists_cons_of_ne_nil h
  intro he
  have := inv.qInEp u (by rw [hq]; exact List.mem_cons_self u qrest)
  rw [he] at this
  cases this

theorem pairwise_const_le {L : Nat} : ∀ {xs : List Nat}, (∀ x ∈ xs, x = L) →
    List.Pairwise (· ≤ ·) xs := by
  intro xs
  induction xs with
  | nil => intro _; exact List.Pairwise.nil
  | cons x l ih =>
    intro hx
    refine List.Pairwise.cons ?_ (ih fun y hy => hx y (List.mem_cons_of_mem x hy))
    intro y hy
    rw [hx x (List.mem_cons_self x l), hx y (List.mem_cons_of_mem x hy)]

theorem sorted_append_const {l extra : List (List Page)} {L : Nat}
    (hs : List.Pairwise (· ≤ ·) (l.map List.length))
    (hb : ∀ p ∈ l, p.length ≤ L) (he : ∀ q ∈ extra, q.length = L) :
    List.Pairwise (· ≤ ·) ((l ++ extra).map List.length) := by
  rw [List.map_append, List.pairwise_append]
  refine ⟨hs, pairwise_const_le (L := L) ?_, ?_⟩
  · intro x hx
    obtain ⟨q, hq, rfl⟩ := List.mem_map.mp hx
    exact he q hq
  · intro x hx y hy
    obtain ⟨p, hp, rfl⟩ := List.mem_map.mp hx
    obtain ⟨q, hq, rfl⟩ := List.mem_map.mp hy
    rw [he q hq]
    exact hb p hp

theorem curLen_le_of_ql {g g2 : Game}
    (hS : g2.startTree.queueLevel = g.startTree.queueLevel ∨
      g2.startTree.queueLevel = g.startTree.queueLevel + 1)
    (hE : g2.endTree.queueLevel = g.endTree.queueLevel ∨
      g2.endTree.queueLevel = g.endTree.queueLevel + 1) :
    curLen g ≤ curLen g2 := by
  unfold curLen
  omega

/-- One successful expansion of the starting tree, followed by the
intersection loop: the invariants are preserved, the ending tree is
untouched, and the buffer grows by paths of the current meeting length. -/
theorem step_true_spec {nb : Nb} {g : Game} {res : ExpRes} (target : Nat)
    (hinv : GameInv nb g) (hlive : bothLive g) (hfresh : freshT g.endTree)
    (hex : g.startTree.explore nb = some res) (hok : res.ok = true)
    (hsi : g.searchIndex = min target g.paths.length) :
    ∃ g2, procMids target (meet g.endTree.endpoints res.newPages)
        (setSideTree true g res.tree) = some g2 ∧
      GameInv nb g2 ∧ bothLive g2 ∧
      g2.endTree = g.endTree ∧ g2.startTree = res.tree ∧
      g2.startTree.root = g.startTree.root ∧ g2.endTree.root = g.endTree.root ∧
      (∃ extra, g2.paths = g.paths ++ extra) ∧
      g.searchIndex ≤ g2.searchIndex ∧
      g2.searchIndex = min target g2.paths.length := by
  have post := explore_spec hinv.sInv hex
  have hg1 : setSideTree true g res.tree = { g with startTree := res.tree } := rfl
  have hpath : ∀ m ∈ meet g.endTree.endpoints res.newPages,
      ∃ path, Game.getPath { g with startTree := res.tree } m = some path ∧
        path.length = curLen g ∧
        GoodPath nb g.startTree.root g.endTree.root path := by
    intro m hm
    obtain ⟨hmNew, hmOther⟩ := mem_meet.mp hm
    have hS : lookupSpec nb res.tree m res.tree.levels.length := lookup_active post hmNew
    have hE : lookupSpec nb g.endTree m (g.endTree.queueLevel + 1) :=
      lookup_fresh hinv.eInv hfresh hmOther
    obtain ⟨path, hget, hlen, hgood⟩ := getPath_spec (G := { g with startTree := res.tree })
      hS hE (post.dir_eq.trans hinv.sDir) hinv.eDir
    refine ⟨path, hget, ?_, ?_⟩
    · have := post.len_after
      unfold curLen
      omega
    · rw [show ({ g with startTree := res.tree } : Game).startTree.root = g.startTree.root
          from post.root_eq] at hgood
      exact hgood
  obtain ⟨g2, hproc, hst, het, ⟨extra, hpaths, hextra⟩, hsile, hsim⟩ :=
    procMids_spec target (meet g.endTree.endpoints res.newPages)
      { g with startTree := res.tree } hpath
  have hstR : g2.startTree = res.tree := hst
  have hetR : g2.endTree = g.endTree := het
  have hql : curLen g ≤ curLen g2 := by
    refine curLen_le_of_ql ?_ ?_
    · rw [hstR]
      exact post.ql_after
    · rw [hetR]
      left
      rfl
  have hsok : res.tree.endpoints ≠ [] :=
    post.inv.ep_ne_of_queue_ne (post.ok_queue hok)
  refine ⟨g2, by rw [hg1]; exact hproc, ?_, ?_, hetR, hstR, hstR ▸ post.root_eq,
    by rw [hetR], ⟨extra, hpaths⟩, hsile, hsim hsi⟩
  · constructor
    case sInv => rw [hstR]; exact post.inv
    case eInv => rw [hetR]; exact hinv.eInv
    case sDir => rw [hstR]; exact post.dir_eq.trans hinv.sDir
    case eDir => rw [hetR]; exact hinv.eDir
    case freshOr => right; rw [hetR]; exact hfresh
    case siLen =>
      rw [hsim hsi]
      exact Nat.min_le_right _ _
    case emptyEpSi =>
      intro hcase
      exfalso
      rcases hcase with hcase | hcase
      · rw [hstR] at hcase
        exact hsok hcase
      · rw [hetR] at hcase
        exact hlive.2 hcase
    case sorted =>
      rw [hpaths]
      exact sorted_append_const hinv.sorted hinv.bound (fun q hq => (hextra q hq).1)
    case bound =>
      intro p hp
      rw [hpaths] at hp
      rcases List.mem_append.mp hp with hp | hp
      · exact le_trans (hinv.bound p hp) hql
      · rw [(hextra p hp).1]
        exact hql
    case good =>
      intro p hp
      rw [hpaths] at hp
      rw [hstR, hetR, post.root_eq]
      rcases List.mem_append.mp hp with hp | hp
      · exact hinv.good p hp
      · exact (hextra p hp).2
  · constructor
    · rw [hstR]
      exact hsok
    · rw [hetR]
      exact hlive.2

/-- The mirror of `step_true_spec` for an expansion of the ending tree. -/
theorem step_false_spec {nb : Nb} {g : Game} {res : ExpRes} (target : Nat)
    (hinv : GameInv nb g) (hlive : bothLive g) (hfresh : freshT g.startTree)
    (hex : g.endTree.explore nb = some res) (hok : res.ok = true)
    (hsi : g.searchIndex = min target g.paths.length) :
    ∃ g2, procMids target (meet g.startTree.endpoints res.newPages)
        (setSideTree false g res.tree) = some g2 ∧
      GameInv nb g2 ∧ bothLive g2 ∧
      g2.startTree = g.startTree ∧ g2.endTree = res.tree ∧
      g2.startTree.root = g.startTree.root ∧ g2.endTree.root = g.endTree.root ∧
      (∃ extra, g2.paths = g.paths ++ extra) ∧
      g.searchIndex ≤ g2.searchIndex ∧
      g2.searchIndex = min target g2.paths.length := by
  have post := explore_spec hinv.eInv hex
  have hg1 : setSideTree false g res.tree = { g with endTree := res.tree } := rfl
  have hpath : ∀ m ∈ meet g.startTree.endpoints res.newPages,
      ∃ path, Game.getPath { g with endTree := res.tree } m = some path ∧
        path.length = curLen g ∧
        GoodPath nb g.startTree.root g.endTree.root path := by
    intro m hm
    obtain ⟨hmNew, hmOther⟩ := mem_meet.mp hm
    have hE : lookupSpec nb res.tree m res.tree.levels.length := lookup_active post hmNew
    have hS : lookupSpec nb g.startTree m (g.startTree.queueLevel + 1) :=
      lookup_fresh hinv.sInv hfresh hmOther
    obtain ⟨path, hget, hlen, hgood⟩ := getPath_spec (G := { g with endTree := res.tree })
      hS hE hinv.sDir (post.dir_eq.trans hinv.eDir)
    refine ⟨path, hget, ?_, ?_⟩
    · have := post.len_after
      unfold curLen
      omega
    · rw [show ({ g with endTree := res.tree } : Game).endTree.root = g.endTree.root
          from post.root_eq] at hgood
      exact hgood
  obtain ⟨g2, hproc, hst, het, ⟨extra, hpaths, hextra⟩, hsile, hsim⟩ :=
    procMids_spec target (meet g.startTree.endpoints res.newPages)
      { g with endTree := res.tree } hpath
  have hstR : g2.startTree = g.startTree := hst
  have hetR : g2.endTree = res.tree := het
  have hql : curLen g ≤ curLen g2 := by
    refine curLen_le_of_ql ?_ ?_
    · rw [hstR]
      left
      rfl
    · rw [hetR]
      exact post.ql_after
  have heok : res.tree.endpoints ≠ [] :=
    post.inv.ep_ne_of_queue_ne (post.ok_queue hok)
  refine ⟨g2, by rw [hg1]; exact hproc, ?_, ?_, hstR, hetR, by rw [hstR],
    hetR ▸ post.root_eq, ⟨extra, hpaths⟩, hsile, hsim hsi⟩
  · constructor
    case sInv => rw [hstR]; exact hinv.sInv
    case eInv => rw [hetR]; exact post.inv
    case sDir => rw [hstR]; exact hinv.sDir
    case eDir => rw [hetR]; exact post.dir_eq.trans hinv.eDir
    case freshOr => left; rw [hstR]; exact hfresh
    case siLen =>
      rw [hsim hsi]
      exact Nat.min_le_right _ _
    case emptyEpSi =>
      intro hcase
      exfalso
      rcases hcase with hcase | hcase
      · rw [hstR] at hcase
        exact hlive.1 hcase
      · rw [hetR] at hcase
        exact heok hcase
    case sorted =>
      rw [hpaths]
      exact sorted_append_const hinv.sorted hinv.bound (fun q hq => (hextra q hq).1)
    case bound =>
      intro p hp
      rw [hpaths] at hp
      rcases List.mem_append.mp hp with hp | hp
      · exact le_trans (hinv.bound p hp) hql
      · rw [(hextra p hp).1]
        exact hql
    case good =>
      intro p hp
      rw [hpaths] at hp
      rw [hstR, hetR, post.root_eq]
      rcases List.mem_append.mp hp with hp | hp
      · exact hinv.good p hp
      · exact (hextra p hp).2
  · constructor
    · rw [hstR]
      exact hlive.1
    · rw [hetR]
      exact heok

/-- What one run of the inner (single-side) loop of `Game.search`
guarantees. -/
theorem inner_spec {nb : Nb} (s : Bool) (target : Nat) (other : List Page) :
    ∀ (fuel : Nat) (g : Game) (ex : Nat) (g' : Game) (ex' : Nat) (exh : Bool),
    GameInv nb g → bothLive g → freshT (sideTree (!s) g) →
    other = otherEndpoints s g →
    g.searchIndex = min target g.paths.length →
    innerLoop nb s other target fuel g ex = some (g', ex', exh) →
    GameInv nb g' ∧
    sideTree (!s) g' = sideTree (!s) g ∧
    g'.startTree.root = g.startTree.root ∧ g'.endTree.root = g.endTree.root ∧
    (∃ extra, g'.paths = g.paths ++ extra) ∧
    g.searchIndex ≤ g'.searchIndex ∧
    g'.searchIndex = min target g'.paths.length ∧
    (exh = false → bothLive g') ∧
    (exh = true → g'.searchIndex = g'.paths.length ∧
      (s = true → g'.startTree.endpoints = [] ∧ g'.endTree.endpoints ≠ []) ∧
      (s = false → g'.endTree.endpoints = [] ∧ g'.startTree.endpoints ≠ [])) := by
  intro fuel
  induction fuel with
  | zero =>
    intro g ex g' ex' exh _ _ _ _ _ h
    cases h
  | succ fuel ih =>
    intro g ex g' ex' exh hinv hlive hfresh hother hsi h
    rw [innerLoop_succ] at h
    by_cases hlt : g.searchIndex < target
    case neg =>
      rw [if_neg hlt] at h
      simp only [Option.some.injEq, Prod.mk.injEq] at h
      obtain ⟨rfl, rfl, rfl⟩ := h
      refine ⟨hinv, rfl, rfl, rfl, ⟨[], by simp⟩, Nat.le_refl _, hsi, fun _ => hlive, ?_⟩
      intro hx
      cases hx
    case pos =>
      rw [if_pos hlt] at h
      cases s
      case true =>
        cases hex : g.startTree.explore nb with
        | none =>
          have hex' : (sideTree true g).explore nb = none := hex
          rw [hex'] at h
          cases h
        | some res =>
          have hex' : (sideTree true g).explore nb = some res := hex
          rw [hex'] at h
          dsimp only at h
          by_cases hok : res.ok = true
          case pos =>
            rw [if_pos hok] at h
            have hfreshE : freshT g.endTree := hfresh
            have hsiE : g.searchIndex = min target g.paths.length := hsi
            obtain ⟨g2, hproc, hinv2, hlive2, het, hst, hrootS, hrootE, ⟨e1, hpaths1⟩,
              hsile1, hsim1⟩ := step_true_spec target hinv hlive hfreshE hex hok hsiE
            have hproc' : procMids target (meet other res.newPages)
                (setSideTree true g res.tree) = some g2 := by
              rw [hother]
              exact hproc
            rw [hproc'] at h
            dsimp only at h
            by_cases hdone : res.levelDone = true
            case pos =>
              rw [if_pos hdone] at h
              simp only [Option.some.injEq, Prod.mk.injEq] at h
              obtain ⟨rfl, rfl, rfl⟩ := h
              refine ⟨hinv2, ?_, hrootS, hrootE, ⟨e1, hpaths1⟩, hsile1, hsim1,
                fun _ => hlive2, ?_⟩
              · exact het
              · intro hx
                cases hx
            case neg =>
              rw [if_neg hdone] at h
              have hfresh2 : freshT (sideTree (!true) g2) := by
                have : sideTree (!true) g2 = g.endTree := het
                rw [this]
                exact hfreshE
              have hother2 : other = otherEndpoints true g2 := by
                rw [hother]
                show g.endTree.endpoints = g2.endTree.endpoints
                rw [het]
              obtain ⟨hinvF, hotherF, hrootSF, hrootEF, ⟨e2, hpaths2⟩, hsileF, hsimF,
                hexhF, hexhT⟩ := ih g2 (ex + 1) g' ex' exh hinv2 hlive2 hfresh2 hother2 hsim1 h
              refine ⟨hinvF, ?_, hrootSF.trans hrootS, hrootEF.trans hrootE,
                ⟨e1 ++ e2, by rw [hpaths2, hpaths1, List.append_assoc]⟩,
                le_trans hsile1 hsileF, hsimF, hexhF, hexhT⟩
              rw [hotherF]
              exact het
          case neg =>
            rw [if_neg hok] at h
            simp only [Option.some.injEq, Prod.mk.injEq] at h
            obtain ⟨rfl, rfl, rfl⟩ := h
            have hokF : res.ok = false := by
              cases hres : res.ok
              · rfl
              · exact absurd hres hok
            have post := explore_spec hinv.sInv hex
            have hep : res.tree.endpoints = [] := post.fail_ep hokF
            have hg1 : setSideTree true g res.tree = { g with startTree := res.tree } := rfl
            have hsiLen : g.searchIndex = g.paths.length := by omega
            refine ⟨?_, rfl, post.root_eq, rfl, ⟨[], by simp [setSideTree]⟩, Nat.le_refl _, hsi, ?_, ?_⟩
            · rw [hg1]
              constructor
              case sInv => exact post.inv
              case eInv => exact hinv.eInv
              case sDir => exact post.dir_eq.trans hinv.sDir
              case eDir => exact hinv.eDir
              case freshOr => right; exact hfresh
              case siLen => exact hinv.siLen
              case emptyEpSi => intro _; exact hsiLen
              case sorted => exact hinv.sorted
              case bound =>
                intro p hp
                refine le_trans (hinv.bound p hp) (curLen_le_of_ql ?_ ?_)
                · exact post.ql_after
                · left; rfl
              case good =>
                intro p hp
                rw [show ({ g with startTree := res.tree } : Game).startTree.root =
                  g.startTree.root from post.root_eq]
                exact hinv.good p hp
            · intro hx
              cases hx
            · intro _
              exact ⟨hsiLen, fun _ => ⟨hep, hlive.2⟩, fun hx => by cases hx⟩
      case false =>
        cases hex : g.endTree.explore nb with
        | none =>
          have hex' : (sideTree false g).explore nb = none := hex
          rw [hex'] at h
          cases h
        | some res =>
          have hex' : (sideTree false g).explore nb = some res := hex
          rw [hex'] at h
          dsimp only at h
          by_cases hok : res.ok = true
          case pos =>
            rw [if_pos hok] at h
            have hfreshS : freshT g.startTree := hfresh
            obtain ⟨g2, hproc, hinv2, hlive2, hst, het, hrootS, hrootE, ⟨e1, hpaths1⟩,
              hsile1, hsim1⟩ := step_false_spec target hinv hlive hfreshS hex hok hsi
            have hproc' : procMids target (meet other res.newPages)
                (setSideTree false g res.tree) = some g2 := by
              rw [hother]
              exact hproc
            rw [hproc'] at h
            dsimp only at h
            by_cases hdone : res.levelDone = true
            case pos =>
              rw [if_pos hdone] at h
              simp only [Option.some.injEq, Prod.mk.injEq] at h
              obtain ⟨rfl, rfl, rfl⟩ := h
              refine ⟨hinv2, ?_, hrootS, hrootE, ⟨e1, hpaths1⟩, hsile1, hsim1,
                fun _ => hlive2, ?_⟩
              · exact hst
              · intro hx
                cases hx
            case neg =>
              rw [if_neg hdone] at h
              have hfresh2 : freshT (sideTree (!false) g2) := by
                have : sideTree (!false) g2 = g.startTree := hst
                rw [this]
                exact hfreshS
              have hother2 : other = otherEndpoints false g2 := by
                rw [hother]
                show g.startTree.endpoints = g2.startTree.endpoints
                rw [hst]
              obtain ⟨hinvF, hotherF, hrootSF, hrootEF, ⟨e2, hpaths2⟩, hsileF, hsimF,
                hexhF, hexhT⟩ := ih g2 (ex + 1) g' ex' exh hinv2 hlive2 hfresh2 hother2 hsim1 h
              refine ⟨hinvF, ?_, hrootSF.trans hrootS, hrootEF.trans hrootE,
                ⟨e1 ++ e2, by rw [hpaths2, hpaths1, List.append_assoc]⟩,
                le_trans hsile1 hsileF, hsimF, hexhF, hexhT⟩
              rw [hotherF]
              exact hst
          case neg =>
            rw [if_neg hok] at h
            simp only [Option.some.injEq, Prod.mk.injEq] at h
            obtain ⟨rfl, rfl, rfl⟩ := h
            have hokF : res.ok = false := by
              cases hres : res.ok
              · rfl
              · exact absurd hres hok
            have post := explore_spec hinv.eInv hex
            have hep : res.tree.endpoints = [] := post.fail_ep hokF
            have hg1 : setSideTree false g res.tree = { g with endTree := res.tree } := rfl
            have hsiLen : g.searchIndex = g.paths.length := by omega
            refine ⟨?_, rfl, rfl, post.root_eq, ⟨[], by simp [setSideTree]⟩, Nat.le_refl _, hsi, ?_, ?_⟩
            · rw [hg1]
              constructor
              case sInv => exact hinv.sInv
              case eInv => exact post.inv
              case sDir => exact hinv.sDir
              case eDir => exact post.dir_eq.trans hinv.eDir
              case freshOr => left; exact hfresh
              case siLen => exact hinv.siLen
              case emptyEpSi => intro _; exact hsiLen
              case sorted => exact hinv.sorted
              case bound =>
                intro p hp
                refine le_trans (hinv.bound p hp) (curLen_le_of_ql ?_ ?_)
                · left; rfl
                · exact post.ql_after
              case good =>
                intro p hp
                rw [show ({ g with endTree := res.tree } : Game).endTree.root =
                  g.endTree.root from post.root_eq]
                exact hinv.good p hp
            · intro hx
              cases hx
            · intro _
              refine ⟨hsiLen, ?_, ?_⟩
              · intro hx
                cases hx
              · intro _
                exact ⟨hep, hlive.1⟩

/-- The side condition of line 283 always picks a side whose opposite tree is
fully queued. -/
theorem condStart_fresh {nb : Nb} {g : Game} (hinv : GameInv nb g) :
    (condStart g → freshT g.endTree) ∧ (¬ condStart g → freshT g.startTree) := by
  have hsShape := hinv.sInv.shape
  have heShape := hinv.eInv.shape
  constructor
  · intro hc
    rcases hc with hmid | ⟨hfe, _⟩
    · have hlen : 0 < g.startTree.levels.length :=
        List.length_pos.mpr hinv.sInv.levels_ne_nil
      have hmidN : g.startTree.queueLevel + 2 = g.startTree.levels.length := by omega
      rcases hinv.freshOr with hf | hf
      · exfalso
        unfold freshT at hf
        omega
      · exact hf
    · have hlen : 0 < g.endTree.levels.length :=
        List.length_pos.mpr hinv.eInv.levels_ne_nil
      unfold freshT
      omega
  · intro hc
    have hA : ¬ ((g.startTree.queueLevel : Int) = (g.startTree.levels.length : Int) - 2) :=
      fun h => hc (Or.inl h)
    rcases hsShape with hf | hf
    · exact hf
    · exfalso
      apply hA
      omega

/-- What one run of the outer loop of `Game.search` guarantees. -/
theorem outer_spec {nb : Nb} (target : Nat) :
    ∀ (fuel : Nat) (g : Game) (ex : Nat) (g' : Game) (ex' : Nat) (st : SearchStatus),
    GameInv nb g →
    g.searchIndex = min target g.paths.length →
    (g.searchIndex < target → bothLive g) →
    outerLoop nb target fuel g ex = some (g', ex', st) →
    GameInv nb g' ∧
    g'.startTree.root = g.startTree.root ∧ g'.endTree.root = g.endTree.root ∧
    (∃ extra, g'.paths = g.paths ++ extra) ∧
    g.searchIndex ≤ g'.searchIndex ∧
    g'.searchIndex = min target g'.paths.length ∧
    (st = .completed → ¬ g'.searchIndex < target) ∧
    (st = .startExhausted → g'.startTree.endpoints = [] ∧ g'.searchIndex = g'.paths.length) ∧
    (st = .endExhausted → g'.endTree.endpoints = [] ∧ g'.searchIndex = g'.paths.length) := by
  intro fuel
  induction fuel with
  | zero =>
    intro g ex g' ex' st _ _ _ h
    cases h
  | succ fuel ih =>
    intro g ex g' ex' st hinv hsi hlivec h
    rw [outerLoop_succ] at h
    by_cases hlt : g.searchIndex < target
    case neg =>
      rw [if_neg hlt] at h
      simp only [Option.some.injEq, Prod.mk.injEq] at h
      obtain ⟨rfl, rfl, rfl⟩ := h
      refine ⟨hinv, rfl, rfl, ⟨[], by simp⟩, Nat.le_refl _, hsi, fun _ => hlt, ?_, ?_⟩
      · intro hx
        cases hx
      · intro hx
        cases hx
    case pos =>
      rw [if_pos hlt] at h
      have hlive := hlivec hlt
      by_cases hcond : condStart g
      case pos =>
        rw [decide_eq_true hcond] at h
        have hfresh : freshT (sideTree (!true) g) := (condStart_fresh hinv).1 hcond
        cases hin : innerLoop nb true (otherEndpoints true g) target (fuel + 1) g ex with
        | none =>
          rw [hin] at h
          cases h
        | some trip =>
          obtain ⟨g1, ex1, exh⟩ := trip
          rw [hin] at h
          obtain ⟨hinv1, hoth1, hrootS1, hrootE1, ⟨e1, hpaths1⟩, hsile1, hsim1, hexhF, hexhT⟩ :=
            inner_spec true target (otherEndpoints true g) (fuel + 1) g ex g1 ex1 exh
              hinv hlive hfresh rfl hsi hin
          cases exh
          case true =>
            simp only [Option.some.injEq, Prod.mk.injEq] at h
            obtain ⟨rfl, rfl, rfl⟩ := h
            obtain ⟨hlen1, hsep, _⟩ := hexhT rfl
            refine ⟨hinv1, hrootS1, hrootE1, ⟨e1, hpaths1⟩, hsile1, hsim1, ?_, ?_, ?_⟩
            · intro hx
              cases hx
            · intro _
              exact ⟨(hsep rfl).1, hlen1⟩
            · intro hx
              cases hx
          case false =>
            obtain ⟨hinvF, hrootSF, hrootEF, ⟨e2, hpaths2⟩, hsileF, hsimF, hcF, hsF, heF⟩ :=
              ih g1 ex1 g' ex' st hinv1 hsim1 (fun _ => hexhF rfl) h
            exact ⟨hinvF, hrootSF.trans hrootS1, hrootEF.trans hrootE1,
              ⟨e1 ++ e2, by rw [hpaths2, hpaths1, List.append_assoc]⟩,
              le_trans hsile1 hsileF, hsimF, hcF, hsF, heF⟩
      case neg =>
        rw [decide_eq_false hcond] at h
        have hfresh : freshT (sideTree (!false) g) := (condStart_fresh hinv).2 hcond
        cases hin : innerLoop nb false (otherEndpoints false g) target (fuel + 1) g ex with
        | none =>
          rw [hin] at h
          cases h
        | some trip =>
          obtain ⟨g1, ex1, exh⟩ := trip
          rw [hin] at h
          obtain ⟨hinv1, hoth1, hrootS1, hrootE1, ⟨e1, hpaths1⟩, hsile1, hsim1, hexhF, hexhT⟩ :=
            inner_spec false target (otherEndpoints false g) (fuel + 1) g ex g1 ex1 exh
              hinv hlive hfresh rfl hsi hin
          cases exh
          case true =>
            simp only [Option.some.injEq, Prod.mk.injEq] at h
            obtain ⟨rfl, rfl, rfl⟩ := h
            obtain ⟨hlen1, _, hsep⟩ := hexhT rfl
            refine ⟨hinv1, hrootS1, hrootE1, ⟨e1, hpaths1⟩, hsile1, hsim1, ?_, ?_, ?_⟩
            · intro hx
              cases hx
            · intro hx
              cases hx
            · intro _
              exact ⟨(hsep rfl).1, hlen1⟩
          case false =>
            obtain ⟨hinvF, hrootSF, hrootEF, ⟨e2, hpaths2⟩, hsileF, hsimF, hcF, hsF, heF⟩ :=
              ih g1 ex1 g' ex' st hinv1 hsim1 (fun _ => hexhF rfl) h
            exact ⟨hinvF, hrootSF.trans hrootS1, hrootEF.trans hrootE1,
              ⟨e1 ++ e2, by rw [hpaths2, hpaths1, List.append_assoc]⟩,
              le_trans hsile1 hsileF, hsimF, hcF, hsF, heF⟩

theorem slice_concat {α : Type} (l : List α) {a b c : Nat} (hab : a ≤ b) (hbc : b ≤ c) :
    (l.drop a).take (b - a) ++ (l.drop b).take (c - b) = (l.drop a).take (c - a) := by
  have hsplit : c - a = (b - a) + (c - b) := by omega
  have h1 : (l.drop a).drop (b - a) = l.drop b := by
    rw [List.drop_drop]
    congr 1
    omega
  rw [hsplit, List.take_add, h1]

theorem slice_prefix_stable {α : Type} (l e : List α) {a k : Nat} (h : a + k ≤ l.length) :
    ((l ++ e).drop a).take k = (l.drop a).take k := by
  rw [List.drop_append_of_le_length (by omega)]
  rw [List.take_append_of_le_length (by simp [List.length_drop]; omega)]

theorem take_min_eq {α : Type} (l : List α) {oi count si : Nat}
    (hsi : si = min (oi + count) l.length) (hoi : oi ≤ si) :
    (l.drop oi).take count = (l.drop oi).take (si - oi) := by
  rw [List.take_eq_take]
  simp only [List.length_drop]
  omega

/-- What one `Game.search` call guarantees: invariants are preserved, the
buffer only grows, the cursor lands on `min(target, len(paths))`, the
delivered slice is exactly `paths[old cursor : new cursor]`, and an
exhaustion status pins the drained side. -/
theorem search_spec {nb : Nb} {g : Game} {fuel count : Nat} {r : SearchResult}
    (hinv : GameInv nb g) (h : Game.search nb fuel count g = some r) :
    GameInv nb r.game ∧
    r.game.startTree.root = g.startTree.root ∧ r.game.endTree.root = g.endTree.root ∧
    (∃ extra, r.game.paths = g.paths ++ extra) ∧
    g.searchIndex ≤ r.game.searchIndex ∧
    r.game.searchIndex = min (g.searchIndex + count) r.game.paths.length ∧
    r.delivered = (r.game.paths.drop g.searchIndex).take
      (r.game.searchIndex - g.searchIndex) ∧
    (r.status = .startExhausted → r.game.startTree.endpoints = [] ∧
      r.game.searchIndex = r.game.paths.length) ∧
    (r.status = .endExhausted → r.game.endTree.endpoints = [] ∧
      r.game.searchIndex = r.game.paths.length) := by
  unfold Game.search at h
  by_cases h1 : g.startTree.endpoints.isEmpty
  · rw [if_pos h1] at h
    simp only [Option.some.injEq] at h
    subst h
    have hep : g.startTree.endpoints = [] := List.isEmpty_iff.mp h1
    have hlen : g.searchIndex = g.paths.length := hinv.emptyEpSi (Or.inl hep)
    refine ⟨hinv, rfl, rfl, ⟨[], by simp⟩, Nat.le_refl _, by simp; omega, by simp, ?_, ?_⟩
    · intro _
      exact ⟨hep, hlen⟩
    · intro hx
      cases hx
  · rw [if_neg h1] at h
    by_cases h2 : g.endTree.endpoints.isEmpty
    · rw [if_pos h2] at h
      simp only [Option.some.injEq] at h
      subst h
      have hep : g.endTree.endpoints = [] := List.isEmpty_iff.mp h2
      have hlen : g.searchIndex = g.paths.length := hinv.emptyEpSi (Or.inr hep)
      refine ⟨hinv, rfl, rfl, ⟨[], by simp⟩, Nat.le_refl _, by simp; omega, by simp, ?_, ?_⟩
      · intro hx
        cases hx
      · intro _
        exact ⟨hep, hlen⟩
    · rw [if_neg h2] at h
      simp only at h
      have hliveg : bothLive g := by
        constructor
        · intro hx
          exact h1 (by simp [hx])
        · intro hx
          exact h2 (by simp [hx])
      set g1 : Game :=
        { g with searchIndex := max g.searchIndex (min (g.searchIndex + count) g.paths.length) }
        with hg1
      have hinv1 : GameInv nb g1 := by
        constructor
        case sInv => exact hinv.sInv
        case eInv => exact hinv.eInv
        case sDir => exact hinv.sDir
        case eDir => exact hinv.eDir
        case freshOr => exact hinv.freshOr
        case siLen =>
          show max g.searchIndex (min (g.searchIndex + count) g.paths.length) ≤ g.paths.length
          have := hinv.siLen
          omega
        case emptyEpSi =>
          intro hcase
          exfalso
          rcases hcase with hcase | hcase
          · exact hliveg.1 hcase
          · exact hliveg.2 hcase
        case sorted => exact hinv.sorted
        case bound => exact hinv.bound
        case good => exact hinv.good
      have hsi1 : g1.searchIndex = min (g.searchIndex + count) g1.paths.length := by
        show max g.searchIndex (min (g.searchIndex + count) g.paths.length) =
          min (g.searchIndex + count) g.paths.length
        have := hinv.siLen
        omega
      cases hout : outerLoop nb (g.searchIndex + count) fuel g1 0 with
      | none =>
        rw [hout] at h
        cases h
      | some trip =>
        obtain ⟨g2, ex, st⟩ := trip
        rw [hout] at h
        simp only [Option.some.injEq] at h
        subst h
        obtain ⟨hinv2, hrootS, hrootE, ⟨extra, hpaths⟩, hsile, hsim, hcomp, hsEx, heEx⟩ :=
          outer_spec (g.searchIndex + count) fuel g1 0 g2 ex st hinv1 hsi1
            (fun _ => hliveg) hout
        refine ⟨hinv2, hrootS, hrootE, ⟨extra, by rw [hpaths]⟩, ?_, hsim, ?_, hsEx, heEx⟩
        · refine le_trans ?_ hsile
          show g.searchIndex ≤ max g.searchIndex (min (g.searchIndex + count) g.paths.length)
          omega
        · show (g2.paths.drop g.searchIndex).take count = _
          refine take_min_eq g2.paths hsim ?_
          refine le_trans ?_ hsile
          show g.searchIndex ≤ max g.searchIndex (min (g.searchIndex + count) g.paths.length)
          omega

/-- Game states reachable from `Game.__init__` by `search` calls. -/
inductive GameReach (nb : Nb) : Game → Prop where
  | init (a b : Name) : GameReach nb (Game.init a b)
  | step {g : Game} {fuel count : Nat} {r : SearchResult} :
      GameReach nb g → Game.search nb fuel count g = some r → GameReach nb r.game

theorem gameReach_inv {nb : Nb} {g : Game} (h : GameReach nb g) : GameInv nb g := by
  induction h with
  | init a b => exact gameInv_init nb a b
  | step _ hs ih => exact (search_spec ih hs).1

/-- C2: shortest-first delivery. Across two consecutive `search` calls on one
reachable game, the delivered paths taken in order are non-decreasing in
length; in particular every length-k path is delivered before any longer one. -/
theorem C2_shortest_first {nb : Nb} {g : Game} {f1 c1 f2 c2 : Nat}
    {r1 r2 : SearchResult}
    (hg : GameReach nb g)
    (h1 : Game.search nb f1 c1 g = some r1)
    (h2 : Game.search nb f2 c2 r1.game = some r2) :
    List.Pairwise (· ≤ ·) ((r1.delivered ++ r2.delivered).map List.length) := by
  have inv := gameReach_inv hg
  obtain ⟨inv1, -, -, -, hle1, -, hd1, -, -⟩ := search_spec inv h1
  obtain ⟨inv2, -, -, ⟨e2, hp2⟩, hle2, -, hd2, -, -⟩ := search_spec inv1 h2
  have hsl1 : r1.game.searchIndex ≤ r1.game.paths.length := inv1.siLen
  have hd1' : r1.delivered = (r2.game.paths.drop g.searchIndex).take
      (r1.game.searchIndex - g.searchIndex) := by
    rw [hd1, hp2, slice_prefix_stable _ _ (by omega)]
  have hcat : r1.delivered ++ r2.delivered =
      (r2.game.paths.drop g.searchIndex).take
        (r2.game.searchIndex - g.searchIndex) := by
    rw [hd1', hd2]
    exact slice_concat r2.game.paths hle1 hle2
  rw [hcat]
  have hsub : List.Sublist ((r2.game.paths.drop g.searchIndex).take
      (r2.game.searchIndex - g.searchIndex)) r2.game.paths :=
    (List.take_sublist _ _).trans (List.drop_sublist _ _)
  exact List.Pairwise.sublist (hsub.map List.length) inv2.sorted

/-! ### Concrete two-call run against the demo collaborator -/

def demoG0 : Game := Game.init "A" "D"

def dfltR : SearchResult :=
  { delivered := [], game := demoG0, explores := 0, status := .completed }

def demoR1 : SearchResult := (Game.search nbDemo 20 1 demoG0).getD dfltR

def demoR2 : SearchResult := (Game.search nbDemo 20 1 demoR1.game).getD dfltR

theorem demoR1_eq : Game.search nbDemo 20 1 demoG0 = some demoR1 := by rfl

theorem demoR2_eq : Game.search nbDemo 20 1 demoR1.game = some demoR2 := by rfl

/-- C2 witness run: the two deliveries are `[[A,X,D]]` then `[[A,X,M,X,D]]`,
whose lengths 3 and 5 arrive in non-decreasing order. -/
theorem C2_shortest_first_witness :
    List.Pairwise (· ≤ ·) ((demoR1.delivered ++ demoR2.delivered).map List.length) :=
  C2_shortest_first (GameReach.init "A" "D") demoR1_eq demoR2_eq

/-! ### Parent chains are forward-traversable paths -/

theorem chain_head (q : Page) : q.chain.head? = some q := by
  cases q <;> rfl

theorem chain_chain' {nb : Nb} {dir : Bool} {q : Page} (h : chainOk nb dir q) :
    List.Chain' (fun a b => a.name ∈ nb b.name dir) q.chain := by
  induction q with
  | root n => exact List.chain'_singleton _
  | child n p ih =>
    obtain ⟨h1, h2⟩ := h
    have ihp := ih h2
    show List.Chain' _ (Page.child n p :: p.chain)
    cases p with
    | root m =>
      refine List.chain'_cons.mpr ⟨?_, ihp⟩
      exact h1
    | child m p2 =>
      refine List.chain'_cons.mpr ⟨?_, ihp⟩
      exact h1

/-- Every buffered path is a forward-edge walk, assuming the reverse lookup
returns exactly the forward-edge predecessors. -/
theorem goodPath_chain' {nb : Nb} (H : ∀ u w, w ∈ nb u false ↔ u ∈ nb w true)
    {rootS rootE : Page} {p : List Page} (hp : GoodPath nb rootS rootE p) :
    List.Chain' (fun a b => b.name ∈ nb a.name true) p := by
  obtain ⟨sm, em, hcat, hname, hoks, hoke, -, -, -, -⟩ := hp
  subst hcat
  have hs : List.Chain' (fun a b => b.name ∈ nb a.name true) sm.chain.reverse := by
    rw [List.chain'_reverse]
    exact List.Chain'.imp (fun a b hx => hx) (chain_chain' hoks)
  have he : List.Chain' (fun a b => b.name ∈ nb a.name true) em.chain :=
    List.Chain'.imp (fun a b hx => (H b.name a.name).mp hx) (chain_chain' hoke)
  refine List.chain'_append.mpr ⟨hs, ?_, ?_⟩
  · rw [List.drop_one]
    exact he.tail
  · intro x hx y hy
    cases em with
    | root m =>
      simp [Page.chain] at hy
    | child m q =>
      have hx' : x = sm := by
        rw [List.getLast?_reverse, chain_head] at hx
        exact (Option.mem_some_iff.mp hx).symm
      have hy' : y = q := by
        have hy2 : y ∈ q.chain.head? := hy
        rw [chain_head] at hy2
        exact (Option.mem_some_iff.mp hy2).symm
      rw [hx', hy']
      have h1 : m ∈ nb q.name false := hoke.1
      have hq : q.name ∈ nb m true := (H q.name m).mp h1
      have hsm : sm.name = m := hname
      rw [hsm]
      exact hq

theorem chain'_zip_all {α : Type} (f : α → α → Bool) :
    ∀ l : List α, List.Chain' (fun a b => f a b = true) l →
      (l.zip (l.drop 1)).all (fun pq => f pq.1 pq.2) = true
  | [], _ => rfl
  | [_], _ => rfl
  | a :: b :: t, h => by
    obtain ⟨h1, h2⟩ := List.chain'_cons.mp h
    have ih := chain'_zip_all f (b :: t) h2
    show (f a b && ((b :: t).zip t).all fun pq => f pq.1 pq.2) = true
    rw [h1]
    simpa using ih

/-- C4: assuming the reverse-direction lookup returns exactly the
forward-edge predecessors, every delivered path is traversable forward:
each consecutive pair is a forward edge of the collaborator, and the
`validatePath` replay from `testing.py` accepts it. -/
theorem C4_validity {nb : Nb} (H : ∀ u w, w ∈ nb u false ↔ u ∈ nb w true)
    {g : Game} {fuel count : Nat} {r : SearchResult} {p : List Page}
    (hg : GameReach nb g) (h : Game.search nb fuel count g = some r)
    (hp : p ∈ r.delivered) :
    List.Chain' (fun a b => b.name ∈ nb a.name true) p ∧
    (2 ≤ p.length → validatePath nb p = true) := by
  obtain ⟨inv2, -, -, -, -, -, hd, -, -⟩ := search_spec (gameReach_inv hg) h
  rw [hd] at hp
  have hgood := inv2.good p (List.mem_of_mem_drop (List.mem_of_mem_take hp))
  have hch := goodPath_chain' H hgood
  refine ⟨hch, ?_⟩
  intro hlen
  unfold validatePath
  rw [Bool.and_eq_true]
  constructor
  · exact decide_eq_true hlen
  · exact chain'_zip_all _ p
      (hch.imp fun a b hx => decide_eq_true (List.mem_dedup.mpr hx))

theorem nbSym_symmetric : ∀ u w, w ∈ nbSym u false ↔ u ∈ nbSym w true := by
  intro u w
  have hL : nbSym u false = (if u = "D" then ["B"] else if u = "B" then ["A"] else []) := rfl
  have hR : nbSym w true = (if w = "A" then ["B"] else if w = "B" then ["D"] else []) := rfl
  rw [hL, hR]
  by_cases h1 : u = "D"
  · rw [if_pos h1]
    by_cases h3 : w = "A"
    · rw [if_pos h3]
      subst h1
      subst h3
      simp
    · rw [if_neg h3]
      by_cases h4 : w = "B"
      · rw [if_pos h4]
        subst h1
        subst h4
        simp
      · rw [if_neg h4]
        subst h1
        simp [h4]
  · rw [if_neg h1]
    by_cases h2 : u = "B"
    · rw [if_pos h2]
      by_cases h3 : w = "A"
      · rw [if_pos h3]
        subst h2
        subst h3
        simp
      · rw [if_neg h3]
        by_cases h4 : w = "B"
        · rw [if_pos h4]
          subst h2
          subst h4
          simp
        · rw [if_neg h4]
          subst h2
          simp [h3]
    · rw [if_neg h2]
      by_cases h3 : w = "A"
      · rw [if_pos h3]
        simp [h2]
      · rw [if_neg h3]
        by_cases h4 : w = "B"
        · rw [if_pos h4]
          simp [h1]
        · rw [if_neg h4]
          simp

def symR1 : SearchResult := (Game.search nbSym 20 1 demoG0).getD dfltR

theorem symR1_eq : Game.search nbSym 20 1 demoG0 = some symR1 := by rfl

/-- C4 witness: on the symmetric chain `A → B → D` the single delivered path
`[A, B, D]` is forward-traversable and accepted by `validatePath`. -/
theorem C4_validity_witness :
    List.Chain' (fun a b => b.name ∈ nbSym a.name true)
      [Page.root "A", Page.child "B" (Page.root "A"),
       Page.child "D" (Page.child "B" (Page.root "A"))] ∧
    (2 ≤ ([Page.root "A", Page.child "B" (Page.root "A"),
       Page.child "D" (Page.child "B" (Page.root "A"))] : List Page).length →
      validatePath nbSym [Page.root "A", Page.child "B" (Page.root "A"),
       Page.child "D" (Page.child "B" (Page.root "A"))] = true) :=
  C4_validity nbSym_symmetric (GameReach.init "A" "D") symR1_eq (by decide)

/-- C9 (amended): every delivered path is the concatenation
`[startRoot, …, mid, …, endRoot]` of the reversed forward parent chain and the
tail of the reverse parent chain of two pages carrying the same identifier,
each half is collaborator-justified and internally duplicate-free, and the
path length is the two chain lengths minus one (forward depth + reverse depth
+ 1 pages); the two halves need not be disjoint away from `mid`. -/
theorem C9_amended {nb : Nb} {g : Game} {fuel count : Nat} {r : SearchResult}
    {p : List Page}
    (hg : GameReach nb g) (h : Game.search nb fuel count g = some r)
    (hp : p ∈ r.delivered) :
    ∃ sm em, p = sm.chain.reverse ++ em.chain.drop 1 ∧ sm.name = em.name ∧
      chainOk nb true sm ∧ chainOk nb false em ∧
      sm.chainRoot = g.startTree.root ∧ em.chainRoot = g.endTree.root ∧
      (pnames sm.chain).Nodup ∧ (pnames em.chain).Nodup ∧
      p.length + 1 = sm.chain.length + em.chain.length := by
  obtain ⟨inv2, hrs, hre, -, -, -, hd, -, -⟩ := search_spec (gameReach_inv hg) h
  rw [hd] at hp
  obtain ⟨sm, em, hcat, hname, hoks, hoke, hrs2, hre2, hnds, hnde⟩ :=
    inv2.good p (List.mem_of_mem_drop (List.mem_of_mem_take hp))
  refine ⟨sm, em, hcat, hname, hoks, hoke, hrs2.trans hrs, hre2.trans hre,
    hnds, hnde, ?_⟩
  have hpos := chain_length_pos em
  rw [hcat]
  simp only [List.length_append, List.length_reverse, List.length_drop]
  omega

/-- C9 witness: the second demo delivery `[A, X, M, X(D-side), D]` decomposes
into the half-chains `A → X → M` and `M → X → D` of lengths 3 and 3, glued on
`M`, total page count 5 = 3 + 3 - 1. -/
theorem C9_amended_witness :
    ∃ sm em,
      ([Page.root "A", Page.child "X" (Page.root "A"),
        Page.child "M" (Page.child "X" (Page.root "A")),
        Page.child "X" (Page.root "D"), Page.root "D"] : List Page) =
        sm.chain.reverse ++ em.chain.drop 1 ∧ sm.name = em.name ∧
      chainOk nbDemo true sm ∧ chainOk nbDemo false em ∧
      sm.chainRoot = Page.root "A" ∧ em.chainRoot = Page.root "D" ∧
      (pnames sm.chain).Nodup ∧ (pnames em.chain).Nodup ∧
      ([Page.root "A", Page.child "X" (Page.root "A"),
        Page.child "M" (Page.child "X" (Page.root "A")),
        Page.child "X" (Page.root "D"), Page.root "D"] : List Page).length + 1 =
        sm.chain.length + em.chain.length :=
  C9_amended (GameReach.step (GameReach.init "A" "D") demoR1_eq) demoR2_eq
    (by decide)

/-! ### Retargeting: the same state driven toward a larger target -/

/-- The state an ongoing search with target `t` would carry at this point:
same trees and buffer, cursor clamped to `min t len(paths)`. -/
def retgt (t : Nat) (g : Game) : Game :=
  { g with searchIndex := min t g.paths.length }

theorem retgt_self {t : Nat} {g : Game} (h : g.searchIndex = min t g.paths.length) :
    retgt t g = g := by
  unfold retgt
  rw [← h]

theorem sideTree_retgt (s : Bool) (t : Nat) (g : Game) :
    sideTree s (retgt t g) = sideTree s g := by
  cases s <;> rfl

theorem setSideTree_retgt (s : Bool) (t : Nat) (g : Game) (tr : Tree) :
    setSideTree s (retgt t g) tr = retgt t (setSideTree s g tr) := by
  cases s <;> rfl

theorem otherEndpoints_retgt (s : Bool) (t : Nat) (g : Game) :
    otherEndpoints s (retgt t g) = otherEndpoints s g := by
  cases s <;> rfl

theorem otherEndpoints_eq (s : Bool) (g : Game) :
    otherEndpoints s g = (sideTree (!s) g).endpoints := by
  cases s <;> rfl

theorem condStart_retgt (t : Nat) (g : Game) :
    decide (condStart (retgt t g)) = decide (condStart g) :=
  decide_eq_decide.mpr Iff.rfl

theorem getPath_retgt (t : Nat) (g : Game) (m : Name) :
    Game.getPath (retgt t g) m = Game.getPath g m := rfl

/-! ### Fuel and explore-counter bookkeeping for the two loops -/

theorem innerLoop_mono {nb : Nb} {s : Bool} {other : List Page} {t : Nat} :
    ∀ f : Nat, ∀ {F : Nat} {g : Game} {ex : Nat} {r : Game × Nat × Bool},
    f ≤ F → innerLoop nb s other t f g ex = some r →
    innerLoop nb s other t F g ex = some r := by
  intro f
  induction f with
  | zero =>
    intro F g ex r _ h
    cases h
  | succ f ih =>
    intro F g ex r hle h
    obtain ⟨F1, rfl⟩ : ∃ F1, F = F1 + 1 := ⟨F - 1, by omega⟩
    by_cases hlt : g.searchIndex < t
    case neg =>
      rw [innerLoop_stop _ _ _ _ _ _ _ hlt] at h
      rw [innerLoop_stop _ _ _ _ _ _ _ hlt]
      exact h
    case pos =>
      rw [innerLoop_succ, if_pos hlt] at h
      rw [innerLoop_succ, if_pos hlt]
      cases hex : (sideTree s g).explore nb with
      | none =>
        rw [hex] at h
        cases h
      | some res =>
        rw [hex] at h
        dsimp only at h ⊢
        by_cases hok : res.ok = true
        case pos =>
          rw [if_pos hok] at h
          rw [if_pos hok]
          cases hpm : procMids t (meet other res.newPages) (setSideTree s g res.tree) with
          | none =>
            rw [hpm] at h
            cases h
          | some g2 =>
            rw [hpm] at h
            dsimp only at h ⊢
            by_cases hld : res.levelDone = true
            case pos =>
              rw [if_pos hld] at h
              rw [if_pos hld]
              exact h
            case neg =>
              rw [if_neg hld] at h
              rw [if_neg hld]
              exact ih (by omega) h
        case neg =>
          rw [if_neg hok] at h
          rw [if_neg hok]
          exact h

theorem outerLoop_mono {nb : Nb} {t : Nat} :
    ∀ f : Nat, ∀ {F : Nat} {g : Game} {ex : Nat} {r : Game × Nat × SearchStatus},
    f ≤ F → outerLoop nb t f g ex = some r →
    outerLoop nb t F g ex = some r := by
  intro f
  induction f with
  | zero =>
    intro F g ex r _ h
    cases h
  | succ f ih =>
    intro F g ex r hle h
    obtain ⟨F1, rfl⟩ : ∃ F1, F = F1 + 1 := ⟨F - 1, by omega⟩
    by_cases hlt : g.searchIndex < t
    case neg =>
      rw [outerLoop_stop _ _ _ _ _ hlt] at h
      rw [outerLoop_stop _ _ _ _ _ hlt]
      exact h
    case pos =>
      rw [outerLoop_succ, if_pos hlt] at h
      rw [outerLoop_succ, if_pos hlt]
      cases hin : innerLoop nb (decide (condStart g)) (otherEndpoints (decide (condStart g)) g)
          t (f + 1) g ex with
      | none =>
        rw [hin] at h
        cases h
      | some trip =>
        obtain ⟨g1, ex1, exh⟩ := trip
        have hin2 := innerLoop_mono (f + 1) (by omega : f + 1 ≤ F1 + 1) hin
        rw [hin] at h
        rw [hin2]
        cases exh
        case false =>
          exact ih (by omega) h
        case true =>
          exact h

theorem outerLoop_irrel {nb : Nb} {t f F : Nat} {g : Game} {ex : Nat}
    {r r' : Game × Nat × SearchStatus}
    (h : outerLoop nb t f g ex = some r) (h' : outerLoop nb t F g ex = some r') :
    r = r' := by
  rcases Nat.le_total f F with hle | hle
  · have := outerLoop_mono f hle h
    rw [this] at h'
    exact (Option.some.injEq _ _).mp h'
  · have := outerLoop_mono F hle h'
    rw [this] at h
    exact ((Option.some.injEq _ _).mp h).symm

theorem innerLoop_exshift {nb : Nb} {s : Bool} {other : List Page} {t : Nat} :
    ∀ f : Nat, ∀ {g : Game} {ex : Nat} {g' : Game} {ex' : Nat} {b : Bool} (d : Nat),
    innerLoop nb s other t f g ex = some (g', ex', b) →
    innerLoop nb s other t f g (ex + d) = some (g', ex' + d, b) := by
  intro f
  induction f with
  | zero =>
    intro g ex g' ex' b d h
    cases h
  | succ f ih =>
    intro g ex g' ex' b d h
    by_cases hlt : g.searchIndex < t
    case neg =>
      rw [innerLoop_stop _ _ _ _ _ _ _ hlt] at h
      rw [innerLoop_stop _ _ _ _ _ _ _ hlt]
      simp only [Option.some.injEq, Prod.mk.injEq] at h ⊢
      exact ⟨h.1, by omega, h.2.2⟩
    case pos =>
      rw [innerLoop_succ, if_pos hlt] at h
      rw [innerLoop_succ, if_pos hlt]
      cases hex : (sideTree s g).explore nb with
      | none =>
        rw [hex] at h
        cases h
      | some res =>
        rw [hex] at h
        dsimp only at h ⊢
        by_cases hok : res.ok = true
        case pos =>
          rw [if_pos hok] at h
          rw [if_pos hok]
          cases hpm : procMids t (meet other res.newPages) (setSideTree s g res.tree) with
          | none =>
            rw [hpm] at h
            cases h
          | some g2 =>
            rw [hpm] at h
            dsimp only at h ⊢
            by_cases hld : res.levelDone = true
            case pos =>
              rw [if_pos hld] at h
              rw [if_pos hld]
              simp only [Option.some.injEq, Prod.mk.injEq] at h ⊢
              exact ⟨h.1, by omega, h.2.2⟩
            case neg =>
              rw [if_neg hld] at h
              rw [if_neg hld]
              have : ex + d + 1 = ex + 1 + d := by omega
              rw [this]
              exact ih d h
        case neg =>
          rw [if_neg hok] at h
          rw [if_neg hok]
          simp only [Option.some.injEq, Prod.mk.injEq] at h ⊢
          exact ⟨h.1, by omega, h.2.2⟩

theorem outerLoop_exshift {nb : Nb} {t : Nat} :
    ∀ f : Nat, ∀ {g : Game} {ex : Nat} {g' : Game} {ex' : Nat} {st : SearchStatus} (d : Nat),
    outerLoop nb t f g ex = some (g', ex', st) →
    outerLoop nb t f g (ex + d) = some (g', ex' + d, st) := by
  intro f
  induction f with
  | zero =>
    intro g ex g' ex' st d h
    cases h
  | succ f ih =>
    intro g ex g' ex' st d h
    by_cases hlt : g.searchIndex < t
    case neg =>
      rw [outerLoop_stop _ _ _ _ _ hlt] at h
      rw [outerLoop_stop _ _ _ _ _ hlt]
      simp only [Option.some.injEq, Prod.mk.injEq] at h ⊢
      exact ⟨h.1, by omega, h.2.2⟩
    case pos =>
      rw [outerLoop_succ, if_pos hlt] at h
      rw [outerLoop_succ, if_pos hlt]
      cases hin : innerLoop nb (decide (condStart g)) (otherEndpoints (decide (condStart g)) g)
          t (f + 1) g ex with
      | none =>
        rw [hin] at h
        cases h
      | some trip =>
        obtain ⟨g1, ex1, exh⟩ := trip
        have hin2 := innerLoop_exshift (f + 1) d hin
        rw [hin] at h
        rw [hin2]
        cases exh
        case false =>
          exact ih d h
        case true =>
          simp only [Option.some.injEq, Prod.mk.injEq] at h ⊢
          exact ⟨h.1, by omega, h.2.2⟩

theorem procMids_sim {t₁ t₂ : Nat} (h12 : t₁ ≤ t₂) :
    ∀ (ms : List Name) (g h : Game),
    g.searchIndex = min t₁ g.paths.length →
    procMids t₁ ms g = some h →
    h.searchIndex = min t₁ h.paths.length ∧
    h.startTree = g.startTree ∧ h.endTree = g.endTree ∧
    procMids t₂ ms (retgt t₂ g) = some (retgt t₂ h)
  | [], g, h, hsi, hp => by
    simp only [procMids, Option.some.injEq] at hp
    subst hp
    exact ⟨hsi, rfl, rfl, rfl⟩
  | m :: ms, g, h, hsi, hp => by
    obtain ⟨A, B, c, P⟩ := g
    unfold procMids at hp
    cases hsm : stepMid t₁ ⟨A, B, c, P⟩ m with
    | none =>
      rw [hsm] at hp
      cases hp
    | some g1 =>
      rw [hsm] at hp
      unfold stepMid at hsm
      cases hgp : Game.getPath ⟨A, B, c, P⟩ m with
      | none =>
        rw [hgp] at hsm
        cases hsm
      | some path =>
        rw [hgp] at hsm
        simp only [Option.some.injEq] at hsm
        subst hsm
        have hsi' : c = min t₁ P.length := hsi
        have hlink1 : (Game.mk A B (if c < t₁ then c + 1 else c) (P ++ [path])).searchIndex =
            min t₁ (Game.mk A B (if c < t₁ then c + 1 else c) (P ++ [path])).paths.length := by
          show (if c < t₁ then c + 1 else c) = min t₁ (P ++ [path]).length
          simp only [List.length_append, List.length_singleton]
          split <;> omega
        obtain ⟨hl2, hs2, he2, hβ⟩ := procMids_sim h12 ms _ h hlink1 hp
        refine ⟨hl2, hs2, he2, ?_⟩
        have hsmβ : stepMid t₂ (retgt t₂ (Game.mk A B c P)) m =
            some (retgt t₂ (Game.mk A B (if c < t₁ then c + 1 else c) (P ++ [path]))) := by
          unfold stepMid
          rw [show Game.getPath (retgt t₂ (Game.mk A B c P)) m =
              Game.getPath (Game.mk A B c P) m from rfl, hgp]
          simp only [retgt, Option.some.injEq, Game.mk.injEq, List.length_append,
            List.length_singleton, true_and, and_true]
          split <;> omega
        unfold procMids
        rw [hsmβ]
        exact hβ

theorem align_true {g : Game}
    (hmid : g.startTree.queueLevel + 2 = g.startTree.levels.length) :
    condStart g :=
  Or.inl (by omega)

theorem align_false {g : Game}
    (hmid : g.endTree.queueLevel + 2 = g.endTree.levels.length)
    (hfresh : freshT g.startTree) : ¬ condStart g := by
  intro hc
  unfold freshT at hfresh
  rcases hc with h1 | ⟨h2, _⟩
  · omega
  · omega

theorem sideInv {nb : Nb} {g : Game} (hinv : GameInv nb g) (s : Bool) :
    TreeInv nb (sideTree s g) := by
  cases s
  · exact hinv.eInv
  · exact hinv.sInv

theorem step_side_spec {nb : Nb} {g : Game} {res : ExpRes} (s : Bool) (target : Nat)
    (hinv : GameInv nb g) (hlive : bothLive g) (hfresh : freshT (sideTree (!s) g))
    (hex : (sideTree s g).explore nb = some res) (hok : res.ok = true)
    (hsi : g.searchIndex = min target g.paths.length) :
    ∃ g2, procMids target (meet (otherEndpoints s g) res.newPages)
        (setSideTree s g res.tree) = some g2 ∧
      GameInv nb g2 ∧ bothLive g2 ∧
      sideTree (!s) g2 = sideTree (!s) g ∧ sideTree s g2 = res.tree ∧
      g2.searchIndex = min target g2.paths.length := by
  cases s
  · have hfresh' : freshT g.startTree := hfresh
    have hex' : g.endTree.explore nb = some res := hex
    obtain ⟨g2, hproc, hinv2, hlive2, hst, het, _, _, _, _, hsim⟩ :=
      step_false_spec target hinv hlive hfresh' hex' hok hsi
    exact ⟨g2, hproc, hinv2, hlive2, hst, het, hsim⟩
  · have hfresh' : freshT g.endTree := hfresh
    have hex' : g.startTree.explore nb = some res := hex
    obtain ⟨g2, hproc, hinv2, hlive2, het, hst, _, _, _, _, hsim⟩ :=
      step_true_spec target hinv hlive hfresh' hex' hok hsi
    exact ⟨g2, hproc, hinv2, hlive2, het, hst, hsim⟩

/-- Lockstep simulation of the inner loop against a larger target: either the
looser run returns the retargeted image of the stricter run's result in the
same number of explores, or the stricter run stopped because its target was
reached mid-level and the looser run's remaining computation factors through
the stricter run's final state. -/
theorem inner_sim {nb : Nb} {s : Bool} {other : List Page} {t₁ t₂ : Nat} (h12 : t₁ ≤ t₂) :
    ∀ (fuel : Nat) (g : Game) (ex : Nat) (g' : Game) (ex' : Nat) (exh : Bool),
    GameInv nb g → bothLive g → freshT (sideTree (!s) g) →
    other = otherEndpoints s g →
    g.searchIndex = min t₁ g.paths.length →
    innerLoop nb s other t₁ fuel g ex = some (g', ex', exh) →
    ( (∀ F gB exB exhB, innerLoop nb s other t₂ F (retgt t₂ g) ex = some (gB, exB, exhB) →
        gB = retgt t₂ g' ∧ exB = ex' ∧ exhB = exh) ∨
      (exh = false ∧ t₁ ≤ g'.paths.length ∧
        (g' = g ∨ (sideTree s g').queueLevel + 2 = (sideTree s g').levels.length) ∧
        (∀ F : Nat, ∃ F2, F2 ≤ F ∧
          innerLoop nb s other t₂ F (retgt t₂ g) ex =
            innerLoop nb s other t₂ F2 (retgt t₂ g') ex')) ) := by
  intro fuel
  induction fuel with
  | zero =>
    intro g ex g' ex' exh _ _ _ _ _ h
    cases h
  | succ fuel ih =>
    intro g ex g' ex' exh hinv hlive hfresh hother hsi h
    by_cases hlt : g.searchIndex < t₁
    case neg =>
      rw [innerLoop_stop _ _ _ _ _ _ _ hlt] at h
      simp only [Option.some.injEq, Prod.mk.injEq] at h
      obtain ⟨rfl, rfl, rfl⟩ := h
      refine Or.inr ⟨rfl, by omega, Or.inl rfl, ?_⟩
      intro F
      exact ⟨F, Nat.le_refl F, rfl⟩
    case pos =>
      rw [innerLoop_succ, if_pos hlt] at h
      have hlen : g.paths.length < t₁ := by omega
      have hβlt : (retgt t₂ g).searchIndex < t₂ := by
        show min t₂ g.paths.length < t₂
        omega
      cases hex : (sideTree s g).explore nb with
      | none =>
        rw [hex] at h
        cases h
      | some res =>
        rw [hex] at h
        dsimp only at h
        have hexβ : (sideTree s (retgt t₂ g)).explore nb = some res := by
          rw [sideTree_retgt]
          exact hex
        by_cases hok : res.ok = true
        case neg =>
          rw [if_neg hok] at h
          simp only [Option.some.injEq, Prod.mk.injEq] at h
          obtain ⟨rfl, rfl, rfl⟩ := h
          left
          intro F gB exB exhB hB
          cases F with
          | zero => cases hB
          | succ F =>
            rw [innerLoop_succ, if_pos hβlt, hexβ] at hB
            dsimp only at hB
            rw [if_neg hok] at hB
            simp only [Option.some.injEq, Prod.mk.injEq] at hB
            obtain ⟨rfl, rfl, rfl⟩ := hB
            exact ⟨(setSideTree_retgt s t₂ g res.tree).symm ▸ rfl, rfl, rfl⟩
        case pos =>
          rw [if_pos hok] at h
          cases hpm : procMids t₁ (meet other res.newPages) (setSideTree s g res.tree) with
          | none =>
            rw [hpm] at h
            cases h
          | some g2 =>
            rw [hpm] at h
            dsimp only at h
            have hsiSet : (setSideTree s g res.tree).searchIndex =
                min t₁ (setSideTree s g res.tree).paths.length := by
              cases s <;> exact hsi
            obtain ⟨hlink2, hsame2, hsame2e, hpmβ⟩ :=
              procMids_sim h12 (meet other res.newPages) _ g2 hsiSet hpm
            have hpmβ' : procMids t₂ (meet other res.newPages)
                (setSideTree s (retgt t₂ g) res.tree) = some (retgt t₂ g2) := by
              rw [setSideTree_retgt]
              exact hpmβ
            obtain ⟨g2', hproc', hinv2, hlive2, hsideO, hsideS, hsim2⟩ :=
              step_side_spec s t₁ hinv hlive hfresh hex hok hsi
            have hg2eq : g2' = g2 := by
              rw [hother] at hpm
              rw [hproc'] at hpm
              exact (Option.some.injEq _ _).mp hpm
            rw [hg2eq] at hproc' hinv2 hlive2 hsideO hsideS hsim2
            by_cases hld : res.levelDone = true
            case pos =>
              rw [if_pos hld] at h
              simp only [Option.some.injEq, Prod.mk.injEq] at h
              obtain ⟨rfl, rfl, rfl⟩ := h
              left
              intro F gB exB exhB hB
              cases F with
              | zero => cases hB
              | succ F =>
                rw [innerLoop_succ, if_pos hβlt, hexβ] at hB
                dsimp only at hB
                rw [if_pos hok, hpmβ'] at hB
                dsimp only at hB
                rw [if_pos hld] at hB
                simp only [Option.some.injEq, Prod.mk.injEq] at hB
                obtain ⟨rfl, rfl, rfl⟩ := hB
                exact ⟨rfl, rfl, rfl⟩
            case neg =>
              rw [if_neg hld] at h
              have hldF : res.levelDone = false := by
                cases hres2 : res.levelDone
                · rfl
                · exact absurd hres2 hld
              have post := explore_spec (sideInv hinv s) hex
              have hmid2 : (sideTree s g2).queueLevel + 2 =
                  (sideTree s g2).levels.length := by
                rw [hsideS]
                exact post.mid_after hok hldF
              have hfresh2 : freshT (sideTree (!s) g2) := by
                rw [hsideO]
                exact hfresh
              have hother2 : other = otherEndpoints s g2 := by
                rw [otherEndpoints_eq, hsideO, ← otherEndpoints_eq]
                exact hother
              have ihres := ih g2 (ex + 1) g' ex' exh hinv2 hlive2 hfresh2 hother2 hsim2 h
              rcases ihres with hlock | ⟨hexh, hT, hmid, hfact⟩
              · left
                intro F gB exB exhB hB
                cases F with
                | zero => cases hB
                | succ F =>
                  rw [innerLoop_succ, if_pos hβlt, hexβ] at hB
                  dsimp only at hB
                  rw [if_pos hok, hpmβ'] at hB
                  dsimp only at hB
                  rw [if_neg hld] at hB
                  exact hlock F gB exB exhB hB
              · refine Or.inr ⟨hexh, hT, ?_, ?_⟩
                · rcases hmid with rfl | hm
                  · exact Or.inr hmid2
                  · exact Or.inr hm
                · intro F
                  cases F with
                  | zero => exact ⟨0, Nat.le_refl 0, rfl⟩
                  | succ F =>
                    obtain ⟨F2, hF2le, heq⟩ := hfact F
                    refine ⟨F2, by omega, ?_⟩
                    rw [innerLoop_succ, if_pos hβlt, hexβ]
                    dsimp only
                    rw [if_pos hok, hpmβ']
                    dsimp only
                    rw [if_neg hld]
                    exact heq

theorem outer_live {nb : Nb} {t : Nat} :
    ∀ fuel : Nat, ∀ {g : Game} {ex : Nat} {g' : Game} {ex' : Nat},
    GameInv nb g → bothLive g →
    g.searchIndex = min t g.paths.length →
    outerLoop nb t fuel g ex = some (g', ex', .completed) →
    bothLive g' := by
  intro fuel
  induction fuel with
  | zero =>
    intro g ex g' ex' _ _ _ h
    cases h
  | succ fuel ih =>
    intro g ex g' ex' hinv hlive hsi h
    by_cases hlt : g.searchIndex < t
    case neg =>
      rw [outerLoop_stop _ _ _ _ _ hlt] at h
      simp only [Option.some.injEq, Prod.mk.injEq] at h
      obtain ⟨rfl, rfl, -⟩ := h
      exact hlive
    case pos =>
      rw [outerLoop_succ, if_pos hlt] at h
      generalize hsd : decide (condStart g) = s at h
      have hfresh : freshT (sideTree (!s) g) := by
        cases s
        · exact (condStart_fresh hinv).2 (of_decide_eq_false hsd)
        · exact (condStart_fresh hinv).1 (of_decide_eq_true hsd)
      cases hin : innerLoop nb s (otherEndpoints s g) t (fuel + 1) g ex with
      | none =>
        rw [hin] at h
        cases h
      | some trip =>
        obtain ⟨g1, ex1, exh⟩ := trip
        rw [hin] at h
        cases exh
        case false =>
          obtain ⟨hinv1, -, -, -, -, -, hsim1, hliveF, -⟩ :=
            inner_spec s t (otherEndpoints s g) (fuel + 1) g ex g1 ex1 false
              hinv hlive hfresh rfl hsi hin
          exact ih hinv1 (hliveF rfl) hsim1 h
        case true =>
          simp only [Option.some.injEq, Prod.mk.injEq] at h
          obtain ⟨-, -, hst⟩ := h
          cases s
          · cases hst
          · cases hst

/-- Lockstep simulation of the outer loop against a larger target: if the
stricter run exits exhausted, the looser run reaches the retargeted image of
the same state with the same explore count and status; if the stricter run
completes, the looser run's result is reproducible by restarting the outer
loop from the stricter run's final state. -/
theorem outer_sim {nb : Nb} {t₁ t₂ : Nat} (h12 : t₁ ≤ t₂) :
    ∀ (fuel : Nat) (g : Game) (ex : Nat) (g' : Game) (ex' : Nat) (st : SearchStatus),
    GameInv nb g →
    g.searchIndex = min t₁ g.paths.length →
    (g.searchIndex < t₁ → bothLive g) →
    outerLoop nb t₁ fuel g ex = some (g', ex', st) →
    ∀ F gB exB stB, outerLoop nb t₂ F (retgt t₂ g) ex = some (gB, exB, stB) →
    ((st = .completed → ∃ F2, outerLoop nb t₂ F2 (retgt t₂ g') ex' = some (gB, exB, stB)) ∧
     (st ≠ .completed → gB = retgt t₂ g' ∧ exB = ex' ∧ stB = st)) := by
  intro fuel
  induction fuel with
  | zero =>
    intro g ex g' ex' st _ _ _ h
    cases h
  | succ fuel ih =>
    intro g ex g' ex' st hinv hsi hliveg h
    by_cases hlt : g.searchIndex < t₁
    case neg =>
      rw [outerLoop_stop _ _ _ _ _ hlt] at h
      simp only [Option.some.injEq, Prod.mk.injEq] at h
      obtain ⟨rfl, rfl, rfl⟩ := h
      intro F gB exB stB hB
      exact ⟨fun _ => ⟨F, hB⟩, fun hne => absurd rfl hne⟩
    case pos =>
      have hlive := hliveg hlt
      have hlen : g.paths.length < t₁ := by omega
      have hβlt : (retgt t₂ g).searchIndex < t₂ := by
        show min t₂ g.paths.length < t₂
        omega
      rw [outerLoop_succ, if_pos hlt] at h
      generalize hsd : decide (condStart g) = s at h
      have hfresh : freshT (sideTree (!s) g) := by
        cases s
        · exact (condStart_fresh hinv).2 (of_decide_eq_false hsd)
        · exact (condStart_fresh hinv).1 (of_decide_eq_true hsd)
      have hsdβ : decide (condStart (retgt t₂ g)) = s := by
        rw [condStart_retgt]
        exact hsd
      cases hin : innerLoop nb s (otherEndpoints s g) t₁ (fuel + 1) g ex with
      | none =>
        rw [hin] at h
        cases h
      | some trip =>
        obtain ⟨g1, ex1, exh⟩ := trip
        rw [hin] at h
        have isim := inner_sim h12 (fuel + 1) g ex g1 ex1 exh hinv hlive hfresh rfl hsi hin
        obtain ⟨hinv1, hsideU, -, -, -, -, hsim1, hliveF, -⟩ :=
          inner_spec s t₁ (otherEndpoints s g) (fuel + 1) g ex g1 ex1 exh
            hinv hlive hfresh rfl hsi hin
        intro F gB exB stB hB
        cases F with
        | zero => cases hB
        | succ Fb =>
          rw [outerLoop_succ, if_pos hβlt, hsdβ, otherEndpoints_retgt] at hB
          cases exh
          case true =>
            simp only [Option.some.injEq, Prod.mk.injEq] at h
            obtain ⟨rfl, rfl, rfl⟩ := h
            rcases isim with hlock | ⟨hfalse, -⟩
            · cases hinB : innerLoop nb s (otherEndpoints s g) t₂ (Fb + 1) (retgt t₂ g) ex with
              | none =>
                rw [hinB] at hB
                cases hB
              | some tripB =>
                obtain ⟨h1, e1, b1⟩ := tripB
                rw [hinB] at hB
                obtain ⟨rfl, rfl, rfl⟩ := hlock (Fb + 1) h1 e1 b1 hinB
                simp only [Option.some.injEq, Prod.mk.injEq] at hB
                obtain ⟨rfl, rfl, rfl⟩ := hB
                constructor
                · intro hc
                  cases s
                  · cases hc
                  · cases hc
                · intro _
                  exact ⟨rfl, rfl, rfl⟩
            · cases hfalse
          case false =>
            dsimp only at h
            rcases isim with hlock | ⟨-, hT1, hmidOr, hfact⟩
            · cases hinB : innerLoop nb s (otherEndpoints s g) t₂ (Fb + 1) (retgt t₂ g) ex with
              | none =>
                rw [hinB] at hB
                cases hB
              | some tripB =>
                obtain ⟨h1, e1, b1⟩ := tripB
                rw [hinB] at hB
                obtain ⟨rfl, he1, rfl⟩ := hlock (Fb + 1) h1 e1 b1 hinB
                rw [he1] at hB
                exact ih g1 ex1 g' ex' st hinv1 hsim1 (fun _ => hliveF rfl) h
                  Fb gB exB stB hB
            · have hstop : ¬ (g1.searchIndex < t₁) := by
                rw [hsim1]
                omega
              cases fuel with
              | zero => cases h
              | succ fb =>
                rw [outerLoop_stop _ _ _ _ _ hstop] at h
                simp only [Option.some.injEq, Prod.mk.injEq] at h
                obtain ⟨rfl, rfl, rfl⟩ := h
                refine ⟨?_, fun hne => absurd rfl hne⟩
                rintro -
                obtain ⟨Fi, hFile, heq⟩ := hfact (Fb + 1)
                rw [heq] at hB
                cases hv : innerLoop nb s (otherEndpoints s g) t₂ Fi (retgt t₂ g1) ex1 with
                | none =>
                  rw [hv] at hB
                  cases hB
                | some tripV =>
                  obtain ⟨h1, e1, b1⟩ := tripV
                  rw [hv] at hB
                  by_cases hguard : t₂ ≤ g1.paths.length
                  · have hstopβ : ¬ ((retgt t₂ g1).searchIndex < t₂) := by
                      show ¬ (min t₂ g1.paths.length < t₂)
                      omega
                    cases Fi with
                    | zero => cases hv
                    | succ fi =>
                      rw [innerLoop_stop _ _ _ _ _ _ _ hstopβ] at hv
                      simp only [Option.some.injEq, Prod.mk.injEq] at hv
                      obtain ⟨rfl, rfl, rfl⟩ := hv
                      exact ⟨Fb, hB⟩
                  · have hmid1 : (sideTree s g1).queueLevel + 2 =
                        (sideTree s g1).levels.length := by
                      rcases hmidOr with rfl | hm
                      · omega
                      · exact hm
                    have hfresh1 : freshT (sideTree (!s) g1) := by
                      rw [hsideU]
                      exact hfresh
                    have hsd1 : decide (condStart (retgt t₂ g1)) = s := by
                      rw [condStart_retgt]
                      cases s
                      · exact decide_eq_false (align_false hmid1 hfresh1)
                      · exact decide_eq_true (align_true hmid1)
                    have hother1 : otherEndpoints s (retgt t₂ g1) = otherEndpoints s g := by
                      rw [otherEndpoints_retgt, otherEndpoints_eq, hsideU, ← otherEndpoints_eq]
                    have hβlt1 : (retgt t₂ g1).searchIndex < t₂ := by
                      show min t₂ g1.paths.length < t₂
                      omega
                    refine ⟨Fb + 1, ?_⟩
                    rw [outerLoop_succ, if_pos hβlt1, hsd1, hother1,
                      innerLoop_mono Fi (by omega : Fi ≤ Fb + 1) hv]
                    cases b1 <;> exact hB

theorem GameInv.retgt {nb : Nb} {g : Game} (hinv : GameInv nb g) (hlive : bothLive g)
    (t : Nat) : GameInv nb (retgt t g) := by
  constructor
  case sInv => exact hinv.sInv
  case eInv => exact hinv.eInv
  case sDir => exact hinv.sDir
  case eDir => exact hinv.eDir
  case freshOr => exact hinv.freshOr
  case siLen =>
    show min t g.paths.length ≤ g.paths.length
    omega
  case emptyEpSi =>
    intro hc
    exfalso
    rcases hc with hc | hc
    · exact hlive.1 hc
    · exact hlive.2 hc
  case sorted => exact hinv.sorted
  case bound => exact hinv.bound
  case good => exact hinv.good

theorem search_empty_start (nb : Nb) (g : Game) (fuel count : Nat)
    (h : g.startTree.endpoints.isEmpty = true) :
    Game.search nb fuel count g =
      some { delivered := [], game := g, explores := 0, status := .startExhausted } := by
  unfold Game.search
  rw [if_pos h]

theorem search_empty_end (nb : Nb) (g : Game) (fuel count : Nat)
    (h1 : g.startTree.endpoints.isEmpty = false)
    (h2 : g.endTree.endpoints.isEmpty = true) :
    Game.search nb fuel count g =
      some { delivered := [], game := g, explores := 0, status := .endExhausted } := by
  unfold Game.search
  rw [if_neg (by simp [h1]), if_pos h2]

/-- Which return point a successful `search` call took, with the outer-loop
equation it rests on in the normal case. -/
theorem search_run {nb : Nb} {g : Game} {fuel count : Nat} {r : SearchResult}
    (hinv : GameInv nb g) (h : Game.search nb fuel count g = some r) :
    (g.startTree.endpoints.isEmpty = true ∧
      r = { delivered := [], game := g, explores := 0, status := .startExhausted }) ∨
    (g.startTree.endpoints.isEmpty = false ∧ g.endTree.endpoints.isEmpty = true ∧
      r = { delivered := [], game := g, explores := 0, status := .endExhausted }) ∨
    (g.startTree.endpoints.isEmpty = false ∧ g.endTree.endpoints.isEmpty = false ∧
      ∃ st, outerLoop nb (g.searchIndex + count) fuel (retgt (g.searchIndex + count) g) 0 =
          some (r.game, r.explores, st) ∧
        r.status = st ∧
        r.delivered = (r.game.paths.drop g.searchIndex).take count) := by
  unfold Game.search at h
  by_cases h1 : g.startTree.endpoints.isEmpty
  · rw [if_pos h1] at h
    simp only [Option.some.injEq] at h
    exact Or.inl ⟨h1, h.symm⟩
  · rw [if_neg h1] at h
    by_cases h2 : g.endTree.endpoints.isEmpty
    · rw [if_pos h2] at h
      simp only [Option.some.injEq] at h
      exact Or.inr (Or.inl ⟨Bool.eq_false_iff.mpr h1, h2, h.symm⟩)
    · rw [if_neg h2] at h
      simp only at h
      have hg1 : ({ g with searchIndex := max g.searchIndex (min (g.searchIndex + count) g.paths.length) } : Game) = retgt (g.searchIndex + count) g := by
        unfold retgt
        have := hinv.siLen
        congr 1
        omega
      rw [hg1] at h
      cases hout : outerLoop nb (g.searchIndex + count) fuel
          (retgt (g.searchIndex + count) g) 0 with
      | none =>
        rw [hout] at h
        cases h
      | some trip =>
        obtain ⟨g2, ex2, st⟩ := trip
        rw [hout] at h
        simp only [Option.some.injEq] at h
        subst h
        refine Or.inr (Or.inr ⟨Bool.eq_false_iff.mpr h1, Bool.eq_false_iff.mpr h2,
          st, ?_, rfl, rfl⟩)
        exact rfl

theorem slice_concat2 {α : Type} (l : List α) (a b c : Nat) :
    (l.drop a).take b ++ (l.drop (a + b)).take c = (l.drop a).take (b + c) := by
  rw [List.take_add]
  congr 1
  rw [List.drop_drop]

/-- Splitting a search budget across two consecutive calls delivers exactly
the paths a single call with the combined budget delivers. -/
theorem search_split {nb : Nb} {g : Game} {c₁ c₂ f₁ f₂ f₃ : Nat} {r₁ r₂ r₃ : SearchResult}
    (hinv : GameInv nb g)
    (h1 : Game.search nb f₁ c₁ g = some r₁)
    (h2 : Game.search nb f₂ c₂ r₁.game = some r₂)
    (h3 : Game.search nb f₃ (c₁ + c₂) g = some r₃) :
    r₁.delivered ++ r₂.delivered = r₃.delivered := by
  rcases search_run hinv h1 with ⟨hE, hr1⟩ | ⟨hne1, hE, hr1⟩ |
    ⟨hne1, hne2, st₁, hout1, hst1, hd1⟩
  · have h2e := search_empty_start nb r₁.game f₂ c₂ (by rw [hr1]; exact hE)
    rw [h2e] at h2
    have hr2 := (Option.some.injEq _ _).mp h2
    have h3e := search_empty_start nb g f₃ (c₁ + c₂) hE
    rw [h3e] at h3
    have hr3 := (Option.some.injEq _ _).mp h3
    rw [hr1, ← hr2, ← hr3]
    rfl
  · have h2e := search_empty_end nb r₁.game f₂ c₂
      (by rw [hr1]; exact hne1) (by rw [hr1]; exact hE)
    rw [h2e] at h2
    have hr2 := (Option.some.injEq _ _).mp h2
    have h3e := search_empty_end nb g f₃ (c₁ + c₂) hne1 hE
    rw [h3e] at h3
    have hr3 := (Option.some.injEq _ _).mp h3
    rw [hr1, ← hr2, ← hr3]
    rfl
  · have hlive : bothLive g := by
      constructor
      · intro hx
        rw [hx] at hne1
        simp at hne1
      · intro hx
        rw [hx] at hne2
        simp at hne2
    have hinvR : GameInv nb (retgt (g.searchIndex + c₁) g) := hinv.retgt hlive _
    rcases search_run hinv h3 with ⟨hE3, -⟩ | ⟨-, hE3, -⟩ | ⟨-, -, st₃, hout3, hst3, hd3⟩
    · rw [hne1] at hE3
      cases hE3
    · rw [hne2] at hE3
      cases hE3
    · have h12 : g.searchIndex + c₁ ≤ g.searchIndex + (c₁ + c₂) := by omega
      have hout3' : outerLoop nb (g.searchIndex + (c₁ + c₂)) f₃
          (retgt (g.searchIndex + (c₁ + c₂)) (retgt (g.searchIndex + c₁) g)) 0 =
          some (r₃.game, r₃.explores, st₃) := hout3
      have hsimres := outer_sim h12 f₁ (retgt (g.searchIndex + c₁) g) 0
        r₁.game r₁.explores st₁ hinvR rfl (fun _ => hlive) hout1
        f₃ r₃.game r₃.explores st₃ hout3'
      obtain ⟨hinv1, -, -, -, -, hsim1, hcomp1, hsEx1, heEx1⟩ :=
        outer_spec (g.searchIndex + c₁) f₁ (retgt (g.searchIndex + c₁) g) 0
          r₁.game r₁.explores st₁ hinvR rfl (fun _ => hlive) hout1
      by_cases hstc : st₁ = SearchStatus.completed
      · obtain ⟨F2, hres⟩ := hsimres.1 hstc
        have hout1c : outerLoop nb (g.searchIndex + c₁) f₁ (retgt (g.searchIndex + c₁) g) 0 =
            some (r₁.game, r₁.explores, .completed) := by
          rw [← hstc]
          exact hout1
        have hlive1 : bothLive r₁.game := outer_live f₁ hinvR hlive rfl hout1c
        have hsge := hcomp1 hstc
        have hsi1 : r₁.game.searchIndex = g.searchIndex + c₁ := by omega
        have hlen1 : g.searchIndex + c₁ ≤ r₁.game.paths.length := by omega
        rcases search_run hinv1 h2 with ⟨hE2, -⟩ | ⟨-, hE2, -⟩ |
          ⟨-, -, st₂, hout2, hst2, hd2⟩
        · exact absurd (List.isEmpty_iff.mp hE2) hlive1.1
        · exact absurd (List.isEmpty_iff.mp hE2) hlive1.2
        · rw [hsi1] at hout2 hd2
          have hassoc : g.searchIndex + c₁ + c₂ = g.searchIndex + (c₁ + c₂) := by omega
          rw [hassoc] at hout2
          have hout2' := outerLoop_exshift f₂ r₁.explores hout2
          rw [Nat.zero_add] at hout2'
          have heq3 := outerLoop_irrel hres hout2'
          simp only [Prod.mk.injEq] at heq3
          obtain ⟨hg32, hex32, hst32⟩ := heq3
          have hinvR2 : GameInv nb (retgt (g.searchIndex + (c₁ + c₂)) r₁.game) :=
            hinv1.retgt hlive1 _
          obtain ⟨-, -, -, ⟨e2, hp2⟩, -, -, -, -, -⟩ :=
            outer_spec (g.searchIndex + (c₁ + c₂)) f₂
              (retgt (g.searchIndex + (c₁ + c₂)) r₁.game) 0
              r₂.game r₂.explores st₂ hinvR2 rfl (fun _ => hlive1) hout2
          have hp2' : r₂.game.paths = r₁.game.paths ++ e2 := hp2
          rw [hd1, hd2, hd3, hg32]
          rw [show (List.take c₁ (List.drop g.searchIndex r₁.game.paths)) =
              List.take c₁ (List.drop g.searchIndex r₂.game.paths) from by
            rw [hp2']
            exact (slice_prefix_stable _ _ (by omega)).symm]
          exact slice_concat2 r₂.game.paths g.searchIndex c₁ c₂
      · obtain ⟨hg3R, hex3R, hst3R⟩ := hsimres.2 hstc
        have hpair : (r₁.game.startTree.endpoints = [] ∨ r₁.game.endTree.endpoints = []) ∧
            r₁.game.searchIndex = r₁.game.paths.length := by
          cases st₁ with
          | completed => exact absurd rfl hstc
          | startExhausted => exact ⟨Or.inl (hsEx1 rfl).1, (hsEx1 rfl).2⟩
          | endExhausted => exact ⟨Or.inr (heEx1 rfl).1, (heEx1 rfl).2⟩
        have hlen1 : r₁.game.paths.length ≤ g.searchIndex + c₁ := by omega
        have hR : retgt (g.searchIndex + (c₁ + c₂)) r₁.game = r₁.game :=
          retgt_self (by omega)
        rcases search_run hinv1 h2 with ⟨hE2, hr2⟩ | ⟨-, hE2, hr2⟩ |
          ⟨hne21, hne22, -⟩
        · rw [hd1, hr2, hd3, hg3R, hR]
          dsimp only
          rw [List.append_nil, List.take_eq_take]
          simp only [List.length_drop]
          omega
        · rw [hd1, hr2, hd3, hg3R, hR]
          dsimp only
          rw [List.append_nil, List.take_eq_take]
          simp only [List.length_drop]
          omega
        · rcases hpair.1 with hx | hx
          · rw [hx] at hne21
            simp at hne21
          · rw [hx] at hne22
            simp at hne22

/-- C3: pagination consistency. On a reachable game, `search(3)` followed by
`search(2)` delivers exactly the paths a single `search(5)` call delivers, in
the same order; and when at least 3 paths are already buffered past the
cursor, the first call serves them without any explore call. -/
theorem C3_pagination {nb : Nb} {g : Game} {f₁ f₂ f₃ : Nat} {r₁ r₂ r₃ : SearchResult}
    (hg : GameReach nb g)
    (h1 : Game.search nb f₁ 3 g = some r₁)
    (h2 : Game.search nb f₂ 2 r₁.game = some r₂)
    (h3 : Game.search nb f₃ 5 g = some r₃) :
    r₁.delivered ++ r₂.delivered = r₃.delivered ∧
    (g.searchIndex + 3 ≤ g.paths.length → r₁.explores = 0) := by
  have hinv := gameReach_inv hg
  have h3' : Game.search nb f₃ (3 + 2) g = some r₃ := h3
  refine ⟨search_split hinv h1 h2 h3', ?_⟩
  intro hbuf
  rcases search_run hinv h1 with ⟨-, hr1⟩ | ⟨-, -, hr1⟩ | ⟨-, -, st₁, hout1, -, -⟩
  · rw [hr1]
  · rw [hr1]
  · have hstop : ¬ ((retgt (g.searchIndex + 3) g).searchIndex < g.searchIndex + 3) := by
      show ¬ (min (g.searchIndex + 3) g.paths.length < g.searchIndex + 3)
      omega
    cases f₁ with
    | zero => cases hout1
    | succ f =>
      rw [outerLoop_stop _ _ _ _ _ hstop] at hout1
      simp only [Option.some.injEq, Prod.mk.injEq] at hout1
      exact hout1.2.1.symm

def demoS3 : SearchResult := (Game.search nbDemo 20 3 demoG0).getD dfltR

def demoS2 : SearchResult := (Game.search nbDemo 20 2 demoS3.game).getD dfltR

def demoS5 : SearchResult := (Game.search nbDemo 20 5 demoG0).getD dfltR

theorem demoS3_eq : Game.search nbDemo 20 3 demoG0 = some demoS3 := by rfl

theorem demoS2_eq : Game.search nbDemo 20 2 demoS3.game = some demoS2 := by rfl

theorem demoS5_eq : Game.search nbDemo 20 5 demoG0 = some demoS5 := by rfl

/-- C3 witness: on the demo graph, `search(3)` then `search(2)` deliver
`[[A,X,D], [A,X,M,X,D]]` then `[]`, exactly what `search(5)` delivers. -/
theorem C3_pagination_witness :
    demoS3.delivered ++ demoS2.delivered = demoS5.delivered ∧
    (demoG0.searchIndex + 3 ≤ demoG0.paths.length → demoS3.explores = 0) :=
  C3_pagination (GameReach.init "A" "D") demoS3_eq demoS2_eq demoS5_eq

end Wiki
